import Mathlib

/-!
# The trie hasher of `trie/pure_hasher.go`

A shallow embedding of `pureHasher.hash` and its helpers.  Byte slices are lists of
naturals, a Go `panic` is `none`, and the hasher instance (`*pureHasher`) is passed
explicitly as a state value and returned next to the results.
-/

namespace trie

/-! ## Node model (`trie/node.go`, declarations only) -/

/-- Modelled from the spec: the `nodeFlag` struct, declared in `trie/node.go`.
It carries the optional cached digest of a node (`none` is the Go `nil` slice) and the
dirty bit that `cache()` returns next to it. -/
structure nodeFlag where
  hash : Option (List Nat)
  dirty : Bool
deriving DecidableEq, Repr

/-- Modelled from the spec: the four node variants, declared in `trie/node.go`.
A short node has a key, a value node and flags; a full node has its child slots (17 in a
well-formed node, slot 16 being the terminal value; an empty slot is `none`) and flags;
hash nodes and value nodes are byte strings. -/
inductive node where
  | shortNode (Key : List Nat) (Val : node) (flags : nodeFlag)
  | fullNode (Children : List (Option node)) (flags : nodeFlag)
  | hashNode (b : List Nat)
  | valueNode (b : List Nat)
deriving Repr

/-- Modelled from the spec: the canonical empty value `nilValueNode = valueNode(nil)` of
`trie/node.go`. -/
def nilValueNode : node := .valueNode []

/-- Modelled from the spec: `node.cache()`, the cached digest (if any) and the dirty bit;
hash nodes and value nodes carry no digest. -/
def node.cache : node → Option (List Nat) × Bool
  | .shortNode _ _ flags => (flags.hash, flags.dirty)
  | .fullNode _ flags => (flags.hash, flags.dirty)
  | .hashNode _ => (none, true)
  | .valueNode _ => (none, true)

/-- The assignment `n.flags.hash = d` on a short or full node. -/
def node.setHash : node → Option (List Nat) → node
  | .shortNode Key Val flags, d => .shortNode Key Val { flags with hash := d }
  | .fullNode Children flags, d => .fullNode Children { flags with hash := d }
  | n, _ => n

/-- The type assertion `n.(hashNode)`. -/
def node.asHashNode : node → Option (List Nat)
  | .hashNode b => some b
  | _ => none

/-! ## External collaborators -/

/-- The functions the hasher calls but does not define: the key packing `hexToCompact`,
the binary encoder (`rlp.Encode` on a short node, `EncodeRLP` on a full node; `none` is
an encoding error) and the Keccak sponge, given as the output stream squeezed after
absorbing a message (`keccak msg i` is output byte `i`). -/
structure Collab where
  hexToCompact : List Nat → List Nat
  encode : node → Option (List Nat)
  keccak : List Nat → Nat → Nat

/-- Modelled from the spec: the `keccakState` digest instance (reset, write, read).
`absorbed` holds the bytes written since the last reset; `squeezed` is `none` while the
sponge absorbs and `some k` once `k` output bytes have been read. -/
structure keccakState where
  absorbed : List Nat
  squeezed : Option Nat
deriving DecidableEq, Repr

/-- Modelled from the spec: `Reset` clears the sponge. -/
def keccakState.Reset (_ : keccakState) : keccakState := ⟨[], none⟩

/-- Modelled from the spec: `Write` absorbs more data; writing after reading panics. -/
def keccakState.Write (s : keccakState) (p : List Nat) : Option keccakState :=
  match s.squeezed with
  | none => some ⟨s.absorbed ++ p, none⟩
  | some _ => none

/-- Modelled from the spec: `Read` fills a buffer of `len` bytes with the next bytes of
the output stream. -/
def keccakState.Read (E : Collab) (s : keccakState) (len : Nat) : List Nat × keccakState :=
  let k := s.squeezed.getD 0
  ((List.range len).map (fun i => E.keccak s.absorbed (k + i)), ⟨s.absorbed, some (k + len)⟩)

/-- The Digest Function on a message: the first 32 bytes squeezed from a fresh sponge
that absorbed the message. -/
def digest (E : Collab) (data : List Nat) : List Nat :=
  (List.range 32).map (fun i => E.keccak data i)

/-! ## The hasher -/

/-- The `pureHasher` struct: digest instance, encoding scratch buffer and key buffer.
The two counters are instrumentation: they count the calls made to the binary encoder
and to the digest function. -/
structure pureHasher where
  sha : keccakState
  tmp : List Nat
  tmpKey : List Nat
  encodeCalls : Nat
  digestCalls : Nat
deriving DecidableEq, Repr

/-- `hashData` hashes the provided data into a fresh 32-byte hash node. -/
def pureHasher.hashData (E : Collab) (h : pureHasher) (data : List Nat) :
    Option (List Nat × pureHasher) :=
  let n : List Nat := List.replicate 32 0
  let h := { h with digestCalls := h.digestCalls + 1 }
  let sha := h.sha.Reset
  match sha.Write data with
  | none => none
  | some sha =>
    let (out, sha) := sha.Read E n.length
    some (out, { h with sha := sha })

/-- `shortnodeToHash` encodes the collapsed short node into the scratch buffer and
returns it unchanged when the encoding is shorter than 32 bytes and `force` is off,
else its digest. -/
def pureHasher.shortnodeToHash (E : Collab) (h : pureHasher) (n : node) (force : Bool) :
    Option (node × pureHasher) :=
  let h := { h with tmp := [] }
  match E.encode n with
  | none => none
  | some enc =>
    let h := { h with tmp := h.tmp ++ enc, encodeCalls := h.encodeCalls + 1 }
    if h.tmp.length < 32 && !force then
      some (n, h)
    else
      match h.hashData E h.tmp with
      | none => none
      | some (d, h) => some (.hashNode d, h)

/-- `fullnodeToHash` does the same for a collapsed full node. -/
def pureHasher.fullnodeToHash (E : Collab) (h : pureHasher) (n : node) (force : Bool) :
    Option (node × pureHasher) :=
  let h := { h with tmp := [] }
  match E.encode n with
  | none => none
  | some enc =>
    let h := { h with tmp := h.tmp ++ enc, encodeCalls := h.encodeCalls + 1 }
    if h.tmp.length < 32 && !force then
      some (n, h)
    else
      match h.hashData E h.tmp with
      | none => none
      | some (d, h) => some (.hashNode d, h)

mutual
/-- `hash` collapses a node down into a hash node, also returning a copy of the original
node initialised with the computed hash. -/
def pureHasher.hash (E : Collab) (h : pureHasher) (n : node) (force : Bool) :
    Option (node × node × pureHasher) :=
  match n.cache.1 with
  | some hash => some (.hashNode hash, n, h)
  | none =>
    match n with
    | .shortNode Key Val flags =>
      match pureHasher.hashShortNodeChildren E h Key Val flags with
      | none => none
      | some (collapsed, cached, h) =>
        match h.shortnodeToHash E collapsed force with
        | none => none
        | some (hashed, h) =>
          match hashed.asHashNode with
          | some hn => some (hashed, cached.setHash (some hn), h)
          | none => some (hashed, cached.setHash none, h)
    | .fullNode Children flags =>
      match pureHasher.hashFullNodeChildren E h Children flags with
      | none => none
      | some (collapsed, cached, h) =>
        match h.fullnodeToHash E collapsed force with
        | none => none
        | some (hashed, h) =>
          match hashed.asHashNode with
          | some hn => some (hashed, cached.setHash (some hn), h)
          | none => some (hashed, cached.setHash none, h)
    | n => some (n, n, h)
termination_by (sizeOf n, 0)

/-- `hashShortNodeChildren` on the short node with fields `Key`, `Val`, `flags`: both
copies start as the node, the collapsed copy gets the compact key, and a value that is
a short or full node is hashed (never forced). -/
def pureHasher.hashShortNodeChildren (E : Collab) (h : pureHasher)
    (Key : List Nat) (Val : node) (flags : nodeFlag) : Option (node × node × pureHasher) :=
  match Val with
  | child@(.shortNode _ _ _) | child@(.fullNode _ _) =>
    match pureHasher.hash E h child false with
    | none => none
    | some (collapsedVal, cachedVal, h) =>
      some (.shortNode (E.hexToCompact Key) collapsedVal flags, .shortNode Key cachedVal flags, h)
  | _ => some (.shortNode (E.hexToCompact Key) Val flags, .shortNode Key Val flags, h)
termination_by (sizeOf Val, 1)
decreasing_by
  all_goals subst_vars
  all_goals exact Prod.Lex.right _ Nat.zero_lt_one

/-- `hashFullNodeChildren` on the full node with fields `Children`, `flags`. -/
def pureHasher.hashFullNodeChildren (E : Collab) (h : pureHasher)
    (Children : List (Option node)) (flags : nodeFlag) : Option (node × node × pureHasher) :=
  match pureHasher.hashSlots E h 16 Children with
  | none => none
  | some (collapsed, cached, h) => some (.fullNode collapsed flags, .fullNode cached flags, h)
termination_by (sizeOf Children, 2)

/-- The loop `for i := 0; i < 16; i++` of `hashFullNodeChildren` with `k` iterations
left, on the slots from index `16 - k` on: a non-nil child is hashed (never forced), a
nil slot becomes `nilValueNode` in the collapsed copy; the slots after the loop (slot
16) stay as they are in both copies. -/
def pureHasher.hashSlots (E : Collab) (h : pureHasher) (k : Nat)
    (Children : List (Option node)) :
    Option (List (Option node) × List (Option node) × pureHasher) :=
  match k, Children with
  | 0, cs => some (cs, cs, h)
  | _ + 1, [] => some ([], [], h)
  | k + 1, none :: rest =>
    match pureHasher.hashSlots E h k rest with
    | none => none
    | some (collapsed, cached, h) => some (some nilValueNode :: collapsed, none :: cached, h)
  | k + 1, some child :: rest =>
    match pureHasher.hash E h child false with
    | none => none
    | some (collapsedChild, cachedChild, h) =>
      match pureHasher.hashSlots E h k rest with
      | none => none
      | some (collapsed, cached, h) =>
        some (some collapsedChild :: collapsed, some cachedChild :: cached, h)
termination_by (sizeOf Children, 1)
end

/-- The children step of `hash` on a node: `hashShortNodeChildren` on a short node,
`hashFullNodeChildren` on a full node; the other variants have no such step. -/
def pureHasher.hashChildren (E : Collab) (h : pureHasher) :
    node → Option (node × node × pureHasher)
  | .shortNode Key Val flags => pureHasher.hashShortNodeChildren E h Key Val flags
  | .fullNode Children flags => pureHasher.hashFullNodeChildren E h Children flags
  | _ => none

/-! ## Reading the results without the hasher state -/

/-- The two results `(hashed, cached)` of a run, without the hasher state. -/
def views {α β γ : Type} (r : α × β × γ) : α × β := (r.1, r.2.1)

/-- The encoder succeeds on every node. -/
def EncodesAll (E : Collab) : Prop := ∀ n, E.encode n ≠ none

/-- A short node or a full node (the variants the type switches of `hash` and of
`hashShortNodeChildren` select). -/
def node.isBranch : node → Bool
  | .shortNode _ _ _ => true
  | .fullNode _ _ => true
  | _ => false

/-- The node `shortnodeToHash` and `fullnodeToHash` return, as a function of the
collapsed node alone. -/
def toHashResult (E : Collab) (n : node) (force : Bool) : Option node :=
  match E.encode n with
  | none => none
  | some enc => if enc.length < 32 && !force then some n else some (.hashNode (digest E enc))

mutual
/-- The pair `(hashed, cached)` of `hash`, computed without a hasher state. -/
def hashResult (E : Collab) : node → Bool → Option (node × node)
  | .shortNode Key Val flags, force =>
    match flags.hash with
    | some d => some (.hashNode d, .shortNode Key Val flags)
    | none =>
      match (if Val.isBranch then hashResult E Val false else some (Val, Val)) with
      | none => none
      | some (collapsedVal, cachedVal) =>
        match toHashResult E (.shortNode (E.hexToCompact Key) collapsedVal flags) force with
        | none => none
        | some hashed =>
          some (hashed, .shortNode Key cachedVal { flags with hash := hashed.asHashNode })
  | .fullNode Children flags, force =>
    match flags.hash with
    | some d => some (.hashNode d, .fullNode Children flags)
    | none =>
      match slotsResult E 16 Children with
      | none => none
      | some (collapsed, cached) =>
        match toHashResult E (.fullNode collapsed flags) force with
        | none => none
        | some hashed =>
          some (hashed, .fullNode cached { flags with hash := hashed.asHashNode })
  | .hashNode b, _ => some (.hashNode b, .hashNode b)
  | .valueNode b, _ => some (.valueNode b, .valueNode b)

/-- The collapsed and cached slots of the loop of `hashFullNodeChildren`, computed
without a hasher state. -/
def slotsResult (E : Collab) : Nat → List (Option node) →
    Option (List (Option node) × List (Option node))
  | 0, cs => some (cs, cs)
  | _ + 1, [] => some ([], [])
  | k + 1, none :: rest =>
    match slotsResult E k rest with
    | none => none
    | some (collapsed, cached) => some (some nilValueNode :: collapsed, none :: cached)
  | k + 1, some child :: rest =>
    match hashResult E child false with
    | none => none
    | some (collapsedChild, cachedChild) =>
      match slotsResult E k rest with
      | none => none
      | some (collapsed, cached) =>
        some (some collapsedChild :: collapsed, some cachedChild :: cached)
end

/-! ## Structure of a node -/

/-- The four node variants. -/
inductive Variant where
  | short
  | full
  | hash
  | value
deriving DecidableEq, Repr

/-- The variant of a node. -/
def node.variant : node → Variant
  | .shortNode _ _ _ => .short
  | .fullNode _ _ => .full
  | .hashNode _ => .hash
  | .valueNode _ => .value

/-- The value of a short node. -/
def node.val? : node → Option node
  | .shortNode _ Val _ => some Val
  | _ => none

/-- The key of a short node. -/
def node.key? : node → Option (List Nat)
  | .shortNode Key _ _ => some Key
  | _ => none

/-- The child slots of a full node. -/
def node.slots : node → List (Option node)
  | .fullNode Children _ => Children
  | _ => []

mutual
/-- The node with every cached-digest field, at any depth, set to nil. -/
def node.eraseHash : node → node
  | .shortNode Key Val flags => .shortNode Key Val.eraseHash { flags with hash := none }
  | .fullNode Children flags => .fullNode (eraseSlots Children) { flags with hash := none }
  | .hashNode b => .hashNode b
  | .valueNode b => .valueNode b

/-- The slots of a full node with every cached-digest field set to nil. -/
def eraseSlots : List (Option node) → List (Option node)
  | [] => []
  | none :: rest => none :: eraseSlots rest
  | some child :: rest => some child.eraseHash :: eraseSlots rest
end

mutual
/-- Every full node of the tree has its 17 child slots. -/
def node.wellFormed : node → Bool
  | .shortNode _ Val _ => Val.wellFormed
  | .fullNode Children _ => decide (Children.length = 17) && slotsWellFormed Children
  | .hashNode _ => true
  | .valueNode _ => true

/-- Every node in the slots is well formed. -/
def slotsWellFormed : List (Option node) → Bool
  | [] => true
  | none :: rest => slotsWellFormed rest
  | some child :: rest => child.wellFormed && slotsWellFormed rest
end

mutual
/-- The depth of a tree, counting its leaves as depth 1. -/
def node.depth : node → Nat
  | .shortNode _ Val _ => Val.depth + 1
  | .fullNode Children _ => slotsDepth Children + 1
  | .hashNode _ => 1
  | .valueNode _ => 1

/-- The greatest depth of a node in the slots. -/
def slotsDepth : List (Option node) → Nat
  | [] => 0
  | none :: rest => slotsDepth rest
  | some child :: rest => max child.depth (slotsDepth rest)
end

/-! ## A concrete set of collaborators -/

/-- Modelled from the spec: `hasTerm` of `trie/encoding.go` tells whether a hex key ends
in the terminator nibble 16. -/
def hasTerm (s : List Nat) : Bool :=
  decide (0 < s.length) && s.getLast? == some 16

/-- Modelled from the spec: `decodeNibbles` of `trie/encoding.go` packs two nibbles into
each byte. -/
def decodeNibbles : List Nat → List Nat
  | a :: b :: rest => (((a <<< 4) % 256) ||| b) :: decodeNibbles rest
  | _ => []

/-- Modelled from the spec: `hexToCompact`, defined in `trie/encoding.go`; this is
the compact (byte-packed) encoding of a hex-form key: a flag byte holding the terminator
bit, the odd-length bit and, for an odd length, the first nibble, then two nibbles per
byte. -/
def hexToCompact (hex : List Nat) : List Nat :=
  let terminator := if hasTerm hex then 1 else 0
  let hex := if hasTerm hex then hex.dropLast else hex
  let flag := (terminator <<< 5) % 256
  if hex.length % 2 = 1 then
    ((flag ||| (1 <<< 4)) ||| hex.headD 0) :: decodeNibbles hex.tail
  else
    flag :: decodeNibbles hex

/-- Modelled from the spec: the big-endian bytes of a length in an RLP header, at most
`fuel` of them, without leading zeros. -/
def rlpInt : Nat → Nat → List Nat
  | 0, _ => []
  | fuel + 1, n => if n = 0 then [] else rlpInt fuel (n / 256) ++ [n % 256]

/-- Modelled from the spec: an RLP header, `base + len` for a payload under 56 bytes, else
the length of the length followed by the length. -/
def rlpHeader (base len : Nat) : List Nat :=
  if len < 56 then [base + len]
  else (base + 55 + (rlpInt 8 len).length) :: rlpInt 8 len

/-- Modelled from the spec: RLP of a byte string. -/
def rlpBytes (b : List Nat) : List Nat :=
  match b with
  | [x] => if x < 128 then [x] else rlpHeader 128 1 ++ [x]
  | _ => rlpHeader 128 b.length ++ b

/-- Modelled from the spec: RLP of a list with the given encoded payload. -/
def rlpList (payload : List Nat) : List Nat :=
  rlpHeader 192 payload.length ++ payload

mutual
/-- Modelled from the spec: the Binary Encoder, defined in the `rlp` package; this is the
canonical RLP encoding of a node: a short node is the list of its key and its value, a
full node the list of its slots with every nil slot written as the empty string, a hash
node or value node a byte string.  Flags are not encoded. -/
def rlpNode : node → List Nat
  | .shortNode Key Val _ => rlpList (rlpBytes Key ++ rlpNode Val)
  | .fullNode Children _ => rlpList (rlpSlots Children)
  | .hashNode b => rlpBytes b
  | .valueNode b => rlpBytes b

/-- Modelled from the spec: the concatenated encodings of the slots of a full node. -/
def rlpSlots : List (Option node) → List Nat
  | [] => []
  | none :: rest => rlpBytes [] ++ rlpSlots rest
  | some child :: rest => rlpNode child ++ rlpSlots rest
end

/-- A stand-in for the Keccak output stream, used only to run the hasher on examples. -/
def toySponge (msg : List Nat) (i : Nat) : Nat :=
  (msg.foldl (fun acc b => (acc * 31 + b + 7) % 256) (i + 1)) % 256

/-- The collaborators used in the examples: the real key packing, RLP, and the stand-in
sponge. -/
def rlpCollab : Collab where
  hexToCompact := hexToCompact
  encode := fun n => some (rlpNode n)
  keccak := toySponge

/-- A hasher as the pool makes it: empty scratch buffer, 64-byte key buffer, fresh
sponge. -/
def freshHasher : pureHasher where
  sha := ⟨[], none⟩
  tmp := []
  tmpKey := List.replicate 64 0
  encodeCalls := 0
  digestCalls := 0

/-! ## The same functions over an explicit node memory

The functions above treat nodes as values.  To speak about what `hash` writes, the same
source functions are embedded once more with the node structs held in a memory and
referred to by address, so that `n.copy()` allocates and a field assignment updates a
cell.  Byte slices stay values: `hash` writes into no byte array of a node (the copies
share the key, the compact key and the digest are fresh arrays). -/

namespace heap

/-- Modelled from the spec: a value of the Go interface type `node`, that is nil, a pointer
to a short node struct or to a full node struct, or a hash node or value node (byte
strings). -/
inductive Ref where
  | nil
  | shortNode (p : Nat)
  | fullNode (p : Nat)
  | hashNode (b : List Nat)
  | valueNode (b : List Nat)
deriving DecidableEq, Repr

/-- Modelled from the spec: the `shortNode` struct (key, value, flags). -/
structure shortNode where
  Key : List Nat
  Val : Ref
  flags : nodeFlag
deriving DecidableEq, Repr

/-- Modelled from the spec: the `fullNode` struct (the array of child slots, flags). -/
structure fullNode where
  Children : List Ref
  flags : nodeFlag
deriving DecidableEq, Repr

/-- The node memory: the allocated short node structs and full node structs, each list
indexed by address. -/
structure Mem where
  shortNodes : List shortNode
  fullNodes : List fullNode
deriving DecidableEq, Repr

/-- Modelled from the spec: `n.copy()` on a short node, a new struct with the same
fields. -/
def Mem.copyShort (m : Mem) (n : Nat) : Option (Nat × Mem) :=
  match m.shortNodes[n]? with
  | none => none
  | some c => some (m.shortNodes.length, { m with shortNodes := m.shortNodes ++ [c] })

/-- Modelled from the spec: `n.copy()` on a full node. -/
def Mem.copyFull (m : Mem) (n : Nat) : Option (Nat × Mem) :=
  match m.fullNodes[n]? with
  | none => none
  | some c => some (m.fullNodes.length, { m with fullNodes := m.fullNodes ++ [c] })

/-- An assignment to a field of the short node struct at address `p`. -/
def Mem.writeShort (m : Mem) (p : Nat) (f : shortNode → shortNode) : Option Mem :=
  match m.shortNodes[p]? with
  | none => none
  | some c => some { m with shortNodes := m.shortNodes.set p (f c) }

/-- An assignment to a field of the full node struct at address `p`. -/
def Mem.writeFull (m : Mem) (p : Nat) (f : fullNode → fullNode) : Option Mem :=
  match m.fullNodes[p]? with
  | none => none
  | some c => some { m with fullNodes := m.fullNodes.set p (f c) }

/-- Modelled from the spec: `n.cache()`; the outer `none` is the panic of a call through
nil. -/
def Ref.cache (m : Mem) : Ref → Option (Option (List Nat) × Bool)
  | .nil => none
  | .shortNode p =>
    match m.shortNodes[p]? with
    | none => none
    | some c => some (c.flags.hash, c.flags.dirty)
  | .fullNode p =>
    match m.fullNodes[p]? with
    | none => none
    | some c => some (c.flags.hash, c.flags.dirty)
  | .hashNode _ => some (none, true)
  | .valueNode _ => some (none, true)

/-- The type assertion `n.(hashNode)`. -/
def Ref.asHashNode : Ref → Option (List Nat)
  | .hashNode b => some b
  | _ => none

/-- Modelled from the spec: the canonical empty value `nilValueNode`. -/
def nilValueNode : Ref := .valueNode []

/-- The collaborators of the hasher, with the binary encoder reading the node it encodes
from the memory. -/
structure MemCollab extends Collab where
  encodeRef : Mem → Ref → Option (List Nat)

/-- `shortnodeToHash` on the short node at address `n`. -/
def shortnodeToHash (E : MemCollab) (h : pureHasher) (m : Mem) (n : Nat) (force : Bool) :
    Option (Ref × pureHasher) :=
  let h := { h with tmp := [] }
  match E.encodeRef m (.shortNode n) with
  | none => none
  | some enc =>
    let h := { h with tmp := h.tmp ++ enc, encodeCalls := h.encodeCalls + 1 }
    if h.tmp.length < 32 && !force then
      some (.shortNode n, h)
    else
      match h.hashData E.toCollab h.tmp with
      | none => none
      | some (d, h) => some (.hashNode d, h)

/-- `fullnodeToHash` on the full node at address `n`. -/
def fullnodeToHash (E : MemCollab) (h : pureHasher) (m : Mem) (n : Nat) (force : Bool) :
    Option (Ref × pureHasher) :=
  let h := { h with tmp := [] }
  match E.encodeRef m (.fullNode n) with
  | none => none
  | some enc =>
    let h := { h with tmp := h.tmp ++ enc, encodeCalls := h.encodeCalls + 1 }
    if h.tmp.length < 32 && !force then
      some (.fullNode n, h)
    else
      match h.hashData E.toCollab h.tmp with
      | none => none
      | some (d, h) => some (.hashNode d, h)

/-- The type of `hash` over the memory: hasher, memory, node and `force` to the two
results, the hasher and the memory. -/
abbrev HashFn := pureHasher → Mem → Ref → Bool → Option (Ref × Ref × pureHasher × Mem)

/-- `hashShortNodeChildren` on the short node at address `n`; `hash` is the function
called recursively. -/
def hashShortNodeChildren (E : MemCollab) (hash : HashFn) (h : pureHasher) (m : Mem)
    (n : Nat) : Option (Nat × Nat × pureHasher × Mem) :=
  match m.copyShort n with
  | none => none
  | some (collapsed, m) =>
  match m.copyShort n with
  | none => none
  | some (cached, m) =>
  match m.shortNodes[n]? with
  | none => none
  | some nv =>
  match m.writeShort collapsed (fun c => { c with Key := E.hexToCompact nv.Key }) with
  | none => none
  | some m =>
  match m.shortNodes[n]? with
  | none => none
  | some nv =>
  match nv.Val with
  | .shortNode _ | .fullNode _ =>
    match hash h m nv.Val false with
    | none => none
    | some (collapsedVal, cachedVal, h, m) =>
    match m.writeShort collapsed (fun c => { c with Val := collapsedVal }) with
    | none => none
    | some m =>
    match m.writeShort cached (fun c => { c with Val := cachedVal }) with
    | none => none
    | some m => some (collapsed, cached, h, m)
  | _ => some (collapsed, cached, h, m)

/-- One iteration of the loop of `hashFullNodeChildren`, for slot `i` of the full node at
address `n`. -/
def hashFullNodeStep (hash : HashFn) (n collapsed cached : Nat)
    (s : pureHasher × Mem) (i : Nat) : Option (pureHasher × Mem) :=
  match s.2.fullNodes[n]? with
  | none => none
  | some nv =>
  match nv.Children[i]? with
  | none => none
  | some .nil =>
    match s.2.writeFull collapsed (fun c => { c with Children := c.Children.set i nilValueNode }) with
    | none => none
    | some m => some (s.1, m)
  | some child =>
    match hash s.1 s.2 child false with
    | none => none
    | some (collapsedChild, cachedChild, h, m) =>
    match m.writeFull collapsed (fun c => { c with Children := c.Children.set i collapsedChild }) with
    | none => none
    | some m =>
    match m.writeFull cached (fun c => { c with Children := c.Children.set i cachedChild }) with
    | none => none
    | some m => some (h, m)

/-- The iterations of a loop over the given slots, in order. -/
def hashFullNodeLoop (hash : HashFn) (n collapsed cached : Nat) :
    List Nat → pureHasher × Mem → Option (pureHasher × Mem)
  | [], s => some s
  | i :: rest, s =>
    match hashFullNodeStep hash n collapsed cached s i with
    | none => none
    | some s => hashFullNodeLoop hash n collapsed cached rest s

/-- `hashFullNodeChildren` on the full node at address `n`. -/
def hashFullNodeChildren (hash : HashFn) (h : pureHasher) (m : Mem) (n : Nat) :
    Option (Nat × Nat × pureHasher × Mem) :=
  match m.copyFull n with
  | none => none
  | some (cached, m) =>
  match m.copyFull n with
  | none => none
  | some (collapsed, m) =>
  match hashFullNodeLoop hash n collapsed cached (List.range 16) (h, m) with
  | none => none
  | some (h, m) =>
  match m.fullNodes[n]? with
  | none => none
  | some nv =>
  match nv.Children[16]? with
  | none => none
  | some last =>
  match m.writeFull cached (fun c => { c with Children := c.Children.set 16 last }) with
  | none => none
  | some m => some (collapsed, cached, h, m)

/-- `hash` over the memory.  The first argument bounds the depth of the recursion; with
none left the call does not return. -/
def hash (E : MemCollab) : Nat → HashFn
  | 0, _, _, _, _ => none
  | fuel + 1, h, m, n, force =>
    match n.cache m with
    | none => none
    | some (some hash, _) => some (.hashNode hash, n, h, m)
    | some (none, _) =>
      match n with
      | .shortNode p =>
        match hashShortNodeChildren E (hash E fuel) h m p with
        | none => none
        | some (collapsed, cached, h, m) =>
        match shortnodeToHash E h m collapsed force with
        | none => none
        | some (hashed, h) =>
        match hashed.asHashNode with
        | some hn =>
          match m.writeShort cached (fun c => { c with flags := { c.flags with hash := some hn } }) with
          | none => none
          | some m => some (hashed, .shortNode cached, h, m)
        | none =>
          match m.writeShort cached (fun c => { c with flags := { c.flags with hash := none } }) with
          | none => none
          | some m => some (hashed, .shortNode cached, h, m)
      | .fullNode p =>
        match hashFullNodeChildren (hash E fuel) h m p with
        | none => none
        | some (collapsed, cached, h, m) =>
        match fullnodeToHash E h m collapsed force with
        | none => none
        | some (hashed, h) =>
        match hashed.asHashNode with
        | some hn =>
          match m.writeFull cached (fun c => { c with flags := { c.flags with hash := some hn } }) with
          | none => none
          | some m => some (hashed, .fullNode cached, h, m)
        | none =>
          match m.writeFull cached (fun c => { c with flags := { c.flags with hash := none } }) with
          | none => none
          | some m => some (hashed, .fullNode cached, h, m)
      | n => some (n, n, h, m)

/-- Every struct of `m` is still there in `m1`, at the same address and with the same
fields (`m1` may hold further structs after them). -/
def Mem.preserved (m m1 : Mem) : Prop :=
  m.shortNodes <+: m1.shortNodes ∧ m.fullNodes <+: m1.fullNodes

/-- A function of the type of `hash` that leaves every struct that existed before it as it was. -/
def HashFn.frames (hash : HashFn) : Prop :=
  ∀ h m n force hashed cached h1 m1,
    hash h m n force = some (hashed, cached, h1, m1) → m.preserved m1

mutual
/-- Whether the reference `r` stands, in the memory `m`, for the tree `t`, following only
short node pointers accepted by `oks` and full node pointers accepted by `okf`. -/
def represents (oks okf : Nat → Bool) (m : Mem) : node → Ref → Bool
  | .shortNode Key Val flags, .shortNode p =>
    oks p &&
      match m.shortNodes[p]? with
      | none => false
      | some c => decide (c.Key = Key) && decide (c.flags = flags) &&
          represents oks okf m Val c.Val
  | .fullNode Children flags, .fullNode p =>
    okf p &&
      match m.fullNodes[p]? with
      | none => false
      | some c => decide (c.flags = flags) && representsSlots oks okf m Children c.Children
  | .hashNode b, .hashNode b1 => decide (b1 = b)
  | .valueNode b, .valueNode b1 => decide (b1 = b)
  | _, _ => false

/-- Whether the references stand for the slots of a full node, nil for an empty slot. -/
def representsSlots (oks okf : Nat → Bool) (m : Mem) :
    List (Option node) → List Ref → Bool
  | [], [] => true
  | none :: ts, .nil :: rs => representsSlots oks okf m ts rs
  | some t :: ts, r :: rs => represents oks okf m t r && representsSlots oks okf m ts rs
  | _, _ => false
end

/-- Whether a reference stands for a slot of a full node: nil for an empty slot. -/
def representsSlot (oks okf : Nat → Bool) (m : Mem) : Option node → Ref → Bool
  | none, r => decide (r = .nil)
  | some t, r => represents oks okf m t r

/-- The first `i` references stand for the first `i` slots. -/
def representsUpTo (oks okf : Nat → Bool) (m : Mem) (ts : List (Option node))
    (rs : List Ref) (i : Nat) : Prop :=
  ∀ j, j < i → ∃ s r, ts[j]? = some s ∧ rs[j]? = some r ∧
    representsSlot oks okf m s r = true

/-- Every struct of `m` at an address accepted by `oks` (short nodes) or `okf` (full
nodes) is still there, unchanged, in `m1`. -/
def Mem.keeps (oks okf : Nat → Bool) (m m1 : Mem) : Prop :=
  (∀ (p : Nat) (c : shortNode), oks p = true → m.shortNodes[p]? = some c →
    m1.shortNodes[p]? = some c) ∧
  (∀ (p : Nat) (c : fullNode), okf p = true → m.fullNodes[p]? = some c →
    m1.fullNodes[p]? = some c)

/-- The addresses below `B`. -/
def below (B : Nat) : Nat → Bool := fun p => decide (p < B)

/-- The addresses below `B` or from `L` on. -/
def outside (B L : Nat) : Nat → Bool := fun p => decide (p < B ∨ L ≤ p)

/-- Every address. -/
def anywhere : Nat → Bool := fun _ => true

/-- The addresses that are not in the list. -/
def notIn (vs : List Nat) : Nat → Bool := fun p => decide (p ∉ vs)

/-- The state of the loop of `hashFullNodeChildren` on the full node struct `c` of the
memory `m` before iteration `i`, with `cs` and `ks` the collapsed and cached slots of the
value-level loop: the collapsed copy (allocated second) and the cached copy (allocated
first) hold references that stand for the slots below `i` and the slots of `c` from `i`
on. -/
def LoopInv (Bs Bf : Nat) (m : Mem) (c : fullNode) (cs ks : List (Option node)) (i : Nat)
    (s : pureHasher × Mem) : Prop :=
  m.preserved s.2 ∧ m.fullNodes.length + 2 ≤ s.2.fullNodes.length ∧
  ∃ colRefs cacRefs,
    s.2.fullNodes[m.fullNodes.length + 1]? = some ⟨colRefs, c.flags⟩ ∧
    s.2.fullNodes[m.fullNodes.length]? = some ⟨cacRefs, c.flags⟩ ∧
    representsUpTo (outside Bs m.shortNodes.length) (outside Bf (m.fullNodes.length + 2))
      s.2 cs colRefs i ∧
    representsUpTo (outside Bs m.shortNodes.length) (outside Bf (m.fullNodes.length + 2))
      s.2 ks cacRefs i ∧
    (∀ j, i ≤ j → colRefs[j]? = c.Children[j]? ∧ cacRefs[j]? = c.Children[j]?)

/-- The encoder over the memory returns what the encoder on trees returns on the tree
that the reference stands for. -/
def EncodesTrees (E : MemCollab) : Prop :=
  ∀ m r t, represents anywhere anywhere m t r = true → E.encodeRef m r = E.encode t

/-- A function of the type of `hash` that computes, on a reference that stands for the tree
`t` through structs below the bounds `Bs` and `Bf`, references that stand for the two
results of the value-level `hash` on `t`, through those structs and structs allocated
during the call. -/
def HashFn.computes (hash : HashFn) (E : MemCollab) (t : node) : Prop :=
  ∀ (h : pureHasher) (m : Mem) (n : Ref) (force : Bool) (Bs Bf : Nat) (a b : node),
    Bs ≤ m.shortNodes.length → Bf ≤ m.fullNodes.length →
    represents (below Bs) (below Bf) m t n = true →
    hashResult E.toCollab t force = some (a, b) →
    ∃ hd cd h1 m1, hash h m n force = some (hd, cd, h1, m1) ∧
      represents (outside Bs m.shortNodes.length) (outside Bf m.fullNodes.length) m1 a hd
        = true ∧
      represents (outside Bs m.shortNodes.length) (outside Bf m.fullNodes.length) m1 b cd
        = true

/-- The tree of node values that a reference stands for in a memory, read to the given
depth; `none` where a pointer is dangling, a short node has a nil value, or the depth is
used up. -/
def reify (m : Mem) : Nat → Ref → Option node
  | 0, _ => none
  | _ + 1, .nil => none
  | _ + 1, .hashNode b => some (.hashNode b)
  | _ + 1, .valueNode b => some (.valueNode b)
  | fuel + 1, .shortNode p =>
    match m.shortNodes[p]? with
    | none => none
    | some c =>
      match reify m fuel c.Val with
      | none => none
      | some v => some (.shortNode c.Key v c.flags)
  | fuel + 1, .fullNode p =>
    match m.fullNodes[p]? with
    | none => none
    | some c =>
      match c.Children.mapM (fun r => if r = .nil then some none
          else (reify m fuel r).map some) with
      | none => none
      | some cs => some (.fullNode cs c.flags)

/-- The collaborators used in the examples: key packing, RLP of the tree a reference
stands for, and the stand-in sponge. -/
def rlpMemCollab : MemCollab where
  toCollab := rlpCollab
  encodeRef := fun m r =>
    (reify m (m.shortNodes.length + m.fullNodes.length + 1) r).map rlpNode

/-- An example memory: a leaf at short node address 0, a full node at full node address 0
with that leaf in slot 3 and a value in slot 16, and an extension over the full node at
short node address 1. -/
def exampleMem : Mem where
  shortNodes := [⟨[2, 16], .valueNode [5], ⟨none, true⟩⟩, ⟨[1], .fullNode 0, ⟨none, true⟩⟩]
  fullNodes := [⟨[.nil, .nil, .nil, .shortNode 0, .nil, .nil, .nil, .nil, .nil, .nil, .nil,
    .nil, .nil, .nil, .nil, .nil, .valueNode [9]], ⟨none, false⟩⟩]

/-- The tree that the extension at short node address 1 of `exampleMem` stands for. -/
def exampleTree : node :=
  .shortNode [1]
    (.fullNode [none, none, none, some (.shortNode [2, 16] (.valueNode [5]) ⟨none, true⟩),
      none, none, none, none, none, none, none, none, none, none, none, none,
      some (.valueNode [9])] ⟨none, false⟩)
    ⟨none, true⟩

end heap

/-! ## The nodes passed to the binary encoder -/

mutual
/-- The collapsed nodes that a run of `hash` on a node passes to the binary encoder
(`rlp.Encode` in `shortnodeToHash`, `EncodeRLP` in `fullnodeToHash`), in the order of
the calls.  A node with a cached digest makes no call; a short node first makes the
calls of its value when that is a short or full node, a full node those of its routing
children in slot order, and each then encodes its own collapsed copy.  The run aborts at
the first call on which the encoder fails, which is then the last entry of the list. -/
def encodeRequests (E : Collab) : node → List node
  | .shortNode Key Val flags =>
    match flags.hash with
    | some _ => []
    | none =>
      match (if Val.isBranch then hashResult E Val false else some (Val, Val)) with
      | none => encodeRequests E Val
      | some (collapsedVal, _) =>
        (if Val.isBranch then encodeRequests E Val else []) ++
          [.shortNode (E.hexToCompact Key) collapsedVal flags]
  | .fullNode Children flags =>
    match flags.hash with
    | some _ => []
    | none =>
      match slotsResult E 16 Children with
      | none => slotRequests E 16 Children
      | some (collapsed, _) => slotRequests E 16 Children ++ [.fullNode collapsed flags]
  | .hashNode _ => []
  | .valueNode _ => []

/-- The nodes passed to the encoder by the loop of `hashFullNodeChildren` with `k`
iterations left. -/
def slotRequests (E : Collab) : Nat → List (Option node) → List node
  | 0, _ => []
  | _ + 1, [] => []
  | k + 1, none :: rest => slotRequests E k rest
  | k + 1, some child :: rest =>
    match hashResult E child false with
    | none => encodeRequests E child
    | some _ => encodeRequests E child ++ slotRequests E k rest
end

/-- An encoder that rejects every full node holding a hash node in slot 0 and encodes
the other nodes as RLP; the key packing is the real one. -/
def pickyCollab : Collab where
  hexToCompact := hexToCompact
  encode := fun n =>
    match n with
    | .fullNode (some (.hashNode _) :: _) _ => none
    | n => some (rlpNode n)
  keccak := toySponge

/-! ## The hasher pool -/

/-- Modelled from the spec: the free list of the `sync.Pool` behind `pureHasherPool`.
`Put` adds an instance to the list; `Get` hands out the instance added last, or a new
one made by `New` when the list is empty. -/
structure Pool where
  items : List pureHasher
deriving DecidableEq, Repr

/-- The `New` function of `pureHasherPool`: a hasher with an empty scratch buffer of
capacity 550, a 64-byte key buffer and a fresh sponge. -/
def Pool.New : pureHasher := freshHasher

/-- Modelled from the spec: `Get` of `sync.Pool`. -/
def Pool.Get (p : Pool) : pureHasher × Pool :=
  match p.items with
  | [] => (Pool.New, p)
  | h :: rest => (h, ⟨rest⟩)

/-- Modelled from the spec: `Put` of `sync.Pool`. -/
def Pool.Put (p : Pool) (h : pureHasher) : Pool := ⟨h :: p.items⟩

/-- `newPureHasher` takes a hasher from the pool. -/
def newPureHasher (pureHasherPool : Pool) : pureHasher × Pool :=
  let (h, pureHasherPool) := pureHasherPool.Get
  (h, pureHasherPool)

/-- `returnPureHasherToPool` puts the hasher into the pool. -/
def returnPureHasherToPool (pureHasherPool : Pool) (h : pureHasher) : Pool :=
  pureHasherPool.Put h

/-- The collaborators with the real key packing, RLP as binary encoder, and any digest
output stream. -/
def rlpWith (keccak : List Nat → Nat → Nat) : Collab where
  hexToCompact := hexToCompact
  encode := fun n => some (rlpNode n)
  keccak := keccak

/-! ## The nodes of a hashed result, and valid cached digests -/

mutual
/-- The short and full nodes of a tree that are the root or are reached from it through
values of short nodes and routing slots 0 to 15 of full nodes (slot 16 is not
followed). -/
def node.inlineNodes : node → List node
  | .shortNode Key Val flags => .shortNode Key Val flags :: Val.inlineNodes
  | .fullNode Children flags => .fullNode Children flags :: slotsInlineNodes 16 Children
  | .hashNode _ => []
  | .valueNode _ => []

/-- The short and full nodes reached through the first `k` of the given slots. -/
def slotsInlineNodes : Nat → List (Option node) → List node
  | 0, _ => []
  | _ + 1, [] => []
  | k + 1, none :: rest => slotsInlineNodes k rest
  | k + 1, some child :: rest => child.inlineNodes ++ slotsInlineNodes k rest
end

/-- The invariant of the nodes of a hashed result: the encoding takes fewer than 32
bytes, and a full node has its 17 slots, with a node in each of the 16 routing slots. -/
def node.inlineOk (E : Collab) (c : node) : Prop :=
  (∃ enc, E.encode c = some enc ∧ enc.length < 32) ∧
  (c.variant = Variant.full →
    c.slots.length = 17 ∧ ∀ i, i < 16 → ∃ x, c.slots[i]? = some (some x))

/-- A cached digest `d` on the node `m` is valid: `d` is the `hashed` result of
`hash(m', false)`, where `m'` is `m` with every cached digest erased. -/
def validDigest (E : Collab) (m : node) (d : List Nat) : Bool :=
  ((hashResult E m.eraseHash false).bind (fun r => r.1.asHashNode)) == some d

mutual
/-- Every cached digest of the tree, at any depth, is valid. -/
def node.allValid (E : Collab) : node → Bool
  | .shortNode Key Val flags =>
    (match flags.hash with
      | none => true
      | some d => validDigest E (.shortNode Key Val flags) d) && Val.allValid E
  | .fullNode Children flags =>
    (match flags.hash with
      | none => true
      | some d => validDigest E (.fullNode Children flags) d) && slotsAllValid E Children
  | .hashNode _ => true
  | .valueNode _ => true

/-- Every cached digest of the nodes in the slots is valid. -/
def slotsAllValid (E : Collab) : List (Option node) → Bool
  | [] => true
  | none :: rest => slotsAllValid E rest
  | some child :: rest => child.allValid E && slotsAllValid E rest
end

/-- Whether a slot holds nil, a value node or a hash node. -/
def plainSlot : Option node → Bool
  | none => true
  | some child => !child.isBranch

mutual
/-- In every full node of the tree, reached through values and routing slots, slot 16
holds a terminal value: nil, a value node or a hash node (never a short or full node). -/
def node.terminalsPlain : node → Bool
  | .shortNode _ Val _ => Val.terminalsPlain
  | .fullNode Children _ => slotsTerminalsPlain 16 Children
  | .hashNode _ => true
  | .valueNode _ => true

/-- The same for the slots of a full node, the first `k` of which are routing slots. -/
def slotsTerminalsPlain : Nat → List (Option node) → Bool
  | 0, cs => cs.all plainSlot
  | _ + 1, [] => true
  | k + 1, none :: rest => slotsTerminalsPlain k rest
  | k + 1, some child :: rest => child.terminalsPlain && slotsTerminalsPlain k rest
end

/-- An example tree for the inline case: an extension `[1]` over a full node with the
leaf `[2, 16] ↦ [5]` in slot 3 and the value `[9]` in slot 16. -/
def smallTree : node :=
  .shortNode [1]
    (.fullNode [none, none, none, some (.shortNode [2, 16] (.valueNode [5]) ⟨none, true⟩),
      none, none, none, none, none, none, none, none, none, none, none, none,
      some (.valueNode [9])] ⟨none, false⟩)
    ⟨none, true⟩

/-- An example leaf with a value of 40 bytes, without cached digest. -/
def bigLeaf : node :=
  .shortNode [1, 2, 16] (.valueNode (List.replicate 40 7)) ⟨none, true⟩

/-- The leaf `bigLeaf` carrying its digest as cached digest, under an extension `[3]`
without cached digest. -/
def memoTree : node :=
  .shortNode [3]
    (.shortNode [1, 2, 16] (.valueNode (List.replicate 40 7))
      ⟨some (digest rlpCollab (rlpNode
        (.shortNode (hexToCompact [1, 2, 16]) (.valueNode (List.replicate 40 7))
          ⟨none, true⟩))), true⟩)
    ⟨none, true⟩

/-- The slots with the cached digests erased in the slots from index `k` on (the slots
that the loop of `hashFullNodeChildren` leaves as they are when `k` is 16). -/
def eraseFrom : Nat → List (Option node) → List (Option node)
  | 0, cs => eraseSlots cs
  | _ + 1, [] => []
  | k + 1, slot :: rest => slot :: eraseFrom k rest

/-- The leaf `bigLeaf` carrying its digest as cached digest. -/
def memoLeaf : node :=
  .shortNode [1, 2, 16] (.valueNode (List.replicate 40 7))
    ⟨some (digest rlpCollab (rlpNode
      (.shortNode (hexToCompact [1, 2, 16]) (.valueNode (List.replicate 40 7))
        ⟨none, true⟩))), true⟩

/-- A full node without cached digest that holds `memoLeaf`, a short node with a valid
cached digest, in slot 16, and the leaf `[2, 16] ↦ [5]` in slot 3. -/
def memoFull : node :=
  .fullNode [none, none, none, some (.shortNode [2, 16] (.valueNode [5]) ⟨none, true⟩),
    none, none, none, none, none, none, none, none, none, none, none, none,
    some memoLeaf] ⟨none, true⟩

end trie

/-! # The JSON codec of `beaconBlock` (`cmd/elay/gen_ed.go`) -/

namespace elay

/-- Modelled from the spec: a JSON value, as `encoding/json` reads it. -/
inductive Json where
  | null
  | bool (b : Bool)
  | num (n : Int)
  | str (s : String)
  | arr (xs : List Json)
  | obj (members : List (String × Json))

/-- Whether a JSON value is the literal `null`. -/
def Json.isNull : Json → Bool
  | .null => true
  | _ => false

/-- The JSON decoders of the field types, which the codec calls but does not define:
`common.Hash`, `common.Address`, `hexutil.Bytes`, `math.HexOrDecimal64`,
`math.HexOrDecimal256` and the slice `[]hexutil.Bytes`, each on a JSON value other than
`null`; `none` is a decoding error. -/
structure Codec where
  hash : Json → Option (List Nat)
  address : Json → Option (List Nat)
  bytes : Json → Option (List Nat)
  uint64 : Json → Option Nat
  big : Json → Option Int
  bytesList : Json → Option (List (List Nat))

/-- The 14 fields of the decoding struct. -/
inductive Field where
  | ParentHash
  | FeeRecipient
  | StateRoot
  | ReceiptsRoot
  | LogsBloom
  | Random
  | Number
  | GasLimit
  | GasUsed
  | Timestamp
  | ExtraData
  | BaseFeePerGas
  | BlockHash
  | Transactions
deriving DecidableEq, Repr

/-- The name of a field in JSON, from its `json` tag. -/
def Field.name : Field → String
  | .ParentHash => "parent_hash"
  | .FeeRecipient => "fee_recipient"
  | .StateRoot => "state_root"
  | .ReceiptsRoot => "receipts_root"
  | .LogsBloom => "logs_bloom"
  | .Random => "prev_randao"
  | .Number => "block_number"
  | .GasLimit => "gas_limit"
  | .GasUsed => "gas_used"
  | .Timestamp => "timestamp"
  | .ExtraData => "extra_data"
  | .BaseFeePerGas => "base_fee_per_gas"
  | .BlockHash => "block_hash"
  | .Transactions => "transactions"

/-- The fields in declaration order. -/
def fields : List Field :=
  [.ParentHash, .FeeRecipient, .StateRoot, .ReceiptsRoot, .LogsBloom,
    .Random, .Number, .GasLimit, .GasUsed, .Timestamp,
    .ExtraData, .BaseFeePerGas, .BlockHash, .Transactions]

/-- Modelled from the spec: the case folding of `encoding/json` on one character of a
member name, given by its code: an ASCII letter goes to upper case, and so do the two
characters outside ASCII that fold to an ASCII letter, the Kelvin sign (to `K`) and the
long s (to `S`). -/
def foldCode (c : Nat) : Nat :=
  if c = 0x212A then 75
  else if c = 0x17F then 83
  else if 97 ≤ c ∧ c ≤ 122 then c - 32
  else c

/-- Modelled from the spec: a member name with every character folded. -/
def foldName (s : String) : List Nat :=
  s.toList.map (fun c => foldCode c.toNat)

/-- Modelled from the spec: the field that `encoding/json` decodes a member into: the
field with exactly the name of the member, else the first field whose name equals it up
to case folding; `none` for a member that is skipped. -/
def matchField (key : String) : Option Field :=
  match fields.find? (fun f => f.name == key) with
  | some f => some f
  | none => fields.find? (fun f => foldName f.name == foldName key)

/-- Modelled from the spec: `encoding/json` on a pointer or slice field and the value of
a member: the value `null` sets the field to nil; on another value the decoder of the
field type runs, and its error makes `json.Unmarshal` return an error. -/
def decodeField {α : Type} (f : Json → Option α) (v : Json) : Option (Option α) :=
  if v.isNull then some none else (f v).map some

/-- The struct `beaconBlock` declared inside `UnmarshalJSON`, into which the input is
decoded: pointer and slice fields, nil as `none`. -/
structure decBeaconBlock where
  ParentHash : Option (List Nat)
  FeeRecipient : Option (List Nat)
  StateRoot : Option (List Nat)
  ReceiptsRoot : Option (List Nat)
  LogsBloom : Option (List Nat)
  Random : Option (List Nat)
  Number : Option Nat
  GasLimit : Option Nat
  GasUsed : Option Nat
  Timestamp : Option Nat
  ExtraData : Option (List Nat)
  BaseFeePerGas : Option Int
  BlockHash : Option (List Nat)
  Transactions : Option (List (List Nat))
deriving DecidableEq, Repr

/-- Modelled from the spec: the receiver struct `beaconBlock`, declared in the package
next to the generated codec, with the fields that the codec writes; `BaseFeePerGas` is a
pointer and `Transactions` a slice, nil as `none`. -/
structure beaconBlock where
  ParentHash : List Nat
  FeeRecipient : List Nat
  StateRoot : List Nat
  ReceiptsRoot : List Nat
  LogsBloom : List Nat
  Random : List Nat
  Number : Nat
  GasLimit : Nat
  GasUsed : Nat
  Timestamp : Nat
  ExtraData : List Nat
  BaseFeePerGas : Option Int
  BlockHash : List Nat
  Transactions : Option (List (List Nat))
deriving DecidableEq, Repr

/-- The zero value of the decoding struct (`var dec beaconBlock`): every field nil. -/
def decBeaconBlock.zero : decBeaconBlock :=
  ⟨none, none, none, none, none, none, none, none, none, none, none, none, none, none⟩

/-- Modelled from the spec: `encoding/json` decoding the value of a member into a field
of the decoding struct; `none` when the decoder of the field type rejects the value. -/
def store (C : Codec) (dec : decBeaconBlock) (f : Field) (v : Json) : Option decBeaconBlock :=
  match f with
  | .ParentHash => (decodeField C.hash v).map (fun x => { dec with ParentHash := x })
  | .FeeRecipient => (decodeField C.address v).map (fun x => { dec with FeeRecipient := x })
  | .StateRoot => (decodeField C.hash v).map (fun x => { dec with StateRoot := x })
  | .ReceiptsRoot => (decodeField C.hash v).map (fun x => { dec with ReceiptsRoot := x })
  | .LogsBloom => (decodeField C.bytes v).map (fun x => { dec with LogsBloom := x })
  | .Random => (decodeField C.hash v).map (fun x => { dec with Random := x })
  | .Number => (decodeField C.uint64 v).map (fun x => { dec with Number := x })
  | .GasLimit => (decodeField C.uint64 v).map (fun x => { dec with GasLimit := x })
  | .GasUsed => (decodeField C.uint64 v).map (fun x => { dec with GasUsed := x })
  | .Timestamp => (decodeField C.uint64 v).map (fun x => { dec with Timestamp := x })
  | .ExtraData => (decodeField C.bytes v).map (fun x => { dec with ExtraData := x })
  | .BaseFeePerGas => (decodeField C.big v).map (fun x => { dec with BaseFeePerGas := x })
  | .BlockHash => (decodeField C.hash v).map (fun x => { dec with BlockHash := x })
  | .Transactions => (decodeField C.bytesList v).map (fun x => { dec with Transactions := x })

/-- Modelled from the spec: `json.Unmarshal` on the members of a JSON object, decoded
one after the other in input order into the decoding struct `dec`: a member whose name
matches no field is skipped, a member that matches a field is decoded into it (a later
member for the same field replaces the value of an earlier one); `none` when a decoder
rejects a value, in which case `json.Unmarshal` returns an error. -/
def unmarshalFrom (C : Codec) : decBeaconBlock → List (String × Json) → Option decBeaconBlock
  | dec, [] => some dec
  | dec, (key, v) :: rest =>
    match matchField key with
    | none => unmarshalFrom C dec rest
    | some f =>
      match store C dec f v with
      | none => none
      | some dec => unmarshalFrom C dec rest

/-- Modelled from the spec: `json.Unmarshal(input, &dec)` on a JSON object with the given
members, `dec` being the zero decoding struct. -/
def unmarshal (C : Codec) (input : List (String × Json)) : Option decBeaconBlock :=
  unmarshalFrom C decBeaconBlock.zero input

/-- The errors that `UnmarshalJSON` returns: the error of `json.Unmarshal`, passed on as
it is, or an error made by `errors.New` with a message. -/
inductive Err where
  | decode
  | new (msg : String)
deriving DecidableEq, Repr

/-- `UnmarshalJSON` on the receiver `b`, with the members of the JSON object as input:
the error returned (`none` is nil) and the receiver afterwards. -/
def beaconBlock.UnmarshalJSON (C : Codec) (b : beaconBlock) (input : List (String × Json)) :
    Option Err × beaconBlock :=
  match unmarshal C input with
  | none => (some .decode, b)
  | some dec =>
  match dec.ParentHash with
  | none => (some (.new "missing required field 'parent_hash' for beaconBlock"), b)
  | some v =>
  let b := { b with ParentHash := v }
  match dec.FeeRecipient with
  | none => (some (.new "missing required field 'fee_recipient' for beaconBlock"), b)
  | some v =>
  let b := { b with FeeRecipient := v }
  match dec.StateRoot with
  | none => (some (.new "missing required field 'state_root' for beaconBlock"), b)
  | some v =>
  let b := { b with StateRoot := v }
  match dec.ReceiptsRoot with
  | none => (some (.new "missing required field 'receipts_root' for beaconBlock"), b)
  | some v =>
  let b := { b with ReceiptsRoot := v }
  match dec.LogsBloom with
  | none => (some (.new "missing required field 'logs_bloom' for beaconBlock"), b)
  | some v =>
  let b := { b with LogsBloom := v }
  match dec.Random with
  | none => (some (.new "missing required field 'prev_randao' for beaconBlock"), b)
  | some v =>
  let b := { b with Random := v }
  match dec.Number with
  | none => (some (.new "missing required field 'block_number' for beaconBlock"), b)
  | some v =>
  let b := { b with Number := v % 2 ^ 64 }
  match dec.GasLimit with
  | none => (some (.new "missing required field 'gas_limit' for beaconBlock"), b)
  | some v =>
  let b := { b with GasLimit := v % 2 ^ 64 }
  match dec.GasUsed with
  | none => (some (.new "missing required field 'gas_used' for beaconBlock"), b)
  | some v =>
  let b := { b with GasUsed := v % 2 ^ 64 }
  match dec.Timestamp with
  | none => (some (.new "missing required field 'timestamp' for beaconBlock"), b)
  | some v =>
  let b := { b with Timestamp := v % 2 ^ 64 }
  match dec.ExtraData with
  | none => (some (.new "missing required field 'extra_data' for beaconBlock"), b)
  | some v =>
  let b := { b with ExtraData := v }
  match dec.BaseFeePerGas with
  | none => (some (.new "missing required field 'base_fee_per_gas' for beaconBlock"), b)
  | some v =>
  let b := { b with BaseFeePerGas := some v }
  match dec.BlockHash with
  | none => (some (.new "missing required field 'block_hash' for beaconBlock"), b)
  | some v =>
  let b := { b with BlockHash := v }
  match dec.Transactions with
  | none => (some (.new "missing required field 'transactions' for beaconBlock"), b)
  | some v =>
  let b := { b with Transactions := some v }
  (none, b)

/-- The JSON names of the 14 required fields, in declaration order. -/
def requiredFields : List String :=
  ["parent_hash", "fee_recipient", "state_root", "receipts_root", "logs_bloom",
    "prev_randao", "block_number", "gas_limit", "gas_used", "timestamp", "extra_data",
    "base_fee_per_gas", "block_hash", "transactions"]

/-- The value of the last member of the object that is decoded into the field, if any;
`cur` is the value from the members before. -/
def boundFrom (f : Field) : Option Json → List (String × Json) → Option Json
  | cur, [] => cur
  | cur, (key, v) :: rest =>
    boundFrom f (if matchField key = some f then some v else cur) rest

/-- The value of the last member of the object that is decoded into the field. -/
def bound (input : List (String × Json)) (f : Field) : Option Json :=
  boundFrom f none input

/-- No value, or the value `null`. -/
def nilOf : Option Json → Bool
  | none => true
  | some v => v.isNull

/-- A field is missing when the object has no member for it, or the last one has the
value `null`. -/
def missing (input : List (String × Json)) (f : Field) : Bool :=
  nilOf (bound input f)

/-- The first missing required field, in declaration order. -/
def firstMissing (input : List (String × Json)) : Option Field :=
  fields.find? (missing input)

/-- Whether a field of the decoding struct is nil. -/
def nilField (dec : decBeaconBlock) : Field → Bool
  | .ParentHash => dec.ParentHash.isNone
  | .FeeRecipient => dec.FeeRecipient.isNone
  | .StateRoot => dec.StateRoot.isNone
  | .ReceiptsRoot => dec.ReceiptsRoot.isNone
  | .LogsBloom => dec.LogsBloom.isNone
  | .Random => dec.Random.isNone
  | .Number => dec.Number.isNone
  | .GasLimit => dec.GasLimit.isNone
  | .GasUsed => dec.GasUsed.isNone
  | .Timestamp => dec.Timestamp.isNone
  | .ExtraData => dec.ExtraData.isNone
  | .BaseFeePerGas => dec.BaseFeePerGas.isNone
  | .BlockHash => dec.BlockHash.isNone
  | .Transactions => dec.Transactions.isNone

/-- The decoder of the type of the field rejects the value. -/
def rejected (C : Codec) (f : Field) (v : Json) : Bool :=
  (store C decBeaconBlock.zero f v).isNone

/-- The message of the error for a missing field. -/
def missingMessage (name : String) : String :=
  "missing required field '" ++ name ++ "' for beaconBlock"

/-- The receiver with every field set from fully decoded values. -/
def assigned (dec : decBeaconBlock) : Option beaconBlock :=
  match dec with
  | ⟨some ParentHash, some FeeRecipient, some StateRoot, some ReceiptsRoot, some LogsBloom,
      some Random, some Number, some GasLimit, some GasUsed, some Timestamp, some ExtraData,
      some BaseFeePerGas, some BlockHash, some Transactions⟩ =>
    some ⟨ParentHash, FeeRecipient, StateRoot, ReceiptsRoot, LogsBloom, Random,
      Number % 2 ^ 64, GasLimit % 2 ^ 64, GasUsed % 2 ^ 64, Timestamp % 2 ^ 64, ExtraData,
      some BaseFeePerGas, BlockHash, some Transactions⟩
  | _ => none

/-- A stand-in for the decoders of the field types, used only in the examples: every
decoder accepts a JSON string (an array of strings for the transactions) and rejects
every other value, as the decoders of `hexutil` reject a value that is not a string. -/
def exampleCodec : Codec where
  hash := fun v => match v with | .str s => some (s.toList.map Char.toNat) | _ => none
  address := fun v => match v with | .str s => some (s.toList.map Char.toNat) | _ => none
  bytes := fun v => match v with | .str s => some (s.toList.map Char.toNat) | _ => none
  uint64 := fun v => match v with | .str s => some s.length | _ => none
  big := fun v => match v with | .str s => some (Int.ofNat s.length) | _ => none
  bytesList := fun v =>
    match v with
    | .arr xs =>
      xs.mapM (fun x => match x with | .str s => some (s.toList.map Char.toNat) | _ => none)
    | _ => none

/-- An example object with all 14 required members, whose `parent_hash` is a number. -/
def exampleInput : List (String × Json) :=
  [("parent_hash", .num 7), ("fee_recipient", .str "0x01"), ("state_root", .str "0x02"),
    ("receipts_root", .str "0x03"), ("logs_bloom", .str "0x04"),
    ("prev_randao", .str "0x05"), ("block_number", .str "0x06"),
    ("gas_limit", .str "0x07"), ("gas_used", .str "0x08"), ("timestamp", .str "0x09"),
    ("extra_data", .str "0x0a"), ("base_fee_per_gas", .str "0x0b"),
    ("block_hash", .str "0x0c"), ("transactions", .arr [])]

/-- A receiver with every field zero. -/
def zeroBlock : beaconBlock :=
  ⟨[], [], [], [], [], [], 0, 0, 0, 0, [], none, [], none⟩

end elay

namespace trie

/-! ## The hasher and its state-free reading -/

theorem hashData_eq (E : Collab) (h : pureHasher) (data : List Nat) :
    h.hashData E data =
      some (digest E data,
        { h with sha := ⟨data, some 32⟩, digestCalls := h.digestCalls + 1 }) := by
  simp [pureHasher.hashData, keccakState.Reset, keccakState.Write, keccakState.Read, digest]

theorem digest_length (E : Collab) (data : List Nat) : (digest E data).length = 32 := by
  simp [digest]

theorem shortnodeToHash_eq (E : Collab) (h : pureHasher) (n : node) (force : Bool) :
    h.shortnodeToHash E n force =
      match E.encode n with
      | none => none
      | some enc =>
        if enc.length < 32 ∧ force = false then
          some (n, { h with tmp := enc, encodeCalls := h.encodeCalls + 1 })
        else
          some (.hashNode (digest E enc),
            { h with tmp := enc, encodeCalls := h.encodeCalls + 1, sha := ⟨enc, some 32⟩,
                     digestCalls := h.digestCalls + 1 }) := by
  unfold pureHasher.shortnodeToHash
  cases E.encode n with
  | none => rfl
  | some enc =>
    simp only [List.nil_append, hashData_eq]
    cases force <;> simp

theorem fullnodeToHash_eq (E : Collab) (h : pureHasher) (n : node) (force : Bool) :
    h.fullnodeToHash E n force = h.shortnodeToHash E n force := rfl

theorem shortnodeToHash_fst (E : Collab) (h : pureHasher) (n : node) (force : Bool) :
    (h.shortnodeToHash E n force).map Prod.fst = toHashResult E n force := by
  rw [shortnodeToHash_eq]
  unfold toHashResult
  cases E.encode n with
  | none => rfl
  | some enc =>
    cases force
    · simp only [Bool.not_false, Bool.and_true, decide_eq_true_eq, and_true]
      split <;> rfl
    · simp


theorem hashShortNodeChildren_views (E : Collab) (h : pureHasher) (Key : List Nat) (Val : node)
    (flags : nodeFlag)
    (ih : ∀ h, (pureHasher.hash E h Val false).map views = hashResult E Val false) :
    (pureHasher.hashShortNodeChildren E h Key Val flags).map views =
      (if Val.isBranch then hashResult E Val false else some (Val, Val)).map
        (fun r => (.shortNode (E.hexToCompact Key) r.1 flags, .shortNode Key r.2 flags)) := by
  cases Val with
  | shortNode k v f =>
    rw [pureHasher.hashShortNodeChildren]
    simp only [node.isBranch, if_true, ← ih h]
    cases pureHasher.hash E h (.shortNode k v f) false <;> rfl
  | fullNode cs f =>
    rw [pureHasher.hashShortNodeChildren]
    simp only [node.isBranch, if_true, ← ih h]
    cases pureHasher.hash E h (.fullNode cs f) false <;> rfl
  | hashNode b => rw [pureHasher.hashShortNodeChildren] <;> simp [node.isBranch, views]
  | valueNode b => rw [pureHasher.hashShortNodeChildren] <;> simp [node.isBranch, views]

mutual
theorem hash_views (E : Collab) : ∀ (n : node) (h : pureHasher) (force : Bool),
    (pureHasher.hash E h n force).map views = hashResult E n force
  | .shortNode Key Val flags, h, force => by
    have ih := fun h => hash_views E Val h false
    have hc := hashShortNodeChildren_views E h Key Val flags ih
    rw [pureHasher.hash, hashResult]
    cases hf : flags.hash with
    | some d => simp [node.cache, hf, views]
    | none =>
      simp only [node.cache, hf]
      cases hr : (if Val.isBranch then hashResult E Val false else some (Val, Val)) with
      | none =>
        rw [hr] at hc
        cases hk : pureHasher.hashShortNodeChildren E h Key Val flags with
        | none => rfl
        | some r => rw [hk] at hc; simp at hc
      | some r =>
        rw [hr] at hc
        cases hk : pureHasher.hashShortNodeChildren E h Key Val flags with
        | none => rw [hk] at hc; simp at hc
        | some q =>
          obtain ⟨collapsed, cached, h1⟩ := q
          rw [hk] at hc
          simp [views] at hc
          obtain ⟨hc1, hc2⟩ := hc
          subst hc1 hc2
          simp only
          have ht := shortnodeToHash_fst E h1 (.shortNode (E.hexToCompact Key) r.1 flags) force
          cases hs : h1.shortnodeToHash E (.shortNode (E.hexToCompact Key) r.1 flags) force with
          | none => rw [hs] at ht; simp at ht; rw [← ht]; rfl
          | some p =>
            obtain ⟨hashed, h2⟩ := p
            rw [hs] at ht; simp at ht; rw [← ht]
            simp only
            cases hh : hashed.asHashNode <;> simp [views, node.setHash, hf]
  | .fullNode Children flags, h, force => by
    have hc := hashSlots_views E Children 16 h
    rw [pureHasher.hash, hashResult]
    cases hf : flags.hash with
    | some d => simp [node.cache, hf, views]
    | none =>
      simp only [node.cache, hf, pureHasher.hashFullNodeChildren]
      rw [← hc]
      cases hk : pureHasher.hashSlots E h 16 Children with
      | none => rfl
      | some q =>
        obtain ⟨collapsed, cached, h1⟩ := q
        simp only [Option.map, views]
        have ht := shortnodeToHash_fst E h1 (.fullNode collapsed flags) force
        rw [fullnodeToHash_eq]
        cases hs : h1.shortnodeToHash E (.fullNode collapsed flags) force with
        | none => rw [hs] at ht; simp at ht; rw [← ht]
        | some p =>
          obtain ⟨hashed, h2⟩ := p
          rw [hs] at ht; simp at ht; rw [← ht]
          simp only
          cases hh : hashed.asHashNode <;> simp [node.setHash, hf]
  | .hashNode b, h, force => by
    rw [pureHasher.hash, hashResult] <;> simp [node.cache, views]
  | .valueNode b, h, force => by
    rw [pureHasher.hash, hashResult] <;> simp [node.cache, views]

theorem hashSlots_views (E : Collab) : ∀ (cs : List (Option node)) (k : Nat) (h : pureHasher),
    (pureHasher.hashSlots E h k cs).map views = slotsResult E k cs
  | cs, 0, h => by rw [pureHasher.hashSlots, slotsResult]; rfl
  | [], k + 1, h => by rw [pureHasher.hashSlots, slotsResult]; rfl
  | none :: rest, k + 1, h => by
    rw [pureHasher.hashSlots, slotsResult, ← hashSlots_views E rest k h]
    cases pureHasher.hashSlots E h k rest <;> rfl
  | some child :: rest, k + 1, h => by
    rw [pureHasher.hashSlots, slotsResult, ← hash_views E child h false]
    cases hc : pureHasher.hash E h child false with
    | none => rfl
    | some r =>
      obtain ⟨cc, kc, h1⟩ := r
      simp only [Option.map, views]
      rw [← hashSlots_views E rest k h1]
      cases pureHasher.hashSlots E h1 k rest <;> rfl
end

theorem hash_of_cache (E : Collab) (h : pureHasher) (n : node) (force : Bool) (d : List Nat)
    (hd : n.cache.1 = some d) : pureHasher.hash E h n force = some (.hashNode d, n, h) := by
  cases n with
  | shortNode Key Val flags => rw [pureHasher.hash, hd]
  | fullNode Children flags => rw [pureHasher.hash, hd]
  | hashNode b => simp [node.cache] at hd
  | valueNode b => simp [node.cache] at hd

theorem hash_of_leaf (E : Collab) (h : pureHasher) (n : node) (force : Bool)
    (hn : n.isBranch = false) : pureHasher.hash E h n force = some (n, n, h) := by
  cases n with
  | shortNode Key Val flags => simp [node.isBranch] at hn
  | fullNode Children flags => simp [node.isBranch] at hn
  | hashNode b => rw [pureHasher.hash] <;> simp [node.cache]
  | valueNode b => rw [pureHasher.hash] <;> simp [node.cache]

theorem hash_of_children (E : Collab) (h : pureHasher) (n : node) (force : Bool)
    (collapsed cached : node) (h1 : pureHasher)
    (hn : n.cache.1 = none) (hc : h.hashChildren E n = some (collapsed, cached, h1)) :
    pureHasher.hash E h n force =
      match h1.shortnodeToHash E collapsed force with
      | none => none
      | some (hashed, h2) => some (hashed, cached.setHash hashed.asHashNode, h2) := by
  cases n with
  | shortNode Key Val flags =>
    simp only [pureHasher.hashChildren] at hc
    rw [pureHasher.hash, hn]
    simp only [hc]
    cases h1.shortnodeToHash E collapsed force with
    | none => rfl
    | some p => obtain ⟨hashed, h2⟩ := p; cases hh : hashed.asHashNode <;> simp [hh]
  | fullNode Children flags =>
    simp only [pureHasher.hashChildren] at hc
    rw [pureHasher.hash, hn]
    simp only [hc, fullnodeToHash_eq]
    cases h1.shortnodeToHash E collapsed force with
    | none => rfl
    | some p => obtain ⟨hashed, h2⟩ := p; cases hh : hashed.asHashNode <;> simp [hh]
  | hashNode b => simp [pureHasher.hashChildren] at hc
  | valueNode b => simp [pureHasher.hashChildren] at hc

theorem hashShortNodeChildren_of_leaf (E : Collab) (h : pureHasher) (Key : List Nat) (Val : node)
    (flags : nodeFlag) (hv : Val.isBranch = false) :
    pureHasher.hashShortNodeChildren E h Key Val flags =
      some (.shortNode (E.hexToCompact Key) Val flags, .shortNode Key Val flags, h) := by
  cases Val with
  | shortNode k v f => simp [node.isBranch] at hv
  | fullNode cs f => simp [node.isBranch] at hv
  | hashNode b => rw [pureHasher.hashShortNodeChildren] <;> simp
  | valueNode b => rw [pureHasher.hashShortNodeChildren] <;> simp

theorem hashShortNodeChildren_of_branch (E : Collab) (h : pureHasher) (Key : List Nat) (Val : node)
    (flags : nodeFlag) (hv : Val.isBranch = true) :
    pureHasher.hashShortNodeChildren E h Key Val flags =
      match pureHasher.hash E h Val false with
      | none => none
      | some (collapsedVal, cachedVal, h1) =>
        some (.shortNode (E.hexToCompact Key) collapsedVal flags,
          .shortNode Key cachedVal flags, h1) := by
  cases Val with
  | shortNode k v f => rw [pureHasher.hashShortNodeChildren]
  | fullNode cs f => rw [pureHasher.hashShortNodeChildren]
  | hashNode b => simp [node.isBranch] at hv
  | valueNode b => simp [node.isBranch] at hv

/-- From a run to its state-free reading. -/
theorem hashResult_of_hash (E : Collab) (h h1 : pureHasher) (n hashed cached : node)
    (force : Bool) (hr : pureHasher.hash E h n force = some (hashed, cached, h1)) :
    hashResult E n force = some (hashed, cached) := by
  rw [← hash_views E n h force, hr]; rfl

/-- From the state-free reading to a run from any hasher state. -/
theorem hash_of_hashResult (E : Collab) (h : pureHasher) (n hashed cached : node)
    (force : Bool) (hr : hashResult E n force = some (hashed, cached)) :
    ∃ h1, pureHasher.hash E h n force = some (hashed, cached, h1) := by
  rw [← hash_views E n h force] at hr
  cases hh : pureHasher.hash E h n force with
  | none => rw [hh] at hr; simp at hr
  | some r =>
    obtain ⟨a, b, h1⟩ := r
    rw [hh] at hr
    simp [views] at hr
    exact ⟨h1, by rw [hr.1, hr.2]⟩

theorem toHashResult_isSome (E : Collab) (hE : EncodesAll E) (n : node) (force : Bool) :
    ∃ r, toHashResult E n force = some r := by
  unfold toHashResult
  cases he : E.encode n with
  | none => exact absurd he (hE n)
  | some enc => simp only; split <;> exact ⟨_, rfl⟩

mutual
theorem hashResult_isSome (E : Collab) (hE : EncodesAll E) :
    ∀ (n : node) (force : Bool), ∃ r, hashResult E n force = some r
  | .shortNode Key Val flags, force => by
    rw [hashResult]
    cases hf : flags.hash with
    | some d => exact ⟨_, rfl⟩
    | none =>
      simp only
      have hv : ∃ r, (if Val.isBranch then hashResult E Val false else some (Val, Val)) = some r := by
        split
        · exact hashResult_isSome E hE Val false
        · exact ⟨_, rfl⟩
      obtain ⟨r, hr⟩ := hv
      rw [hr]
      obtain ⟨t, ht⟩ := toHashResult_isSome E hE (.shortNode (E.hexToCompact Key) r.1 flags) force
      simp only [ht]
      exact ⟨_, rfl⟩
  | .fullNode Children flags, force => by
    rw [hashResult]
    cases hf : flags.hash with
    | some d => exact ⟨_, rfl⟩
    | none =>
      simp only
      obtain ⟨r, hr⟩ := slotsResult_isSome E hE Children 16
      rw [hr]
      obtain ⟨t, ht⟩ := toHashResult_isSome E hE (.fullNode r.1 flags) force
      simp only [ht]
      exact ⟨_, rfl⟩
  | .hashNode b, force => ⟨_, by rw [hashResult]⟩
  | .valueNode b, force => ⟨_, by rw [hashResult]⟩

theorem slotsResult_isSome (E : Collab) (hE : EncodesAll E) :
    ∀ (cs : List (Option node)) (k : Nat), ∃ r, slotsResult E k cs = some r
  | cs, 0 => ⟨_, by rw [slotsResult]⟩
  | [], k + 1 => ⟨_, by rw [slotsResult]⟩
  | none :: rest, k + 1 => by
    obtain ⟨r, hr⟩ := slotsResult_isSome E hE rest k
    rw [slotsResult, hr]
    exact ⟨_, rfl⟩
  | some child :: rest, k + 1 => by
    obtain ⟨r, hr⟩ := slotsResult_isSome E hE rest k
    obtain ⟨c, hc⟩ := hashResult_isSome E hE child false
    rw [slotsResult, hc, hr]
    exact ⟨_, rfl⟩
end

/-- With an encoder that never fails, `hash` returns from every hasher state. -/
theorem hash_returns (E : Collab) (hE : EncodesAll E) (h : pureHasher) (n : node)
    (force : Bool) : ∃ r, pureHasher.hash E h n force = some r := by
  obtain ⟨⟨a, b⟩, hr⟩ := hashResult_isSome E hE n force
  obtain ⟨h1, hh⟩ := hash_of_hashResult E h n a b force hr
  exact ⟨_, hh⟩

theorem rlpCollab_encodesAll : EncodesAll rlpCollab := by
  intro n; simp [rlpCollab]

/-! ## Claims -/

/-- C1 (cache short-circuit): a node that carries a non-nil cached digest `d` is hashed,
for either value of `force`, to exactly `(d, n)`, and the hasher comes back as it was: its
scratch buffer, its digest instance and both call counters are unchanged, so neither the
binary encoder nor the digest function was invoked. -/
theorem hash_cache_short_circuit (E : Collab) (h : pureHasher) (n : node) (force : Bool)
    (d : List Nat) (hd : n.cache.1 = some d) :
    pureHasher.hash E h n force = some (.hashNode d, n, h) ∧
      ∀ hashed cached h1, pureHasher.hash E h n force = some (hashed, cached, h1) →
        h1.encodeCalls = h.encodeCalls ∧ h1.digestCalls = h.digestCalls := by
  have hr := hash_of_cache E h n force d hd
  refine ⟨hr, ?_⟩
  intro hashed cached h1 hh
  rw [hr] at hh
  simp only [Option.some.injEq, Prod.mk.injEq] at hh
  obtain ⟨-, -, rfl⟩ := hh
  exact ⟨rfl, rfl⟩

/-- Witness of C1: a short node with the cached digest `[7, 7]`, hashed with `force` on. -/
theorem hash_cache_short_circuit_witness :
    (node.shortNode [1, 2, 16] (.valueNode [5]) ⟨some [7, 7], false⟩).cache.1 = some [7, 7] ∧
    (pureHasher.hash rlpCollab freshHasher
        (.shortNode [1, 2, 16] (.valueNode [5]) ⟨some [7, 7], false⟩) true =
        some (.hashNode [7, 7], .shortNode [1, 2, 16] (.valueNode [5]) ⟨some [7, 7], false⟩,
          freshHasher) ∧
      ∀ hashed cached h1, pureHasher.hash rlpCollab freshHasher
          (.shortNode [1, 2, 16] (.valueNode [5]) ⟨some [7, 7], false⟩) true =
          some (hashed, cached, h1) →
        h1.encodeCalls = freshHasher.encodeCalls ∧ h1.digestCalls = freshHasher.digestCalls) :=
  ⟨rfl, hash_cache_short_circuit rlpCollab freshHasher _ true [7, 7] rfl⟩

/-- C2 (inline-vs-digest decision): for a short or full node `n` without cached digest,
with `collapsed` the node produced by hashing the children of `n` and `enc` the encoder
output on `collapsed`, `hash` returns `collapsed` as `hashed` when `enc` is shorter than
32 bytes and `force` is off, and otherwise the hash node of the 32-byte digest of `enc`;
in particular 32 bytes are digested and 31 bytes are inlined. -/
theorem hash_inline_or_digest (E : Collab) (h : pureHasher) (n : node) (force : Bool)
    (collapsed cached : node) (h1 : pureHasher) (enc : List Nat)
    (hn : n.cache.1 = none)
    (hc : h.hashChildren E n = some (collapsed, cached, h1))
    (he : E.encode collapsed = some enc) :
    ∃ hashed cached1 h2, pureHasher.hash E h n force = some (hashed, cached1, h2) ∧
      hashed = (if enc.length < 32 ∧ force = false then collapsed
                else .hashNode (digest E enc)) ∧
      (digest E enc).length = 32 ∧
      (enc.length = 32 → hashed = .hashNode (digest E enc)) ∧
      (enc.length = 31 → force = false → hashed = collapsed) := by
  rw [hash_of_children E h n force collapsed cached h1 hn hc, shortnodeToHash_eq, he]
  by_cases hlt : enc.length < 32 ∧ force = false
  · refine ⟨collapsed, _, _, by simp only [if_pos hlt]; rfl, by rw [if_pos hlt],
      digest_length E enc, ?_, fun _ _ => rfl⟩
    intro h32; omega
  · refine ⟨.hashNode (digest E enc), _, _, by simp only [if_neg hlt]; rfl, by rw [if_neg hlt],
      digest_length E enc, fun _ => rfl, ?_⟩
    intro h31 hf
    exact absurd ⟨by omega, hf⟩ hlt

/-- Witness of C2: a leaf with a two-nibble key whose collapsed form encodes to five
bytes. -/
theorem hash_inline_or_digest_witness :
    ∃ hashed cached1 h2,
      pureHasher.hash rlpCollab freshHasher
        (.shortNode [1, 2, 16] (.valueNode [5]) ⟨none, true⟩) false =
        some (hashed, cached1, h2) ∧
      hashed = (if [196, 130, 32, 18, 5].length < 32 ∧ false = false
                then .shortNode [32, 18] (.valueNode [5]) ⟨none, true⟩
                else .hashNode (digest rlpCollab [196, 130, 32, 18, 5])) ∧
      (digest rlpCollab [196, 130, 32, 18, 5]).length = 32 ∧
      ([196, 130, 32, 18, 5].length = 32 →
        hashed = .hashNode (digest rlpCollab [196, 130, 32, 18, 5])) ∧
      ([196, 130, 32, 18, 5].length = 31 → false = false →
        hashed = .shortNode [32, 18] (.valueNode [5]) ⟨none, true⟩) :=
  hash_inline_or_digest rlpCollab freshHasher
    (.shortNode [1, 2, 16] (.valueNode [5]) ⟨none, true⟩) false
    (.shortNode [32, 18] (.valueNode [5]) ⟨none, true⟩)
    (.shortNode [1, 2, 16] (.valueNode [5]) ⟨none, true⟩) freshHasher
    [196, 130, 32, 18, 5] rfl
    (hashShortNodeChildren_of_leaf rlpCollab freshHasher [1, 2, 16] (.valueNode [5])
      ⟨none, true⟩ rfl)
    rfl

/-- C3 is false as stated: hashing a value node with `force` on returns the value node
itself, not a 32-byte hash node. -/
theorem hash_force_valueNode_not_digest :
    ¬ ∃ d cached h1,
      pureHasher.hash rlpCollab freshHasher (.valueNode [5]) true =
        some (.hashNode d, cached, h1) ∧ d.length = 32 := by
  rintro ⟨d, cached, h1, hh, -⟩
  rw [hash_of_leaf rlpCollab freshHasher (.valueNode [5]) true rfl] at hh
  simp at hh

/-- C3 amended: with `force` on, a short or full node is hashed to a hash node whatever
the length of its encoding: of exactly 32 bytes when the node has no cached digest, and
the cached digest itself, as stored, when it has one; a value node or hash node is
returned as it is.  The call returns whenever the encoder does not fail. -/
theorem hash_force_digest (E : Collab) (h : pureHasher) (n : node) :
    (EncodesAll E → ∃ r, pureHasher.hash E h n true = some r) ∧
    ∀ hashed cached h1, pureHasher.hash E h n true = some (hashed, cached, h1) →
      (n.isBranch = true → ∃ d, hashed = .hashNode d ∧
        (n.cache.1 = none → d.length = 32) ∧ (∀ c, n.cache.1 = some c → d = c)) ∧
      (n.isBranch = false → hashed = n) := by
  refine ⟨fun hE => hash_returns E hE h n true, ?_⟩
  intro hashed cached h1 hh
  constructor
  · intro hb
    cases hcache : n.cache.1 with
    | some c =>
      rw [hash_of_cache E h n true c hcache] at hh
      simp only [Option.some.injEq, Prod.mk.injEq] at hh
      exact ⟨c, hh.1.symm, by simp, fun c1 hc1 => by simpa using hc1⟩
    | none =>
      cases hc : h.hashChildren E n with
      | none =>
        exfalso
        cases n with
        | shortNode Key Val flags =>
          simp only [pureHasher.hashChildren] at hc
          rw [pureHasher.hash, hcache] at hh
          simp [hc] at hh
        | fullNode Children flags =>
          simp only [pureHasher.hashChildren] at hc
          rw [pureHasher.hash, hcache] at hh
          simp [hc] at hh
        | hashNode b => simp [node.isBranch] at hb
        | valueNode b => simp [node.isBranch] at hb
      | some r =>
        obtain ⟨collapsed, cachedc, h2⟩ := r
        rw [hash_of_children E h n true collapsed cachedc h2 hcache hc, shortnodeToHash_eq] at hh
        cases he : E.encode collapsed with
        | none => rw [he] at hh; simp at hh
        | some enc =>
          rw [he] at hh
          simp only [Bool.true_eq_false, and_false, if_false, Option.some.injEq,
            Prod.mk.injEq] at hh
          exact ⟨digest E enc, hh.1.symm, fun _ => digest_length E enc, by simp⟩
  · intro hb
    rw [hash_of_leaf E h n true hb] at hh
    simp only [Option.some.injEq, Prod.mk.injEq] at hh
    exact hh.1.symm

/-- Witness of C3 amended: a small leaf hashed with `force` on. -/
theorem hash_force_digest_witness :
    (EncodesAll rlpCollab → ∃ r, pureHasher.hash rlpCollab freshHasher
        (.shortNode [1, 2, 16] (.valueNode [5]) ⟨none, true⟩) true = some r) ∧
    ∀ hashed cached h1, pureHasher.hash rlpCollab freshHasher
        (.shortNode [1, 2, 16] (.valueNode [5]) ⟨none, true⟩) true = some (hashed, cached, h1) →
      ((node.shortNode [1, 2, 16] (.valueNode [5]) ⟨none, true⟩).isBranch = true →
        ∃ d, hashed = .hashNode d ∧
          ((node.shortNode [1, 2, 16] (.valueNode [5]) ⟨none, true⟩).cache.1 = none →
            d.length = 32) ∧
          (∀ c, (node.shortNode [1, 2, 16] (.valueNode [5]) ⟨none, true⟩).cache.1 = some c →
            d = c)) ∧
      ((node.shortNode [1, 2, 16] (.valueNode [5]) ⟨none, true⟩).isBranch = false →
        hashed = .shortNode [1, 2, 16] (.valueNode [5]) ⟨none, true⟩) :=
  hash_force_digest rlpCollab freshHasher (.shortNode [1, 2, 16] (.valueNode [5]) ⟨none, true⟩)

/-- C5: a value node or a hash node is returned unchanged as both `hashed` and `cached`,
for either value of `force` (and the hasher is left as it was). -/
theorem hash_leaf_unchanged (E : Collab) (h : pureHasher) (force : Bool) (b : List Nat) :
    pureHasher.hash E h (.valueNode b) force = some (.valueNode b, .valueNode b, h) ∧
    pureHasher.hash E h (.hashNode b) force = some (.hashNode b, .hashNode b, h) :=
  ⟨hash_of_leaf E h (.valueNode b) force rfl, hash_of_leaf E h (.hashNode b) force rfl⟩

/-- C7 (determinism independent of hasher state): from any two hasher states, whatever
their scratch buffer holds and whatever state their digest instance is in, `hash` returns
the same `hashed` and `cached` results (or fails in both). -/
theorem hash_state_independent (E : Collab) (h1 h2 : pureHasher) (n : node) (force : Bool) :
    (pureHasher.hash E h1 n force).map views = (pureHasher.hash E h2 n force).map views := by
  rw [hash_views, hash_views]

theorem asHashNode_eq_some (n : node) (d : List Nat) (hn : n.asHashNode = some d) :
    n = .hashNode d := by
  cases n <;> simp [node.asHashNode] at hn
  rw [hn]

theorem nodeFlag_hash_none (flags : nodeFlag) (hf : flags.hash = none) :
    ({ flags with hash := none } : nodeFlag) = flags := by
  cases flags; simp at hf; simp [hf]

theorem toHashResult_inline (E : Collab) (n hashed : node) (force : Bool)
    (hr : toHashResult E n force = some hashed)
    (hh : hashed.asHashNode = none) : hashed = n := by
  unfold toHashResult at hr
  cases he : E.encode n with
  | none => rw [he] at hr; simp at hr
  | some enc =>
    rw [he] at hr
    simp only at hr
    split at hr
    · simpa using hr.symm
    · simp only [Option.some.injEq] at hr
      rw [← hr] at hh
      simp [node.asHashNode] at hh

theorem hashResult_variant (E : Collab) : ∀ (n : node) (force : Bool) (a b : node),
    hashResult E n force = some (a, b) → b.variant = n.variant
  | .shortNode Key Val flags, force, a, b, hr => by
    rw [hashResult] at hr
    cases hf : flags.hash with
    | some d => rw [hf] at hr; simp at hr; rw [← hr.2]
    | none =>
      rw [hf] at hr
      simp only at hr
      split at hr
      · simp at hr
      · split at hr
        · simp at hr
        · simp only [Option.some.injEq, Prod.mk.injEq] at hr
          rw [← hr.2]; rfl
  | .fullNode Children flags, force, a, b, hr => by
    rw [hashResult] at hr
    cases hf : flags.hash with
    | some d => rw [hf] at hr; simp at hr; rw [← hr.2]
    | none =>
      rw [hf] at hr
      simp only at hr
      split at hr
      · simp at hr
      · split at hr
        · simp at hr
        · simp only [Option.some.injEq, Prod.mk.injEq] at hr
          rw [← hr.2]; rfl
  | .hashNode c, force, a, b, hr => by
    rw [hashResult] at hr; simp at hr; rw [← hr.2]
  | .valueNode c, force, a, b, hr => by
    rw [hashResult] at hr; simp at hr; rw [← hr.2]

theorem isBranch_of_variant (n m : node) (hv : m.variant = n.variant) :
    m.isBranch = n.isBranch := by
  cases n <;> cases m <;> simp [node.variant] at hv <;> rfl

mutual
theorem hashResult_idem (E : Collab) : ∀ (n : node) (force : Bool) (a b : node),
    hashResult E n force = some (a, b) → hashResult E b force = some (a, b)
  | .shortNode Key Val flags, force, a, b, hr => by
    have hr0 := hr
    rw [hashResult] at hr
    cases hf : flags.hash with
    | some d =>
      rw [hf] at hr; simp only [Option.some.injEq, Prod.mk.injEq] at hr
      rw [← hr.2, hr0, hr.2]
    | none =>
      rw [hf] at hr
      simp only at hr
      cases hv : (if Val.isBranch then hashResult E Val false else some (Val, Val)) with
      | none => rw [hv] at hr; simp at hr
      | some r =>
        obtain ⟨cv, kv⟩ := r
        rw [hv] at hr
        simp only at hr
        cases ht : toHashResult E (.shortNode (E.hexToCompact Key) cv flags) force with
        | none => rw [ht] at hr; simp at hr
        | some hashed =>
          rw [ht] at hr
          simp only [Option.some.injEq, Prod.mk.injEq] at hr
          obtain ⟨rfl, rfl⟩ := hr
          rw [hashResult]
          cases hh : hashed.asHashNode with
          | some d => simp only; rw [asHashNode_eq_some hashed d hh]
          | none =>
            simp only
            have hkv : (if kv.isBranch then hashResult E kv false else some (kv, kv)) =
                some (cv, kv) := by
              by_cases hb : Val.isBranch = true
              · rw [if_pos hb] at hv
                have h1 := hashResult_idem E Val false cv kv hv
                have h2 := isBranch_of_variant Val kv (hashResult_variant E Val false cv kv hv)
                rw [h2, if_pos hb, h1]
              · rw [if_neg hb] at hv
                simp only [Option.some.injEq, Prod.mk.injEq] at hv
                obtain ⟨rfl, rfl⟩ := hv
                rw [if_neg hb]
            rw [hkv]
            simp only
            rw [nodeFlag_hash_none flags hf, ht]
            simp only [hh, nodeFlag_hash_none flags hf]
  | .fullNode Children flags, force, a, b, hr => by
    have hr0 := hr
    rw [hashResult] at hr
    cases hf : flags.hash with
    | some d =>
      rw [hf] at hr; simp only [Option.some.injEq, Prod.mk.injEq] at hr
      rw [← hr.2, hr0, hr.2]
    | none =>
      rw [hf] at hr
      simp only at hr
      cases hv : slotsResult E 16 Children with
      | none => rw [hv] at hr; simp at hr
      | some r =>
        obtain ⟨cs, ks⟩ := r
        rw [hv] at hr
        simp only at hr
        cases ht : toHashResult E (.fullNode cs flags) force with
        | none => rw [ht] at hr; simp at hr
        | some hashed =>
          rw [ht] at hr
          simp only [Option.some.injEq, Prod.mk.injEq] at hr
          obtain ⟨rfl, rfl⟩ := hr
          rw [hashResult]
          cases hh : hashed.asHashNode with
          | some d => simp only; rw [asHashNode_eq_some hashed d hh]
          | none =>
            simp only
            rw [slotsResult_idem E Children 16 cs ks hv]
            simp only
            rw [nodeFlag_hash_none flags hf, ht]
            simp only [hh, nodeFlag_hash_none flags hf]
  | .hashNode c, force, a, b, hr => by
    rw [hashResult] at hr; simp at hr; rw [← hr.1, ← hr.2, hashResult]
  | .valueNode c, force, a, b, hr => by
    rw [hashResult] at hr; simp at hr; rw [← hr.1, ← hr.2, hashResult]

theorem slotsResult_idem (E : Collab) : ∀ (cs : List (Option node)) (k : Nat)
    (a b : List (Option node)), slotsResult E k cs = some (a, b) →
      slotsResult E k b = some (a, b)
  | cs, 0, a, b, hr => by
    rw [slotsResult] at hr; simp at hr; rw [← hr.1, ← hr.2, slotsResult]
  | [], k + 1, a, b, hr => by
    rw [slotsResult] at hr; simp at hr; rw [hr.1, hr.2, slotsResult]
  | none :: rest, k + 1, a, b, hr => by
    rw [slotsResult] at hr
    cases hv : slotsResult E k rest with
    | none => rw [hv] at hr; simp at hr
    | some r =>
      obtain ⟨cs, ks⟩ := r
      rw [hv] at hr
      simp only [Option.some.injEq, Prod.mk.injEq] at hr
      obtain ⟨rfl, rfl⟩ := hr
      rw [slotsResult, slotsResult_idem E rest k cs ks hv]
  | some child :: rest, k + 1, a, b, hr => by
    rw [slotsResult] at hr
    cases hc : hashResult E child false with
    | none => rw [hc] at hr; simp at hr
    | some c =>
      obtain ⟨cc, kc⟩ := c
      rw [hc] at hr
      simp only at hr
      cases hv : slotsResult E k rest with
      | none => rw [hv] at hr; simp at hr
      | some r =>
        obtain ⟨cs, ks⟩ := r
        rw [hv] at hr
        simp only [Option.some.injEq, Prod.mk.injEq] at hr
        obtain ⟨rfl, rfl⟩ := hr
        rw [slotsResult, hashResult_idem E child false cc kc hc,
          slotsResult_idem E rest k cs ks hv]
end

mutual
theorem hashResult_eraseHash (E : Collab) : ∀ (n : node) (force : Bool) (a b : node),
    hashResult E n force = some (a, b) → b.eraseHash = n.eraseHash
  | .shortNode Key Val flags, force, a, b, hr => by
    rw [hashResult] at hr
    cases hf : flags.hash with
    | some d => rw [hf] at hr; simp at hr; rw [← hr.2]
    | none =>
      rw [hf] at hr
      simp only at hr
      cases hv : (if Val.isBranch then hashResult E Val false else some (Val, Val)) with
      | none => rw [hv] at hr; simp at hr
      | some r =>
        obtain ⟨cv, kv⟩ := r
        rw [hv] at hr
        simp only at hr
        cases ht : toHashResult E (.shortNode (E.hexToCompact Key) cv flags) force with
        | none => rw [ht] at hr; simp at hr
        | some hashed =>
          rw [ht] at hr
          simp only [Option.some.injEq, Prod.mk.injEq] at hr
          obtain ⟨rfl, rfl⟩ := hr
          have hkv : kv.eraseHash = Val.eraseHash := by
            by_cases hb : Val.isBranch = true
            · rw [if_pos hb] at hv
              exact hashResult_eraseHash E Val false cv kv hv
            · rw [if_neg hb] at hv
              simp only [Option.some.injEq, Prod.mk.injEq] at hv
              rw [hv.2]
          rw [node.eraseHash, node.eraseHash, hkv]
  | .fullNode Children flags, force, a, b, hr => by
    rw [hashResult] at hr
    cases hf : flags.hash with
    | some d => rw [hf] at hr; simp at hr; rw [← hr.2]
    | none =>
      rw [hf] at hr
      simp only at hr
      cases hv : slotsResult E 16 Children with
      | none => rw [hv] at hr; simp at hr
      | some r =>
        obtain ⟨cs, ks⟩ := r
        rw [hv] at hr
        simp only at hr
        cases ht : toHashResult E (.fullNode cs flags) force with
        | none => rw [ht] at hr; simp at hr
        | some hashed =>
          rw [ht] at hr
          simp only [Option.some.injEq, Prod.mk.injEq] at hr
          obtain ⟨rfl, rfl⟩ := hr
          rw [node.eraseHash, node.eraseHash, slotsResult_eraseSlots E Children 16 cs ks hv]
  | .hashNode c, force, a, b, hr => by
    rw [hashResult] at hr; simp at hr; rw [← hr.2]
  | .valueNode c, force, a, b, hr => by
    rw [hashResult] at hr; simp at hr; rw [← hr.2]

theorem slotsResult_eraseSlots (E : Collab) : ∀ (cs : List (Option node)) (k : Nat)
    (a b : List (Option node)), slotsResult E k cs = some (a, b) →
      eraseSlots b = eraseSlots cs
  | cs, 0, a, b, hr => by
    rw [slotsResult] at hr; simp at hr; rw [← hr.2]
  | [], k + 1, a, b, hr => by
    rw [slotsResult] at hr; simp at hr; rw [hr.2]
  | none :: rest, k + 1, a, b, hr => by
    rw [slotsResult] at hr
    cases hv : slotsResult E k rest with
    | none => rw [hv] at hr; simp at hr
    | some r =>
      obtain ⟨cs, ks⟩ := r
      rw [hv] at hr
      simp only [Option.some.injEq, Prod.mk.injEq] at hr
      obtain ⟨rfl, rfl⟩ := hr
      rw [eraseSlots, eraseSlots, slotsResult_eraseSlots E rest k cs ks hv]
  | some child :: rest, k + 1, a, b, hr => by
    rw [slotsResult] at hr
    cases hc : hashResult E child false with
    | none => rw [hc] at hr; simp at hr
    | some c =>
      obtain ⟨cc, kc⟩ := c
      rw [hc] at hr
      simp only at hr
      cases hv : slotsResult E k rest with
      | none => rw [hv] at hr; simp at hr
      | some r =>
        obtain ⟨cs, ks⟩ := r
        rw [hv] at hr
        simp only [Option.some.injEq, Prod.mk.injEq] at hr
        obtain ⟨rfl, rfl⟩ := hr
        rw [eraseSlots, eraseSlots, hashResult_eraseHash E child false cc kc hc,
          slotsResult_eraseSlots E rest k cs ks hv]
end

/-- Inside the loop: a non-nil routing slot of the input holds, in the collapsed and in
the cached slots, the two results of hashing that child without `force`. -/
theorem slotsResult_child (E : Collab) : ∀ (cs : List (Option node)) (k : Nat)
    (a b : List (Option node)), slotsResult E k cs = some (a, b) →
    ∀ (i : Nat) (c : node), i < k → cs[i]? = some (some c) →
      ∃ cc kc, hashResult E c false = some (cc, kc) ∧
        a[i]? = some (some cc) ∧ b[i]? = some (some kc)
  | cs, 0, a, b, _ => fun i c hi _ => absurd hi (Nat.not_lt_zero i)
  | [], k + 1, a, b, _ => fun i c _ hc => by simp at hc
  | none :: rest, k + 1, a, b, hr => by
    intro i c hi hc
    rw [slotsResult] at hr
    cases hv : slotsResult E k rest with
    | none => rw [hv] at hr; simp at hr
    | some r =>
      obtain ⟨cs, ks⟩ := r
      rw [hv] at hr
      simp only [Option.some.injEq, Prod.mk.injEq] at hr
      obtain ⟨rfl, rfl⟩ := hr
      cases i with
      | zero => simp at hc
      | succ j =>
        simp only [List.getElem?_cons_succ] at hc ⊢
        exact slotsResult_child E rest k cs ks hv j c (by omega) hc
  | some child :: rest, k + 1, a, b, hr => by
    intro i c hi hc
    rw [slotsResult] at hr
    cases hch : hashResult E child false with
    | none => rw [hch] at hr; simp at hr
    | some p =>
      obtain ⟨cc, kc⟩ := p
      rw [hch] at hr
      simp only at hr
      cases hv : slotsResult E k rest with
      | none => rw [hv] at hr; simp at hr
      | some r =>
        obtain ⟨cs, ks⟩ := r
        rw [hv] at hr
        simp only [Option.some.injEq, Prod.mk.injEq] at hr
        obtain ⟨rfl, rfl⟩ := hr
        cases i with
        | zero =>
          simp only [List.getElem?_cons_zero, Option.some.injEq] at hc
          subst hc
          exact ⟨cc, kc, hch, by simp, by simp⟩
        | succ j =>
          simp only [List.getElem?_cons_succ] at hc ⊢
          exact slotsResult_child E rest k cs ks hv j c (by omega) hc

/-- The state-free reading of a short node without cached digest. -/
theorem hashResult_shortNode (E : Collab) (Key : List Nat) (Val : node) (flags : nodeFlag)
    (force : Bool) (a b : node) (hf : flags.hash = none)
    (hr : hashResult E (.shortNode Key Val flags) force = some (a, b)) :
    ∃ cv kv, (if Val.isBranch then hashResult E Val false else some (Val, Val)) = some (cv, kv) ∧
      toHashResult E (.shortNode (E.hexToCompact Key) cv flags) force = some a ∧
      b = .shortNode Key kv { flags with hash := a.asHashNode } := by
  rw [hashResult, hf] at hr
  simp only at hr
  cases hv : (if Val.isBranch then hashResult E Val false else some (Val, Val)) with
  | none => rw [hv] at hr; simp at hr
  | some r =>
    obtain ⟨cv, kv⟩ := r
    rw [hv] at hr
    simp only at hr
    cases ht : toHashResult E (.shortNode (E.hexToCompact Key) cv flags) force with
    | none => rw [ht] at hr; simp at hr
    | some hashed =>
      rw [ht] at hr
      simp only [Option.some.injEq, Prod.mk.injEq] at hr
      obtain ⟨rfl, rfl⟩ := hr
      exact ⟨cv, kv, rfl, ht, rfl⟩

/-- The state-free reading of a full node without cached digest. -/
theorem hashResult_fullNode (E : Collab) (Children : List (Option node)) (flags : nodeFlag)
    (force : Bool) (a b : node) (hf : flags.hash = none)
    (hr : hashResult E (.fullNode Children flags) force = some (a, b)) :
    ∃ cs ks, slotsResult E 16 Children = some (cs, ks) ∧
      toHashResult E (.fullNode cs flags) force = some a ∧
      b = .fullNode ks { flags with hash := a.asHashNode } := by
  rw [hashResult, hf] at hr
  simp only at hr
  cases hv : slotsResult E 16 Children with
  | none => rw [hv] at hr; simp at hr
  | some r =>
    obtain ⟨cs, ks⟩ := r
    rw [hv] at hr
    simp only at hr
    cases ht : toHashResult E (.fullNode cs flags) force with
    | none => rw [ht] at hr; simp at hr
    | some hashed =>
      rw [ht] at hr
      simp only [Option.some.injEq, Prod.mk.injEq] at hr
      obtain ⟨rfl, rfl⟩ := hr
      exact ⟨cs, ks, rfl, ht, rfl⟩

theorem hashChildren_shape (E : Collab) (h h1 : pureHasher) (n collapsed cached : node)
    (hc : h.hashChildren E n = some (collapsed, cached, h1)) :
    collapsed.variant = n.variant ∧
      (∀ Key Val flags, n = .shortNode Key Val flags →
        collapsed.key? = some (E.hexToCompact Key)) := by
  cases n with
  | shortNode Key Val flags =>
    simp only [pureHasher.hashChildren] at hc
    by_cases hb : Val.isBranch = true
    · rw [hashShortNodeChildren_of_branch E h Key Val flags hb] at hc
      cases hv : pureHasher.hash E h Val false with
      | none => rw [hv] at hc; simp at hc
      | some r =>
        obtain ⟨cv, kv, h2⟩ := r
        rw [hv] at hc
        simp only [Option.some.injEq, Prod.mk.injEq] at hc
        obtain ⟨rfl, -, -⟩ := hc
        refine ⟨rfl, ?_⟩
        intro K V f hn
        simp only [node.shortNode.injEq] at hn
        rw [← hn.1]; rfl
    · simp only [Bool.not_eq_true] at hb
      rw [hashShortNodeChildren_of_leaf E h Key Val flags hb] at hc
      simp only [Option.some.injEq, Prod.mk.injEq] at hc
      obtain ⟨rfl, -, -⟩ := hc
      refine ⟨rfl, ?_⟩
      intro K V f hn
      simp only [node.shortNode.injEq] at hn
      rw [← hn.1]; rfl
  | fullNode Children flags =>
    simp only [pureHasher.hashChildren, pureHasher.hashFullNodeChildren] at hc
    cases hv : pureHasher.hashSlots E h 16 Children with
    | none => rw [hv] at hc; simp at hc
    | some r =>
      obtain ⟨cs, ks, h2⟩ := r
      rw [hv] at hc
      simp only [Option.some.injEq, Prod.mk.injEq] at hc
      obtain ⟨rfl, -, -⟩ := hc
      exact ⟨rfl, fun K V f hn => by simp at hn⟩
  | hashNode b => simp [pureHasher.hashChildren] at hc
  | valueNode b => simp [pureHasher.hashChildren] at hc

/-- C4 is false as stated: a leaf with key `[1, 2, 16]` and value `[5]`, whose encoding
takes 5 bytes (6 with the key left in hex form), is hashed without `force` to a node with
the compact key `[32, 18]`, which is not the input node. -/
theorem hash_inline_not_input :
    (rlpNode (.shortNode [1, 2, 16] (.valueNode [5]) ⟨none, true⟩)).length < 32 ∧
    (rlpNode (.shortNode (hexToCompact [1, 2, 16]) (.valueNode [5]) ⟨none, true⟩)).length < 32 ∧
    ∃ hashed cached h1,
      pureHasher.hash rlpCollab freshHasher
        (.shortNode [1, 2, 16] (.valueNode [5]) ⟨none, true⟩) false =
        some (hashed, cached, h1) ∧
      hashed.key? = some [32, 18] ∧
      hashed ≠ .shortNode [1, 2, 16] (.valueNode [5]) ⟨none, true⟩ := by
  refine ⟨by decide, by decide, ?_⟩
  obtain ⟨h1, hh⟩ := hash_of_hashResult rlpCollab freshHasher
    (.shortNode [1, 2, 16] (.valueNode [5]) ⟨none, true⟩)
    (.shortNode [32, 18] (.valueNode [5]) ⟨none, true⟩)
    (.shortNode [1, 2, 16] (.valueNode [5]) ⟨none, true⟩) false rfl
  refine ⟨_, _, h1, hh, rfl, ?_⟩
  intro he
  simp only [node.shortNode.injEq] at he
  exact absurd he.1 (by decide)

/-- C4 amended: for a short or full node `n` without cached digest whose collapsed form
(the copy that `hashShortNodeChildren` or `hashFullNodeChildren` makes: compact key
`hexToCompact(n.key)`, hashed children in place of the children) encodes to fewer than
32 bytes, `hash(n, false)` returns that collapsed form as `hashed`: a node of the same
variant as `n`, not a hash node, and no digest is computed for it (the digest counter
stays where the children left it). -/
theorem hash_inline_collapsed (E : Collab) (h : pureHasher) (n : node)
    (collapsed cached : node) (h1 : pureHasher) (enc : List Nat)
    (hn : n.cache.1 = none)
    (hc : h.hashChildren E n = some (collapsed, cached, h1))
    (he : E.encode collapsed = some enc) (hlt : enc.length < 32) :
    ∃ h2, pureHasher.hash E h n false = some (collapsed, cached.setHash none, h2) ∧
      h2.digestCalls = h1.digestCalls ∧
      collapsed.asHashNode = none ∧
      collapsed.variant = n.variant ∧
      (∀ Key Val flags, n = .shortNode Key Val flags →
        collapsed.key? = some (E.hexToCompact Key)) := by
  have hs := hashChildren_shape E h h1 n collapsed cached hc
  have hnh : collapsed.asHashNode = none := by
    have hv := hs.1
    cases n with
    | shortNode Key Val flags =>
      cases collapsed <;> first | rfl | simp [node.variant] at hv
    | fullNode Children flags =>
      cases collapsed <;> first | rfl | simp [node.variant] at hv
    | hashNode b => simp [pureHasher.hashChildren] at hc
    | valueNode b => simp [pureHasher.hashChildren] at hc
  have key : pureHasher.hash E h n false = some (collapsed, cached.setHash none,
      { h1 with tmp := enc, encodeCalls := h1.encodeCalls + 1 }) := by
    rw [hash_of_children E h n false collapsed cached h1 hn hc, shortnodeToHash_eq, he]
    simp only [hlt, and_self, if_true, hnh]
  exact ⟨_, key, rfl, hnh, hs.1, hs.2⟩

/-- Witness of C4 amended: the leaf with key `[1, 2, 16]` and value `[5]`. -/
theorem hash_inline_collapsed_witness :
    ∃ h2, pureHasher.hash rlpCollab freshHasher
        (.shortNode [1, 2, 16] (.valueNode [5]) ⟨none, true⟩) false =
        some (.shortNode [32, 18] (.valueNode [5]) ⟨none, true⟩,
          (node.shortNode [1, 2, 16] (.valueNode [5]) ⟨none, true⟩).setHash none, h2) ∧
      h2.digestCalls = freshHasher.digestCalls ∧
      (node.shortNode [32, 18] (.valueNode [5]) ⟨none, true⟩).asHashNode = none ∧
      (node.shortNode [32, 18] (.valueNode [5]) ⟨none, true⟩).variant =
        (node.shortNode [1, 2, 16] (.valueNode [5]) ⟨none, true⟩).variant ∧
      (∀ Key Val flags,
        node.shortNode [1, 2, 16] (.valueNode [5]) ⟨none, true⟩ = .shortNode Key Val flags →
        (node.shortNode [32, 18] (.valueNode [5]) ⟨none, true⟩).key? =
          some (rlpCollab.hexToCompact Key)) :=
  hash_inline_collapsed rlpCollab freshHasher
    (.shortNode [1, 2, 16] (.valueNode [5]) ⟨none, true⟩)
    (.shortNode [32, 18] (.valueNode [5]) ⟨none, true⟩)
    (.shortNode [1, 2, 16] (.valueNode [5]) ⟨none, true⟩) freshHasher
    [196, 130, 32, 18, 5] rfl
    (hashShortNodeChildren_of_leaf rlpCollab freshHasher [1, 2, 16] (.valueNode [5])
      ⟨none, true⟩ rfl)
    rfl (by decide)

/-- C6 (idempotence of re-hashing): when `hash(n, force)` returns `(hashed, cached)`,
hashing `cached` with the same `force`, from any hasher state, returns the same `hashed`
(the same digest, or the equal inline node) and `cached` again.  The first call returns
whenever the encoder does not fail. -/
theorem hash_rehash_cached (E : Collab) (h : pureHasher) (n : node) (force : Bool) :
    (EncodesAll E → ∃ r, pureHasher.hash E h n force = some r) ∧
    ∀ hashed cached h1, pureHasher.hash E h n force = some (hashed, cached, h1) →
      ∀ h2, ∃ h3, pureHasher.hash E h2 cached force = some (hashed, cached, h3) := by
  refine ⟨fun hE => hash_returns E hE h n force, ?_⟩
  intro hashed cached h1 hr h2
  have hp := hashResult_of_hash E h h1 n hashed cached force hr
  exact hash_of_hashResult E h2 cached hashed cached force
    (hashResult_idem E n force hashed cached hp)

/-- Witness of C6: a leaf under an extension, hashed without `force` and hashed again from
the hasher state the first call left. -/
theorem hash_rehash_cached_witness :
    ∃ hashed cached h1 h3,
      pureHasher.hash rlpCollab freshHasher
        (.shortNode [1] (.shortNode [2, 16] (.valueNode [5]) ⟨none, true⟩) ⟨none, true⟩)
        false = some (hashed, cached, h1) ∧
      pureHasher.hash rlpCollab h1 cached false = some (hashed, cached, h3) := by
  obtain ⟨⟨hashed, cached, h1⟩, hr⟩ :=
    (hash_rehash_cached rlpCollab freshHasher
      (.shortNode [1] (.shortNode [2, 16] (.valueNode [5]) ⟨none, true⟩) ⟨none, true⟩)
      false).1 rlpCollab_encodesAll
  obtain ⟨h3, hr3⟩ :=
    (hash_rehash_cached rlpCollab freshHasher
      (.shortNode [1] (.shortNode [2, 16] (.valueNode [5]) ⟨none, true⟩) ⟨none, true⟩)
      false).2 hashed cached h1 hr h1
  exact ⟨hashed, cached, h1, h3, hr, hr3⟩

/-- C9 (the cached view retains the original structure): the `cached` result of
`hash(n, force)` has the variant of `n` and, once every cached-digest field is erased in
both trees, equals `n`: same hex-form keys, same nil and non-nil slots, same values.  The
call returns whenever the encoder does not fail. -/
theorem hash_cached_structure (E : Collab) (h : pureHasher) (n : node) (force : Bool) :
    (EncodesAll E → ∃ r, pureHasher.hash E h n force = some r) ∧
    ∀ hashed cached h1, pureHasher.hash E h n force = some (hashed, cached, h1) →
      cached.variant = n.variant ∧ cached.eraseHash = n.eraseHash := by
  refine ⟨fun hE => hash_returns E hE h n force, ?_⟩
  intro hashed cached h1 hr
  have hp := hashResult_of_hash E h h1 n hashed cached force hr
  exact ⟨hashResult_variant E n force hashed cached hp,
    hashResult_eraseHash E n force hashed cached hp⟩

/-- Witness of C9: a leaf under an extension, hashed with `force` on. -/
theorem hash_cached_structure_witness :
    ∃ hashed cached h1,
      pureHasher.hash rlpCollab freshHasher
        (.shortNode [1] (.shortNode [2, 16] (.valueNode [5]) ⟨none, true⟩) ⟨none, true⟩)
        true = some (hashed, cached, h1) ∧
      cached.variant = Variant.short ∧
      cached.eraseHash =
        .shortNode [1] (.shortNode [2, 16] (.valueNode [5]) ⟨none, true⟩) ⟨none, true⟩ := by
  obtain ⟨⟨hashed, cached, h1⟩, hr⟩ :=
    (hash_cached_structure rlpCollab freshHasher
      (.shortNode [1] (.shortNode [2, 16] (.valueNode [5]) ⟨none, true⟩) ⟨none, true⟩)
      true).1 rlpCollab_encodesAll
  have hs := (hash_cached_structure rlpCollab freshHasher
      (.shortNode [1] (.shortNode [2, 16] (.valueNode [5]) ⟨none, true⟩) ⟨none, true⟩)
      true).2 hashed cached h1 hr
  exact ⟨hashed, cached, h1, hr, hs.1, hs.2⟩

/-- C10 is false as stated: in the cached view of an extension over a small leaf, the
child is the leaf's cached result (hex key `[2, 16]`), not the leaf's hashed result (the
inline node with compact key `[50]`). -/
theorem hash_cached_child_not_hashed :
    ∃ hashedChild cachedChild h0 hashed cached h1,
      pureHasher.hash rlpCollab freshHasher
        (.shortNode [2, 16] (.valueNode [5]) ⟨none, true⟩) false =
        some (hashedChild, cachedChild, h0) ∧
      pureHasher.hash rlpCollab freshHasher
        (.shortNode [1] (.shortNode [2, 16] (.valueNode [5]) ⟨none, true⟩) ⟨none, true⟩)
        false = some (hashed, cached, h1) ∧
      hashedChild = .shortNode [50] (.valueNode [5]) ⟨none, true⟩ ∧
      cached.val? = some (.shortNode [2, 16] (.valueNode [5]) ⟨none, true⟩) ∧
      cached.val? ≠ some hashedChild := by
  obtain ⟨h0, hr0⟩ := hash_of_hashResult rlpCollab freshHasher
    (.shortNode [2, 16] (.valueNode [5]) ⟨none, true⟩)
    (.shortNode [50] (.valueNode [5]) ⟨none, true⟩)
    (.shortNode [2, 16] (.valueNode [5]) ⟨none, true⟩) false rfl
  obtain ⟨h1, hr1⟩ := hash_of_hashResult rlpCollab freshHasher
    (.shortNode [1] (.shortNode [2, 16] (.valueNode [5]) ⟨none, true⟩) ⟨none, true⟩)
    (.shortNode [17] (.shortNode [50] (.valueNode [5]) ⟨none, true⟩) ⟨none, true⟩)
    (.shortNode [1] (.shortNode [2, 16] (.valueNode [5]) ⟨none, true⟩) ⟨none, true⟩)
    false rfl
  refine ⟨_, _, h0, _, _, h1, hr0, hr1, rfl, rfl, ?_⟩
  intro he
  simp only [node.val?, Option.some.injEq, node.shortNode.injEq] at he
  exact absurd he.1 (by decide)

/-- C10 amended: in the cached view that `hash` returns for a short or full node without
cached digest, every child that was recursively hashed (a short or full value of a short
node, a non-nil routing slot 0..15 of a full node) is replaced by that child's own cached
result, the second result of hashing the child without `force`; the child's hashed result
goes into the collapsed copy.  The call returns whenever the encoder does not fail. -/
theorem hash_cached_children (E : Collab) (h : pureHasher) (n : node) (force : Bool) :
    (EncodesAll E → ∃ r, pureHasher.hash E h n force = some r) ∧
    ∀ hashed cached h1, n.cache.1 = none →
      pureHasher.hash E h n force = some (hashed, cached, h1) →
      (∀ Val, n.val? = some Val → Val.isBranch = true →
        ∃ hashedVal cachedVal,
          (∀ h0, ∃ h2, pureHasher.hash E h0 Val false = some (hashedVal, cachedVal, h2)) ∧
          cached.val? = some cachedVal) ∧
      (∀ i child, i < 16 → n.slots[i]? = some (some child) →
        ∃ hashedChild cachedChild,
          (∀ h0, ∃ h2,
            pureHasher.hash E h0 child false = some (hashedChild, cachedChild, h2)) ∧
          cached.slots[i]? = some (some cachedChild)) := by
  refine ⟨fun hE => hash_returns E hE h n force, ?_⟩
  intro hashed cached h1 hn hr
  have hp := hashResult_of_hash E h h1 n hashed cached force hr
  cases n with
  | shortNode Key Val flags =>
    obtain ⟨cv, kv, hv, -, rfl⟩ := hashResult_shortNode E Key Val flags force hashed cached hn hp
    constructor
    · intro V hV hb
      simp only [node.val?, Option.some.injEq] at hV
      subst hV
      rw [if_pos hb] at hv
      exact ⟨cv, kv, fun h0 => hash_of_hashResult E h0 Val cv kv false hv, rfl⟩
    · intro i child _ hc
      simp [node.slots] at hc
  | fullNode Children flags =>
    obtain ⟨cs, ks, hv, -, rfl⟩ :=
      hashResult_fullNode E Children flags force hashed cached hn hp
    constructor
    · intro V hV
      simp [node.val?] at hV
    · intro i child hi hc
      simp only [node.slots] at hc ⊢
      obtain ⟨cc, kc, hcr, -, hk⟩ := slotsResult_child E Children 16 cs ks hv i child hi hc
      exact ⟨cc, kc, fun h0 => hash_of_hashResult E h0 child cc kc false hcr, hk⟩
  | hashNode b =>
    exact ⟨fun V hV => by simp [node.val?] at hV, fun i c _ hc => by simp [node.slots] at hc⟩
  | valueNode b =>
    exact ⟨fun V hV => by simp [node.val?] at hV, fun i c _ hc => by simp [node.slots] at hc⟩

/-- Witness of C10 amended: an extension over a small leaf. -/
theorem hash_cached_children_witness :
    ∃ hashed cached h1 hashedVal cachedVal,
      pureHasher.hash rlpCollab freshHasher
        (.shortNode [1] (.shortNode [2, 16] (.valueNode [5]) ⟨none, true⟩) ⟨none, true⟩)
        false = some (hashed, cached, h1) ∧
      (∀ h0, ∃ h2, pureHasher.hash rlpCollab h0
        (.shortNode [2, 16] (.valueNode [5]) ⟨none, true⟩) false =
        some (hashedVal, cachedVal, h2)) ∧
      cached.val? = some cachedVal := by
  obtain ⟨⟨hashed, cached, h1⟩, hr⟩ :=
    (hash_cached_children rlpCollab freshHasher
      (.shortNode [1] (.shortNode [2, 16] (.valueNode [5]) ⟨none, true⟩) ⟨none, true⟩)
      false).1 rlpCollab_encodesAll
  obtain ⟨hv, kv, hall, hk⟩ :=
    ((hash_cached_children rlpCollab freshHasher
      (.shortNode [1] (.shortNode [2, 16] (.valueNode [5]) ⟨none, true⟩) ⟨none, true⟩)
      false).2 hashed cached h1 rfl hr).1
      (.shortNode [2, 16] (.valueNode [5]) ⟨none, true⟩) rfl rfl
  exact ⟨hashed, cached, h1, hv, kv, hr, hall, hk⟩

/-- The slots that the loop of `hashFullNodeChildren` computes, slot by slot. -/
theorem slotsResult_spec (E : Collab) : ∀ (cs : List (Option node)) (k : Nat)
    (a b : List (Option node)), slotsResult E k cs = some (a, b) →
    a.length = cs.length ∧ b.length = cs.length ∧
    ∀ (i : Nat),
      (i < k → cs[i]? = some none → a[i]? = some (some nilValueNode) ∧ b[i]? = some none) ∧
      (i < k → ∀ c, cs[i]? = some (some c) →
        ∃ cc kc, hashResult E c false = some (cc, kc) ∧
          a[i]? = some (some cc) ∧ b[i]? = some (some kc)) ∧
      (k ≤ i → a[i]? = cs[i]? ∧ b[i]? = cs[i]?)
  | cs, 0, a, b, hr => by
    rw [slotsResult] at hr
    simp only [Option.some.injEq, Prod.mk.injEq] at hr
    obtain ⟨rfl, rfl⟩ := hr
    exact ⟨rfl, rfl, fun i => ⟨fun hi => absurd hi (Nat.not_lt_zero i),
      fun hi => absurd hi (Nat.not_lt_zero i), fun _ => ⟨rfl, rfl⟩⟩⟩
  | [], k + 1, a, b, hr => by
    rw [slotsResult] at hr
    simp only [Option.some.injEq, Prod.mk.injEq] at hr
    obtain ⟨rfl, rfl⟩ := hr
    exact ⟨rfl, rfl, fun i => ⟨fun _ h => by simp at h, fun _ c h => by simp at h,
      fun _ => ⟨rfl, rfl⟩⟩⟩
  | none :: rest, k + 1, a, b, hr => by
    rw [slotsResult] at hr
    cases hv : slotsResult E k rest with
    | none => rw [hv] at hr; simp at hr
    | some r =>
      obtain ⟨cs, ks⟩ := r
      rw [hv] at hr
      simp only [Option.some.injEq, Prod.mk.injEq] at hr
      obtain ⟨rfl, rfl⟩ := hr
      obtain ⟨hl1, hl2, hi⟩ := slotsResult_spec E rest k cs ks hv
      refine ⟨by simp [hl1], by simp [hl2], ?_⟩
      intro i
      cases i with
      | zero =>
        exact ⟨fun _ _ => ⟨by simp, by simp⟩, fun _ c h => by simp at h, fun h => by omega⟩
      | succ j =>
        simp only [List.getElem?_cons_succ]
        exact ⟨fun h1 h2 => (hi j).1 (by omega) h2, fun h1 c h2 => (hi j).2.1 (by omega) c h2,
          fun h1 => (hi j).2.2 (by omega)⟩
  | some child :: rest, k + 1, a, b, hr => by
    rw [slotsResult] at hr
    cases hch : hashResult E child false with
    | none => rw [hch] at hr; simp at hr
    | some q =>
      obtain ⟨cc, kc⟩ := q
      rw [hch] at hr
      simp only at hr
      cases hv : slotsResult E k rest with
      | none => rw [hv] at hr; simp at hr
      | some r =>
        obtain ⟨cs, ks⟩ := r
        rw [hv] at hr
        simp only [Option.some.injEq, Prod.mk.injEq] at hr
        obtain ⟨rfl, rfl⟩ := hr
        obtain ⟨hl1, hl2, hi⟩ := slotsResult_spec E rest k cs ks hv
        refine ⟨by simp [hl1], by simp [hl2], ?_⟩
        intro i
        cases i with
        | zero =>
          refine ⟨fun _ h => by simp at h, fun _ c h => ?_, fun h => by omega⟩
          simp only [List.getElem?_cons_zero, Option.some.injEq] at h
          subst h
          exact ⟨cc, kc, hch, by simp, by simp⟩
        | succ j =>
          simp only [List.getElem?_cons_succ]
          exact ⟨fun h1 h2 => (hi j).1 (by omega) h2,
            fun h1 c h2 => (hi j).2.1 (by omega) c h2, fun h1 => (hi j).2.2 (by omega)⟩


/-! ## Writes of `hash` over the node memory -/

namespace heap

theorem prefix_set {α : Type} (l0 l : List α) (p : Nat) (x : α) (hp : l0 <+: l)
    (hl : l0.length ≤ p) : l0 <+: l.set p x := by
  obtain ⟨t, rfl⟩ := hp
  rw [List.set_append_right _ _ hl]
  exact List.prefix_append _ _

theorem preserved_refl (m : Mem) : m.preserved m :=
  ⟨List.prefix_refl _, List.prefix_refl _⟩

theorem preserved_trans (m0 m1 m2 : Mem) (h01 : m0.preserved m1) (h12 : m1.preserved m2) :
    m0.preserved m2 :=
  ⟨h01.1.trans h12.1, h01.2.trans h12.2⟩

theorem preserved_lookup (m m1 : Mem) (hp : m.preserved m1) :
    (∀ (p : Nat) (c : shortNode), m.shortNodes[p]? = some c → m1.shortNodes[p]? = some c) ∧
    (∀ (p : Nat) (c : fullNode), m.fullNodes[p]? = some c → m1.fullNodes[p]? = some c) := by
  obtain ⟨⟨t, ht⟩, ⟨u, hu⟩⟩ := hp
  constructor
  · intro p c hc
    have hlt : p < m.shortNodes.length := (List.getElem?_eq_some_iff.mp hc).1
    rw [← ht, List.getElem?_append_left hlt, hc]
  · intro p c hc
    have hlt : p < m.fullNodes.length := (List.getElem?_eq_some_iff.mp hc).1
    rw [← hu, List.getElem?_append_left hlt, hc]

theorem copyShort_spec (m m1 : Mem) (n p : Nat) (hc : m.copyShort n = some (p, m1)) :
    p = m.shortNodes.length ∧ m.preserved m1 ∧
      m1.shortNodes.length = m.shortNodes.length + 1 := by
  unfold Mem.copyShort at hc
  cases hn : m.shortNodes[n]? with
  | none => rw [hn] at hc; simp at hc
  | some c =>
    rw [hn] at hc
    simp only [Option.some.injEq, Prod.mk.injEq] at hc
    obtain ⟨rfl, rfl⟩ := hc
    exact ⟨rfl, ⟨List.prefix_append _ _, List.prefix_refl _⟩, by simp⟩

theorem copyFull_spec (m m1 : Mem) (n p : Nat) (hc : m.copyFull n = some (p, m1)) :
    p = m.fullNodes.length ∧ m.preserved m1 ∧
      m1.fullNodes.length = m.fullNodes.length + 1 := by
  unfold Mem.copyFull at hc
  cases hn : m.fullNodes[n]? with
  | none => rw [hn] at hc; simp at hc
  | some c =>
    rw [hn] at hc
    simp only [Option.some.injEq, Prod.mk.injEq] at hc
    obtain ⟨rfl, rfl⟩ := hc
    exact ⟨rfl, ⟨List.prefix_refl _, List.prefix_append _ _⟩, by simp⟩

theorem writeShort_preserved (m0 m m1 : Mem) (p : Nat) (f : shortNode → shortNode)
    (h0 : m0.preserved m) (hp : m0.shortNodes.length ≤ p)
    (hw : m.writeShort p f = some m1) : m0.preserved m1 := by
  unfold Mem.writeShort at hw
  cases hn : m.shortNodes[p]? with
  | none => rw [hn] at hw; simp at hw
  | some c =>
    rw [hn] at hw
    simp only [Option.some.injEq] at hw
    subst hw
    exact ⟨prefix_set _ _ _ _ h0.1 hp, h0.2⟩

theorem writeFull_preserved (m0 m m1 : Mem) (p : Nat) (f : fullNode → fullNode)
    (h0 : m0.preserved m) (hp : m0.fullNodes.length ≤ p)
    (hw : m.writeFull p f = some m1) : m0.preserved m1 := by
  unfold Mem.writeFull at hw
  cases hn : m.fullNodes[p]? with
  | none => rw [hn] at hw; simp at hw
  | some c =>
    rw [hn] at hw
    simp only [Option.some.injEq] at hw
    subst hw
    exact ⟨h0.1, prefix_set _ _ _ _ h0.2 hp⟩

theorem hashShortNodeChildren_frame (E : MemCollab) (hash : HashFn) (hf : hash.frames)
    (h h1 : pureHasher) (m m1 : Mem) (n collapsed cached : Nat)
    (hr : hashShortNodeChildren E hash h m n = some (collapsed, cached, h1, m1)) :
    m.preserved m1 ∧ m.shortNodes.length ≤ cached := by
  unfold hashShortNodeChildren at hr
  cases hc1 : m.copyShort n with
  | none => rw [hc1] at hr; simp at hr
  | some r1 =>
    obtain ⟨p1, ma⟩ := r1
    rw [hc1] at hr
    simp only at hr
    obtain ⟨hp1, hpa, hla⟩ := copyShort_spec m ma n p1 hc1
    cases hc2 : ma.copyShort n with
    | none => rw [hc2] at hr; simp at hr
    | some r2 =>
      obtain ⟨p2, mb⟩ := r2
      rw [hc2] at hr
      simp only at hr
      obtain ⟨hp2, hpb, hlb⟩ := copyShort_spec ma mb n p2 hc2
      have h0b : m.preserved mb := preserved_trans m ma mb hpa hpb
      cases hn1 : mb.shortNodes[n]? with
      | none => rw [hn1] at hr; simp at hr
      | some nv1 =>
        rw [hn1] at hr
        simp only at hr
        cases hw1 : mb.writeShort p1 (fun c => { c with Key := E.hexToCompact nv1.Key }) with
        | none => rw [hw1] at hr; simp at hr
        | some mc =>
          rw [hw1] at hr
          simp only at hr
          have h0c : m.preserved mc :=
            writeShort_preserved m mb mc p1 _ h0b (by omega) hw1
          cases hn2 : mc.shortNodes[n]? with
          | none => rw [hn2] at hr; simp at hr
          | some nv =>
            rw [hn2] at hr
            simp only at hr
            split at hr
            · cases hh : hash h mc nv.Val false with
              | none => simp [hh] at hr
              | some r =>
                obtain ⟨cv, kv, h2, md⟩ := r
                have hcd : mc.preserved md := hf h mc nv.Val false cv kv h2 md hh
                have h0d : m.preserved md := preserved_trans m mc md h0c hcd
                simp only [hh] at hr
                cases hw2 : md.writeShort p1 (fun c => { c with Val := cv }) with
                | none => rw [hw2] at hr; simp at hr
                | some me =>
                  rw [hw2] at hr
                  simp only at hr
                  have h0e := writeShort_preserved m md me p1 _ h0d (by omega) hw2
                  cases hw3 : me.writeShort p2 (fun c => { c with Val := kv }) with
                  | none => rw [hw3] at hr; simp at hr
                  | some mf =>
                    rw [hw3] at hr
                    simp only [Option.some.injEq, Prod.mk.injEq] at hr
                    obtain ⟨-, rfl, -, rfl⟩ := hr
                    exact ⟨writeShort_preserved m me mf p2 _ h0e (by omega) hw3, by omega⟩
            · cases hh : hash h mc nv.Val false with
              | none => simp [hh] at hr
              | some r =>
                obtain ⟨cv, kv, h2, md⟩ := r
                have hcd : mc.preserved md := hf h mc nv.Val false cv kv h2 md hh
                have h0d : m.preserved md := preserved_trans m mc md h0c hcd
                simp only [hh] at hr
                cases hw2 : md.writeShort p1 (fun c => { c with Val := cv }) with
                | none => rw [hw2] at hr; simp at hr
                | some me =>
                  rw [hw2] at hr
                  simp only at hr
                  have h0e := writeShort_preserved m md me p1 _ h0d (by omega) hw2
                  cases hw3 : me.writeShort p2 (fun c => { c with Val := kv }) with
                  | none => rw [hw3] at hr; simp at hr
                  | some mf =>
                    rw [hw3] at hr
                    simp only [Option.some.injEq, Prod.mk.injEq] at hr
                    obtain ⟨-, rfl, -, rfl⟩ := hr
                    exact ⟨writeShort_preserved m me mf p2 _ h0e (by omega) hw3, by omega⟩
            · simp only [Option.some.injEq, Prod.mk.injEq] at hr
              obtain ⟨-, rfl, -, rfl⟩ := hr
              exact ⟨h0c, by omega⟩

theorem hashFullNodeStep_frame (hash : HashFn) (hf : hash.frames) (m0 : Mem)
    (n collapsed cached i : Nat) (s s1 : pureHasher × Mem)
    (h0 : m0.preserved s.2) (hcol : m0.fullNodes.length ≤ collapsed)
    (hcac : m0.fullNodes.length ≤ cached)
    (hr : hashFullNodeStep hash n collapsed cached s i = some s1) : m0.preserved s1.2 := by
  unfold hashFullNodeStep at hr
  cases hn : s.2.fullNodes[n]? with
  | none => rw [hn] at hr; simp at hr
  | some nv =>
    rw [hn] at hr
    simp only at hr
    have key : ∀ child, hash s.1 s.2 child false = none ∨
        ∀ r, (match hash s.1 s.2 child false with
          | none => none
          | some (collapsedChild, cachedChild, h, m) =>
            match m.writeFull collapsed
              (fun c => { c with Children := c.Children.set i collapsedChild }) with
            | none => none
            | some m =>
              match m.writeFull cached
                (fun c => { c with Children := c.Children.set i cachedChild }) with
              | none => none
              | some m => some (h, m)) = some r → m0.preserved r.2 := by
      intro child
      cases hh : hash s.1 s.2 child false with
      | none => exact Or.inl rfl
      | some q =>
        right
        obtain ⟨cc, kc, h2, ma⟩ := q
        intro r hr2
        simp only at hr2
        have h0a : m0.preserved ma :=
          preserved_trans m0 s.2 ma h0 (hf s.1 s.2 child false cc kc h2 ma hh)
        cases hw1 : ma.writeFull collapsed
            (fun c => { c with Children := c.Children.set i cc }) with
        | none => rw [hw1] at hr2; simp at hr2
        | some mb =>
          rw [hw1] at hr2
          simp only at hr2
          have h0b := writeFull_preserved m0 ma mb collapsed _ h0a hcol hw1
          cases hw2 : mb.writeFull cached
              (fun c => { c with Children := c.Children.set i kc }) with
          | none => rw [hw2] at hr2; simp at hr2
          | some mc =>
            rw [hw2] at hr2
            simp only [Option.some.injEq] at hr2
            subst hr2
            exact writeFull_preserved m0 mb mc cached _ h0b hcac hw2
    cases hc : nv.Children[i]? with
    | none => rw [hc] at hr; simp at hr
    | some child =>
      rw [hc] at hr
      cases child with
      | nil =>
        simp only at hr
        cases hw : s.2.writeFull collapsed
            (fun c => { c with Children := c.Children.set i nilValueNode }) with
        | none => rw [hw] at hr; simp at hr
        | some ma =>
          rw [hw] at hr
          simp only [Option.some.injEq] at hr
          subst hr
          exact writeFull_preserved m0 s.2 ma collapsed _ h0 hcol hw
      | shortNode p =>
        simp only at hr
        rcases key (.shortNode p) with hk | hk
        · rw [hk] at hr; simp at hr
        · exact hk s1 hr
      | fullNode p =>
        simp only at hr
        rcases key (.fullNode p) with hk | hk
        · rw [hk] at hr; simp at hr
        · exact hk s1 hr
      | hashNode b =>
        simp only at hr
        rcases key (.hashNode b) with hk | hk
        · rw [hk] at hr; simp at hr
        · exact hk s1 hr
      | valueNode b =>
        simp only at hr
        rcases key (.valueNode b) with hk | hk
        · rw [hk] at hr; simp at hr
        · exact hk s1 hr

theorem hashFullNodeLoop_frame (hash : HashFn) (hf : hash.frames) (m0 : Mem)
    (n collapsed cached : Nat) (hcol : m0.fullNodes.length ≤ collapsed)
    (hcac : m0.fullNodes.length ≤ cached) :
    ∀ (is : List Nat) (s s1 : pureHasher × Mem), m0.preserved s.2 →
      hashFullNodeLoop hash n collapsed cached is s = some s1 → m0.preserved s1.2
  | [], s, s1, h0, hr => by
    simp only [hashFullNodeLoop, Option.some.injEq] at hr
    subst hr
    exact h0
  | i :: rest, s, s1, h0, hr => by
    simp only [hashFullNodeLoop] at hr
    cases hs : hashFullNodeStep hash n collapsed cached s i with
    | none => rw [hs] at hr; simp at hr
    | some s2 =>
      rw [hs] at hr
      exact hashFullNodeLoop_frame hash hf m0 n collapsed cached hcol hcac rest s2 s1
        (hashFullNodeStep_frame hash hf m0 n collapsed cached i s s2 h0 hcol hcac hs) hr

theorem hashFullNodeChildren_frame (hash : HashFn) (hf : hash.frames)
    (h h1 : pureHasher) (m m1 : Mem) (n collapsed cached : Nat)
    (hr : hashFullNodeChildren hash h m n = some (collapsed, cached, h1, m1)) :
    m.preserved m1 ∧ m.fullNodes.length ≤ cached := by
  unfold hashFullNodeChildren at hr
  cases hc1 : m.copyFull n with
  | none => rw [hc1] at hr; simp at hr
  | some r1 =>
    obtain ⟨p1, ma⟩ := r1
    rw [hc1] at hr
    simp only at hr
    obtain ⟨hp1, hpa, hla⟩ := copyFull_spec m ma n p1 hc1
    cases hc2 : ma.copyFull n with
    | none => rw [hc2] at hr; simp at hr
    | some r2 =>
      obtain ⟨p2, mb⟩ := r2
      rw [hc2] at hr
      simp only at hr
      obtain ⟨hp2, hpb, hlb⟩ := copyFull_spec ma mb n p2 hc2
      have h0b : m.preserved mb := preserved_trans m ma mb hpa hpb
      cases hl : hashFullNodeLoop hash n p2 p1 (List.range 16) (h, mb) with
      | none => rw [hl] at hr; simp at hr
      | some s =>
        obtain ⟨h2, mc⟩ := s
        rw [hl] at hr
        simp only at hr
        have h0c : m.preserved mc :=
          hashFullNodeLoop_frame hash hf m n p2 p1 (by omega) (by omega)
            (List.range 16) (h, mb) (h2, mc) h0b hl
        cases hn : mc.fullNodes[n]? with
        | none => rw [hn] at hr; simp at hr
        | some nv =>
          rw [hn] at hr
          simp only at hr
          cases h16 : nv.Children[16]? with
          | none => rw [h16] at hr; simp at hr
          | some last =>
            rw [h16] at hr
            simp only at hr
            cases hw : mc.writeFull p1
                (fun c => { c with Children := c.Children.set 16 last }) with
            | none => rw [hw] at hr; simp at hr
            | some md =>
              rw [hw] at hr
              simp only [Option.some.injEq, Prod.mk.injEq] at hr
              obtain ⟨-, rfl, -, rfl⟩ := hr
              exact ⟨writeFull_preserved m mc md p1 _ h0c (by omega) hw, by omega⟩

/-- Whatever the depth bound, `hash` leaves every struct that existed before the call as
it was. -/
theorem hash_frames (E : MemCollab) : ∀ fuel, (hash E fuel).frames
  | 0 => by
    intro h m n force hashed cached h1 m1 hr
    simp [hash] at hr
  | fuel + 1 => by
    have ih := hash_frames E fuel
    intro h m n force hashed cached h1 m1 hr
    have hleaf : ∀ r : Ref, (some (r, r, h, m) : Option (Ref × Ref × pureHasher × Mem)) =
        some (hashed, cached, h1, m1) → m.preserved m1 := by
      intro r hq
      simp only [Option.some.injEq, Prod.mk.injEq] at hq
      obtain ⟨-, -, -, rfl⟩ := hq
      exact preserved_refl m
    cases n with
    | nil => simp [hash, Ref.cache] at hr
    | hashNode b =>
      simp only [hash, Ref.cache] at hr
      exact hleaf _ hr
    | valueNode b =>
      simp only [hash, Ref.cache] at hr
      exact hleaf _ hr
    | shortNode p =>
      simp only [hash] at hr
      cases hc : (Ref.shortNode p).cache m with
      | none => rw [hc] at hr; simp at hr
      | some c =>
        obtain ⟨d, dirty⟩ := c
        rw [hc] at hr
        cases d with
        | some d =>
          simp only [Option.some.injEq, Prod.mk.injEq] at hr
          obtain ⟨-, -, -, rfl⟩ := hr
          exact preserved_refl m
        | none =>
          simp only at hr
          cases hk : hashShortNodeChildren E (hash E fuel) h m p with
          | none => rw [hk] at hr; simp at hr
          | some r =>
            obtain ⟨collapsed, cachedp, h2, ma⟩ := r
            rw [hk] at hr
            simp only at hr
            obtain ⟨h0a, hca⟩ :=
              hashShortNodeChildren_frame E (hash E fuel) ih h h2 m ma p collapsed cachedp hk
            cases ht : shortnodeToHash E h2 ma collapsed force with
            | none => rw [ht] at hr; simp at hr
            | some q =>
              obtain ⟨hd, h3⟩ := q
              rw [ht] at hr
              simp only at hr
              split at hr
              · split at hr
                · simp at hr
                · rename_i mb hw
                  simp only [Option.some.injEq, Prod.mk.injEq] at hr
                  obtain ⟨-, -, -, rfl⟩ := hr
                  exact writeShort_preserved m ma mb cachedp _ h0a hca hw
              · split at hr
                · simp at hr
                · rename_i mb hw
                  simp only [Option.some.injEq, Prod.mk.injEq] at hr
                  obtain ⟨-, -, -, rfl⟩ := hr
                  exact writeShort_preserved m ma mb cachedp _ h0a hca hw
    | fullNode p =>
      simp only [hash] at hr
      cases hc : (Ref.fullNode p).cache m with
      | none => rw [hc] at hr; simp at hr
      | some c =>
        obtain ⟨d, dirty⟩ := c
        rw [hc] at hr
        cases d with
        | some d =>
          simp only [Option.some.injEq, Prod.mk.injEq] at hr
          obtain ⟨-, -, -, rfl⟩ := hr
          exact preserved_refl m
        | none =>
          simp only at hr
          cases hk : hashFullNodeChildren (hash E fuel) h m p with
          | none => rw [hk] at hr; simp at hr
          | some r =>
            obtain ⟨collapsed, cachedp, h2, ma⟩ := r
            rw [hk] at hr
            simp only at hr
            obtain ⟨h0a, hca⟩ :=
              hashFullNodeChildren_frame (hash E fuel) ih h h2 m ma p collapsed cachedp hk
            cases ht : fullnodeToHash E h2 ma collapsed force with
            | none => rw [ht] at hr; simp at hr
            | some q =>
              obtain ⟨hd, h3⟩ := q
              rw [ht] at hr
              simp only at hr
              split at hr
              · split at hr
                · simp at hr
                · rename_i mb hw
                  simp only [Option.some.injEq, Prod.mk.injEq] at hr
                  obtain ⟨-, -, -, rfl⟩ := hr
                  exact writeFull_preserved m ma mb cachedp _ h0a hca hw
              · split at hr
                · simp at hr
                · rename_i mb hw
                  simp only [Option.some.injEq, Prod.mk.injEq] at hr
                  obtain ⟨-, -, -, rfl⟩ := hr
                  exact writeFull_preserved m ma mb cachedp _ h0a hca hw

end heap

namespace heap

theorem preserved_length (m m1 : Mem) (hp : m.preserved m1) :
    m.shortNodes.length ≤ m1.shortNodes.length ∧ m.fullNodes.length ≤ m1.fullNodes.length :=
  ⟨hp.1.length_le, hp.2.length_le⟩

end heap

/-! ## The memory embedding against the value embedding -/

namespace heap

theorem represents_shortNode (oks okf : Nat → Bool) (m : Mem) (Key : List Nat) (Val : node)
    (flags : nodeFlag) (r : Ref)
    (hr : represents oks okf m (.shortNode Key Val flags) r = true) :
    ∃ p c, r = .shortNode p ∧ oks p = true ∧ m.shortNodes[p]? = some c ∧ c.Key = Key ∧
      c.flags = flags ∧ represents oks okf m Val c.Val = true := by
  cases r with
  | shortNode p =>
    simp only [represents, Bool.and_eq_true] at hr
    cases hc : m.shortNodes[p]? with
    | none => rw [hc] at hr; simp at hr
    | some c =>
      rw [hc] at hr
      simp only [Bool.and_eq_true, decide_eq_true_eq] at hr
      exact ⟨p, c, rfl, hr.1, hc, hr.2.1.1, hr.2.1.2, hr.2.2⟩
  | nil => simp [represents] at hr
  | fullNode p => simp [represents] at hr
  | hashNode b => simp [represents] at hr
  | valueNode b => simp [represents] at hr

theorem represents_fullNode (oks okf : Nat → Bool) (m : Mem) (Children : List (Option node))
    (flags : nodeFlag) (r : Ref)
    (hr : represents oks okf m (.fullNode Children flags) r = true) :
    ∃ p c, r = .fullNode p ∧ okf p = true ∧ m.fullNodes[p]? = some c ∧
      c.flags = flags ∧ representsSlots oks okf m Children c.Children = true := by
  cases r with
  | fullNode p =>
    simp only [represents, Bool.and_eq_true] at hr
    cases hc : m.fullNodes[p]? with
    | none => rw [hc] at hr; simp at hr
    | some c =>
      rw [hc] at hr
      simp only [Bool.and_eq_true, decide_eq_true_eq] at hr
      exact ⟨p, c, rfl, hr.1, hc, hr.2.1, hr.2.2⟩
  | nil => simp [represents] at hr
  | shortNode p => simp [represents] at hr
  | hashNode b => simp [represents] at hr
  | valueNode b => simp [represents] at hr

theorem represents_hashNode (oks okf : Nat → Bool) (m : Mem) (b : List Nat) (r : Ref) :
    represents oks okf m (.hashNode b) r = true ↔ r = .hashNode b := by
  cases r <;> simp [represents]

theorem represents_valueNode (oks okf : Nat → Bool) (m : Mem) (b : List Nat) (r : Ref) :
    represents oks okf m (.valueNode b) r = true ↔ r = .valueNode b := by
  cases r <;> simp [represents]

theorem represents_shortNode_intro (oks okf : Nat → Bool) (m : Mem) (p : Nat) (c : shortNode)
    (Val : node) (hok : oks p = true) (hc : m.shortNodes[p]? = some c)
    (hv : represents oks okf m Val c.Val = true) :
    represents oks okf m (.shortNode c.Key Val c.flags) (.shortNode p) = true := by
  simp [represents, hok, hc, hv]

theorem represents_fullNode_intro (oks okf : Nat → Bool) (m : Mem) (p : Nat) (c : fullNode)
    (Children : List (Option node)) (hok : okf p = true) (hc : m.fullNodes[p]? = some c)
    (hv : representsSlots oks okf m Children c.Children = true) :
    represents oks okf m (.fullNode Children c.flags) (.fullNode p) = true := by
  simp [represents, hok, hc, hv]

mutual
theorem represents_keeps (oks okf : Nat → Bool) (m m1 : Mem) (hk : m.keeps oks okf m1) :
    ∀ (t : node) (r : Ref), represents oks okf m t r = true →
      represents oks okf m1 t r = true
  | .shortNode Key Val flags, r, hr => by
    obtain ⟨p, c, rfl, hok, hc, rfl, rfl, hv⟩ := represents_shortNode oks okf m Key Val flags r hr
    exact represents_shortNode_intro oks okf m1 p c Val hok (hk.1 p c hok hc)
      (represents_keeps oks okf m m1 hk Val c.Val hv)
  | .fullNode Children flags, r, hr => by
    obtain ⟨p, c, rfl, hok, hc, rfl, hv⟩ := represents_fullNode oks okf m Children flags r hr
    exact represents_fullNode_intro oks okf m1 p c Children hok (hk.2 p c hok hc)
      (representsSlots_keeps oks okf m m1 hk Children c.Children hv)
  | .hashNode b, r, hr => by
    rw [represents_hashNode] at hr ⊢; exact hr
  | .valueNode b, r, hr => by
    rw [represents_valueNode] at hr ⊢; exact hr

theorem representsSlots_keeps (oks okf : Nat → Bool) (m m1 : Mem) (hk : m.keeps oks okf m1) :
    ∀ (ts : List (Option node)) (rs : List Ref), representsSlots oks okf m ts rs = true →
      representsSlots oks okf m1 ts rs = true
  | [], [], _ => by simp [representsSlots]
  | [], _ :: _, hr => by simp [representsSlots] at hr
  | none :: ts, [], hr => by simp [representsSlots] at hr
  | none :: ts, r :: rs, hr => by
    cases r <;> simp only [representsSlots] at hr ⊢ <;>
      first | exact representsSlots_keeps oks okf m m1 hk ts rs hr | simp at hr
  | some t :: ts, [], hr => by simp [representsSlots] at hr
  | some t :: ts, r :: rs, hr => by
    simp only [representsSlots, Bool.and_eq_true] at hr ⊢
    exact ⟨represents_keeps oks okf m m1 hk t r hr.1,
      representsSlots_keeps oks okf m m1 hk ts rs hr.2⟩
end

mutual
theorem represents_mono (oks okf oks1 okf1 : Nat → Bool) (m : Mem)
    (hs : ∀ p, oks p = true → oks1 p = true) (hf : ∀ p, okf p = true → okf1 p = true) :
    ∀ (t : node) (r : Ref), represents oks okf m t r = true →
      represents oks1 okf1 m t r = true
  | .shortNode Key Val flags, r, hr => by
    obtain ⟨p, c, rfl, hok, hc, rfl, rfl, hv⟩ := represents_shortNode oks okf m Key Val flags r hr
    exact represents_shortNode_intro oks1 okf1 m p c Val (hs p hok) hc
      (represents_mono oks okf oks1 okf1 m hs hf Val c.Val hv)
  | .fullNode Children flags, r, hr => by
    obtain ⟨p, c, rfl, hok, hc, rfl, hv⟩ := represents_fullNode oks okf m Children flags r hr
    exact represents_fullNode_intro oks1 okf1 m p c Children (hf p hok) hc
      (representsSlots_mono oks okf oks1 okf1 m hs hf Children c.Children hv)
  | .hashNode b, r, hr => by
    rw [represents_hashNode] at hr ⊢; exact hr
  | .valueNode b, r, hr => by
    rw [represents_valueNode] at hr ⊢; exact hr

theorem representsSlots_mono (oks okf oks1 okf1 : Nat → Bool) (m : Mem)
    (hs : ∀ p, oks p = true → oks1 p = true) (hf : ∀ p, okf p = true → okf1 p = true) :
    ∀ (ts : List (Option node)) (rs : List Ref), representsSlots oks okf m ts rs = true →
      representsSlots oks1 okf1 m ts rs = true
  | [], [], _ => by simp [representsSlots]
  | [], _ :: _, hr => by simp [representsSlots] at hr
  | none :: ts, [], hr => by simp [representsSlots] at hr
  | none :: ts, r :: rs, hr => by
    cases r <;> simp only [representsSlots] at hr ⊢ <;>
      first | exact representsSlots_mono oks okf oks1 okf1 m hs hf ts rs hr | simp at hr
  | some t :: ts, [], hr => by simp [representsSlots] at hr
  | some t :: ts, r :: rs, hr => by
    simp only [representsSlots, Bool.and_eq_true] at hr ⊢
    exact ⟨represents_mono oks okf oks1 okf1 m hs hf t r hr.1,
      representsSlots_mono oks okf oks1 okf1 m hs hf ts rs hr.2⟩
end

theorem keeps_of_preserved (oks okf : Nat → Bool) (m m1 : Mem) (hp : m.preserved m1) :
    m.keeps oks okf m1 :=
  ⟨fun p c _ hc => (preserved_lookup m m1 hp).1 p c hc,
    fun p c _ hc => (preserved_lookup m m1 hp).2 p c hc⟩

theorem keeps_trans (oks okf : Nat → Bool) (m0 m1 m2 : Mem) (h01 : m0.keeps oks okf m1)
    (h12 : m1.keeps oks okf m2) : m0.keeps oks okf m2 :=
  ⟨fun p c hok hc => h12.1 p c hok (h01.1 p c hok hc),
    fun p c hok hc => h12.2 p c hok (h01.2 p c hok hc)⟩

theorem below_iff (B p : Nat) : below B p = true ↔ p < B := by simp [below]

theorem outside_iff (B L p : Nat) : outside B L p = true ↔ (p < B ∨ L ≤ p) := by
  simp [outside]

theorem writeShort_spec (m : Mem) (p : Nat) (c : shortNode) (f : shortNode → shortNode)
    (hc : m.shortNodes[p]? = some c) :
    ∃ m1, m.writeShort p f = some m1 ∧ m1.shortNodes[p]? = some (f c) ∧
      (∀ q, q ≠ p → m1.shortNodes[q]? = m.shortNodes[q]?) ∧
      m1.fullNodes = m.fullNodes ∧ m1.shortNodes.length = m.shortNodes.length := by
  have hlt : p < m.shortNodes.length := (List.getElem?_eq_some_iff.mp hc).1
  refine ⟨{ m with shortNodes := m.shortNodes.set p (f c) }, by simp [Mem.writeShort, hc],
    ?_, ?_, rfl, by simp⟩
  · simp [List.getElem?_set, hlt]
  · intro q hq
    simp [List.getElem?_set, Ne.symm hq]

theorem writeFull_spec (m : Mem) (p : Nat) (c : fullNode) (f : fullNode → fullNode)
    (hc : m.fullNodes[p]? = some c) :
    ∃ m1, m.writeFull p f = some m1 ∧ m1.fullNodes[p]? = some (f c) ∧
      (∀ q, q ≠ p → m1.fullNodes[q]? = m.fullNodes[q]?) ∧
      m1.shortNodes = m.shortNodes ∧ m1.fullNodes.length = m.fullNodes.length := by
  have hlt : p < m.fullNodes.length := (List.getElem?_eq_some_iff.mp hc).1
  refine ⟨{ m with fullNodes := m.fullNodes.set p (f c) }, by simp [Mem.writeFull, hc],
    ?_, ?_, rfl, by simp⟩
  · simp [List.getElem?_set, hlt]
  · intro q hq
    simp [List.getElem?_set, Ne.symm hq]

theorem copyShort_cell (m : Mem) (n : Nat) (c : shortNode)
    (hn : m.shortNodes[n]? = some c) :
    ∃ m1, m.copyShort n = some (m.shortNodes.length, m1) ∧ m.preserved m1 ∧
      m1.shortNodes[m.shortNodes.length]? = some c ∧
      m1.shortNodes.length = m.shortNodes.length + 1 ∧ m1.fullNodes = m.fullNodes := by
  refine ⟨{ m with shortNodes := m.shortNodes ++ [c] }, by simp [Mem.copyShort, hn],
    ⟨List.prefix_append _ _, List.prefix_refl _⟩, by simp, by simp, rfl⟩

theorem copyFull_cell (m : Mem) (n : Nat) (c : fullNode)
    (hn : m.fullNodes[n]? = some c) :
    ∃ m1, m.copyFull n = some (m.fullNodes.length, m1) ∧ m.preserved m1 ∧
      m1.fullNodes[m.fullNodes.length]? = some c ∧
      m1.fullNodes.length = m.fullNodes.length + 1 ∧ m1.shortNodes = m.shortNodes := by
  refine ⟨{ m with fullNodes := m.fullNodes ++ [c] }, by simp [Mem.copyFull, hn],
    ⟨List.prefix_refl _, List.prefix_append _ _⟩, by simp, by simp, rfl⟩

/-- A write to a short node struct at an address that `oks` does not accept keeps every
accepted struct. -/
theorem keeps_of_write_short (oks okf : Nat → Bool) (m m1 : Mem) (p : Nat)
    (hok : oks p = false) (hs : ∀ q, q ≠ p → m1.shortNodes[q]? = m.shortNodes[q]?)
    (hf : m1.fullNodes = m.fullNodes) : m.keeps oks okf m1 := by
  constructor
  · intro q c hq hc
    have hne : q ≠ p := by
      intro he; rw [he, hok] at hq; exact absurd hq (by simp)
    rw [hs q hne, hc]
  · intro q c _ hc
    rw [hf, hc]

/-- A write to a full node struct at an address that `okf` does not accept keeps every
accepted struct. -/
theorem keeps_of_write_full (oks okf : Nat → Bool) (m m1 : Mem) (p : Nat)
    (hok : okf p = false) (hf : ∀ q, q ≠ p → m1.fullNodes[q]? = m.fullNodes[q]?)
    (hs : m1.shortNodes = m.shortNodes) : m.keeps oks okf m1 := by
  constructor
  · intro q c _ hc
    rw [hs, hc]
  · intro q c hq hc
    have hne : q ≠ p := by
      intro he; rw [he, hok] at hq; exact absurd hq (by simp)
    rw [hf q hne, hc]

end heap

namespace heap

theorem represents_leaf (oks okf : Nat → Bool) (m : Mem) (t : node) (r : Ref)
    (ht : t.isBranch = false) (hr : represents oks okf m t r = true) :
    (∃ b, t = .hashNode b ∧ r = .hashNode b) ∨ (∃ b, t = .valueNode b ∧ r = .valueNode b) := by
  cases t with
  | shortNode k v f => simp [node.isBranch] at ht
  | fullNode cs f => simp [node.isBranch] at ht
  | hashNode b => exact Or.inl ⟨b, rfl, (represents_hashNode oks okf m b r).mp hr⟩
  | valueNode b => exact Or.inr ⟨b, rfl, (represents_valueNode oks okf m b r).mp hr⟩

theorem represents_branch (oks okf : Nat → Bool) (m : Mem) (t : node) (r : Ref)
    (ht : t.isBranch = true) (hr : represents oks okf m t r = true) :
    (∃ p, r = .shortNode p) ∨ (∃ p, r = .fullNode p) := by
  cases t with
  | shortNode k v f =>
    obtain ⟨p, c, rfl, -⟩ := represents_shortNode oks okf m k v f r hr
    exact Or.inl ⟨p, rfl⟩
  | fullNode cs f =>
    obtain ⟨p, c, rfl, -⟩ := represents_fullNode oks okf m cs f r hr
    exact Or.inr ⟨p, rfl⟩
  | hashNode b => simp [node.isBranch] at ht
  | valueNode b => simp [node.isBranch] at ht

theorem mem_hashShortNodeChildren_of_branch (E : MemCollab) (hash : HashFn) (h : pureHasher)
    (m ma mb mc : Mem) (n : Nat) (c c1 : shortNode)
    (h1 : m.copyShort n = some (m.shortNodes.length, ma))
    (h2 : ma.copyShort n = some (ma.shortNodes.length, mb))
    (h3 : mb.shortNodes[n]? = some c)
    (h4 : mb.writeShort m.shortNodes.length
      (fun x => { x with Key := E.hexToCompact c.Key }) = some mc)
    (h5 : mc.shortNodes[n]? = some c1)
    (hb : (∃ p, c1.Val = .shortNode p) ∨ (∃ p, c1.Val = .fullNode p)) :
    hashShortNodeChildren E hash h m n =
      match hash h mc c1.Val false with
      | none => none
      | some (collapsedVal, cachedVal, h, m2) =>
        match m2.writeShort m.shortNodes.length (fun x => { x with Val := collapsedVal }) with
        | none => none
        | some m2 =>
          match m2.writeShort ma.shortNodes.length (fun x => { x with Val := cachedVal }) with
          | none => none
          | some m2 => some (m.shortNodes.length, ma.shortNodes.length, h, m2) := by
  unfold hashShortNodeChildren
  simp only [h1, h2, h3, h4, h5]
  rcases hb with ⟨p, hp⟩ | ⟨p, hp⟩ <;> rw [hp]

theorem mem_hashShortNodeChildren_of_leaf (E : MemCollab) (hash : HashFn) (h : pureHasher)
    (m ma mb mc : Mem) (n : Nat) (c c1 : shortNode)
    (h1 : m.copyShort n = some (m.shortNodes.length, ma))
    (h2 : ma.copyShort n = some (ma.shortNodes.length, mb))
    (h3 : mb.shortNodes[n]? = some c)
    (h4 : mb.writeShort m.shortNodes.length
      (fun x => { x with Key := E.hexToCompact c.Key }) = some mc)
    (h5 : mc.shortNodes[n]? = some c1)
    (hb : (∃ b, c1.Val = .hashNode b) ∨ (∃ b, c1.Val = .valueNode b)) :
    hashShortNodeChildren E hash h m n =
      some (m.shortNodes.length, ma.shortNodes.length, h, mc) := by
  unfold hashShortNodeChildren
  simp only [h1, h2, h3, h4, h5]
  rcases hb with ⟨p, hp⟩ | ⟨p, hp⟩ <;> rw [hp]

theorem hashShortNodeChildren_computes (E : MemCollab) (hash : HashFn) (hf : hash.frames)
    (h : pureHasher) (m : Mem) (p : Nat) (c : shortNode) (Val cv kv : node) (Bs Bf : Nat)
    (hBs : Bs ≤ m.shortNodes.length) (hBf : Bf ≤ m.fullNodes.length)
    (hc : m.shortNodes[p]? = some c)
    (hv : represents (below Bs) (below Bf) m Val c.Val = true)
    (hchild : Val.isBranch = true → hash.computes E Val)
    (hpure : (if Val.isBranch then hashResult E.toCollab Val false else some (Val, Val)) =
      some (cv, kv)) :
    ∃ h1 m1 cvr kvr,
      hashShortNodeChildren E hash h m p =
        some (m.shortNodes.length, m.shortNodes.length + 1, h1, m1) ∧
      m.preserved m1 ∧
      m1.shortNodes[m.shortNodes.length]? = some ⟨E.hexToCompact c.Key, cvr, c.flags⟩ ∧
      m1.shortNodes[m.shortNodes.length + 1]? = some ⟨c.Key, kvr, c.flags⟩ ∧
      represents (outside Bs (m.shortNodes.length + 2)) (outside Bf m.fullNodes.length)
        m1 cv cvr = true ∧
      represents (outside Bs (m.shortNodes.length + 2)) (outside Bf m.fullNodes.length)
        m1 kv kvr = true := by
  have hplt : p < m.shortNodes.length := (List.getElem?_eq_some_iff.mp hc).1
  obtain ⟨ma, h1, hpa, hca, hla, hfa⟩ := copyShort_cell m p c hc
  have hna := (preserved_lookup m ma hpa).1 p c hc
  obtain ⟨mb, h2, hpb, hcb, hlb, hfb⟩ := copyShort_cell ma p c hna
  have h0b : m.preserved mb := preserved_trans m ma mb hpa hpb
  have hnb := (preserved_lookup m mb h0b).1 p c hc
  have hcab := (preserved_lookup ma mb hpb).1 _ c hca
  obtain ⟨mc, h4, hcc, hoc, hfc, hlc⟩ := writeShort_spec mb m.shortNodes.length c
    (fun x => { x with Key := E.hexToCompact c.Key }) hcab
  have hnc : mc.shortNodes[p]? = some c := by rw [hoc p (by omega), hnb]
  have hcc2 : mc.shortNodes[ma.shortNodes.length]? = some c := by
    rw [hoc _ (by omega), hcb]
  have h0c : m.preserved mc := writeShort_preserved m mb mc _ _ h0b (le_refl _) h4
  have hvc : represents (below Bs) (below Bf) mc Val c.Val = true :=
    represents_keeps _ _ m mc (keeps_of_preserved _ _ m mc h0c) Val c.Val hv
  by_cases hb : Val.isBranch = true
  · rw [if_pos hb] at hpure
    have hcomp := hchild hb h mc c.Val false Bs Bf cv kv (by omega) (by rw [hfc, hfb, hfa]; exact hBf)
      hvc hpure
    obtain ⟨cvr, kvr, h2s, md, hrun, hrc, hrk⟩ := hcomp
    have hcd : mc.preserved md := hf h mc c.Val false cvr kvr h2s md hrun
    have hd1 := (preserved_lookup mc md hcd).1 _ _ hcc
    have hd2 := (preserved_lookup mc md hcd).1 _ _ hcc2
    obtain ⟨me, h6, hce, hoe, hfe, hle⟩ := writeShort_spec md m.shortNodes.length _
      (fun x => { x with Val := cvr }) hd1
    have he2 : me.shortNodes[ma.shortNodes.length]? = some c := by
      rw [hoe _ (by omega), hd2]
    obtain ⟨mf, h7, hcf, hof, hff, hlf⟩ := writeShort_spec me ma.shortNodes.length _
      (fun x => { x with Val := kvr }) he2
    have hrw := mem_hashShortNodeChildren_of_branch E hash h m ma mb mc p c c h1 h2 hnb h4 hnc
      (represents_branch _ _ mc Val c.Val hb hvc)
    rw [hrw, hrun]
    simp only [h6, h7]
    have hlen : mc.shortNodes.length = m.shortNodes.length + 2 := by omega
    have hflen : mc.fullNodes.length = m.fullNodes.length := by rw [hfc, hfb, hfa]
    rw [hlen, hflen] at hrc hrk
    have k1 : md.keeps (outside Bs (m.shortNodes.length + 2)) (outside Bf m.fullNodes.length)
        me := keeps_of_write_short _ _ md me m.shortNodes.length
      (by simp [outside]; omega) hoe hfe
    have k2 : me.keeps (outside Bs (m.shortNodes.length + 2)) (outside Bf m.fullNodes.length)
        mf := keeps_of_write_short _ _ me mf ma.shortNodes.length
      (by simp [outside]; omega) hof hff
    have k := keeps_trans _ _ md me mf k1 k2
    refine ⟨h2s, mf, cvr, kvr, by rw [hla], ?_, ?_, by rw [← hla]; exact hcf,
      represents_keeps _ _ md mf k cv cvr hrc, represents_keeps _ _ md mf k kv kvr hrk⟩
    · exact writeShort_preserved m me mf _ _
        (writeShort_preserved m md me _ _ (preserved_trans m mc md h0c hcd) (le_refl _) h6)
        (by omega) h7
    · rw [hof _ (by omega), hce]
  · simp only [Bool.not_eq_true] at hb
    rw [hb] at hpure
    simp only [Bool.false_eq_true, if_false, Option.some.injEq, Prod.mk.injEq] at hpure
    obtain ⟨rfl, rfl⟩ := hpure
    have hleaf := represents_leaf _ _ mc Val c.Val hb hvc
    have hleaf2 : (∃ b, c.Val = .hashNode b) ∨ (∃ b, c.Val = .valueNode b) := by
      rcases hleaf with ⟨b, -, hb2⟩ | ⟨b, -, hb2⟩
      · exact Or.inl ⟨b, hb2⟩
      · exact Or.inr ⟨b, hb2⟩
    have hrw := mem_hashShortNodeChildren_of_leaf E hash h m ma mb mc p c c h1 h2 hnb h4 hnc hleaf2
    rw [hrw]
    have hmono : represents (outside Bs (m.shortNodes.length + 2))
        (outside Bf m.fullNodes.length) mc Val c.Val = true :=
      represents_mono _ _ _ _ mc (fun q hq => by simp [below, outside] at hq ⊢; omega)
        (fun q hq => by simp [below, outside] at hq ⊢; omega) Val c.Val hvc
    exact ⟨h, mc, c.Val, c.Val, by rw [hla], h0c, hcc, by rw [← hla]; exact hcc2, hmono, hmono⟩

end heap

namespace heap

theorem representsSlots_iff (oks okf : Nat → Bool) (m : Mem) :
    ∀ (ts : List (Option node)) (rs : List Ref),
      representsSlots oks okf m ts rs = true ↔
        ts.length = rs.length ∧ representsUpTo oks okf m ts rs ts.length
  | [], [] => by
    simp only [representsSlots, List.length_nil, true_and, true_iff]
    intro j hj; omega
  | [], r :: rs => by simp [representsSlots]
  | none :: ts, [] => by simp [representsSlots]
  | some t :: ts, [] => by simp [representsSlots]
  | none :: ts, r :: rs => by
    have ih := representsSlots_iff oks okf m ts rs
    constructor
    · intro h
      have hr : r = .nil := by cases r <;> simp [representsSlots] at h ⊢
      subst hr
      simp only [representsSlots] at h
      obtain ⟨hl, hu⟩ := ih.mp h
      refine ⟨by simp [hl], ?_⟩
      intro j hj
      cases j with
      | zero => exact ⟨none, .nil, by simp, by simp, by simp [representsSlot]⟩
      | succ j =>
        simp only [List.getElem?_cons_succ]
        exact hu j (by simpa using hj)
    · rintro ⟨hl, hu⟩
      obtain ⟨s, r0, hs, hr0, hrep⟩ := hu 0 (by simp)
      simp only [List.getElem?_cons_zero, Option.some.injEq] at hs hr0
      subst hs hr0
      simp only [representsSlot, decide_eq_true_eq] at hrep
      subst hrep
      simp only [representsSlots]
      refine ih.mpr ⟨by simpa using hl, ?_⟩
      intro j hj
      have := hu (j + 1) (by simpa using hj)
      simpa only [List.getElem?_cons_succ] using this
  | some t :: ts, r :: rs => by
    have ih := representsSlots_iff oks okf m ts rs
    constructor
    · intro h
      simp only [representsSlots, Bool.and_eq_true] at h
      obtain ⟨hl, hu⟩ := ih.mp h.2
      refine ⟨by simp [hl], ?_⟩
      intro j hj
      cases j with
      | zero => exact ⟨some t, r, by simp, by simp, by simpa [representsSlot] using h.1⟩
      | succ j =>
        simp only [List.getElem?_cons_succ]
        exact hu j (by simpa using hj)
    · rintro ⟨hl, hu⟩
      obtain ⟨s, r0, hs, hr0, hrep⟩ := hu 0 (by simp)
      simp only [List.getElem?_cons_zero, Option.some.injEq] at hs hr0
      subst hs hr0
      simp only [representsSlot] at hrep
      simp only [representsSlots, Bool.and_eq_true]
      refine ⟨hrep, ih.mpr ⟨by simpa using hl, ?_⟩⟩
      intro j hj
      have := hu (j + 1) (by simpa using hj)
      simpa only [List.getElem?_cons_succ] using this

theorem representsSlot_keeps (oks okf : Nat → Bool) (m m1 : Mem) (hk : m.keeps oks okf m1)
    (s : Option node) (r : Ref) (hr : representsSlot oks okf m s r = true) :
    representsSlot oks okf m1 s r = true := by
  cases s with
  | none => simpa [representsSlot] using hr
  | some t => exact represents_keeps oks okf m m1 hk t r hr

theorem representsSlot_mono (oks okf oks1 okf1 : Nat → Bool) (m : Mem)
    (hs : ∀ p, oks p = true → oks1 p = true) (hf : ∀ p, okf p = true → okf1 p = true)
    (s : Option node) (r : Ref) (hr : representsSlot oks okf m s r = true) :
    representsSlot oks1 okf1 m s r = true := by
  cases s with
  | none => simpa [representsSlot] using hr
  | some t => exact represents_mono oks okf oks1 okf1 m hs hf t r hr

end heap

namespace heap

theorem representsUpTo_step (oks okf : Nat → Bool) (m m1 : Mem) (ts : List (Option node))
    (rs rs1 : List Ref) (i : Nat) (s : Option node) (r : Ref)
    (hu : representsUpTo oks okf m ts rs i) (hk : m.keeps oks okf m1)
    (hsame : ∀ j, j < i → rs1[j]? = rs[j]?)
    (hs : ts[i]? = some s) (hr : rs1[i]? = some r)
    (hrep : representsSlot oks okf m1 s r = true) :
    representsUpTo oks okf m1 ts rs1 (i + 1) := by
  intro j hj
  by_cases hji : j < i
  · obtain ⟨s0, r0, h1, h2, h3⟩ := hu j hji
    exact ⟨s0, r0, h1, by rw [hsame j hji, h2], representsSlot_keeps oks okf m m1 hk s0 r0 h3⟩
  · have : j = i := by omega
    subst this
    exact ⟨s, r, hs, hr, hrep⟩

theorem getElem?_set_ne {α : Type} (l : List α) (i j : Nat) (x : α) (h : j ≠ i) :
    (l.set i x)[j]? = l[j]? := by
  simp [List.getElem?_set, Ne.symm h]

theorem getElem?_set_self {α : Type} (l : List α) (i : Nat) (x y : α) (h : l[i]? = some y) :
    (l.set i x)[i]? = some x := by
  have hlt : i < l.length := (List.getElem?_eq_some_iff.mp h).1
  simp [List.getElem?_set, hlt]

theorem hashFullNodeStep_of_nil (hash : HashFn) (n collapsed cached i : Nat)
    (s : pureHasher × Mem) (nv : fullNode) (hn : s.2.fullNodes[n]? = some nv)
    (hc : nv.Children[i]? = some .nil) :
    hashFullNodeStep hash n collapsed cached s i =
      match s.2.writeFull collapsed
        (fun c => { c with Children := c.Children.set i nilValueNode }) with
      | none => none
      | some m => some (s.1, m) := by
  unfold hashFullNodeStep
  simp only [hn, hc]

theorem hashFullNodeStep_of_child (hash : HashFn) (n collapsed cached i : Nat)
    (s : pureHasher × Mem) (nv : fullNode) (child : Ref)
    (hn : s.2.fullNodes[n]? = some nv)
    (hc : nv.Children[i]? = some child) (hne : child ≠ .nil) :
    hashFullNodeStep hash n collapsed cached s i =
      match hash s.1 s.2 child false with
      | none => none
      | some (collapsedChild, cachedChild, h, m) =>
        match m.writeFull collapsed
          (fun c => { c with Children := c.Children.set i collapsedChild }) with
        | none => none
        | some m =>
          match m.writeFull cached
            (fun c => { c with Children := c.Children.set i cachedChild }) with
          | none => none
          | some m => some (h, m) := by
  unfold hashFullNodeStep
  cases child with
  | nil => exact absurd rfl hne
  | shortNode p => simp only [hn, hc]
  | fullNode p => simp only [hn, hc]
  | hashNode b => simp only [hn, hc]
  | valueNode b => simp only [hn, hc]

theorem represents_ne_nil (oks okf : Nat → Bool) (m : Mem) (t : node) (r : Ref)
    (hr : represents oks okf m t r = true) : r ≠ .nil := by
  intro he
  subst he
  cases t <;> simp [represents] at hr

theorem outside_self_false (B L p d : Nat) (hB : B ≤ L) (hp : L ≤ p) (hd : p < L + d) :
    outside B (L + d) p = false := by
  simp only [outside, decide_eq_false_iff_not]
  omega

theorem hashFullNodeStep_computes (E : MemCollab) (hash : HashFn) (hf : hash.frames)
    (m : Mem) (n : Nat) (c : fullNode) (Children cs ks : List (Option node))
    (Bs Bf i : Nat) (s : pureHasher × Mem)
    (hBs : Bs ≤ m.shortNodes.length) (hBf : Bf ≤ m.fullNodes.length)
    (hn : m.fullNodes[n]? = some c)
    (hrep : representsSlots (below Bs) (below Bf) m Children c.Children = true)
    (hchild : ∀ t, some t ∈ Children → hash.computes E t)
    (hnil : Children[i]? = some none →
      cs[i]? = some (some trie.nilValueNode) ∧ ks[i]? = some none)
    (hsome : ∀ t, Children[i]? = some (some t) →
      ∃ cc kc, hashResult E.toCollab t false = some (cc, kc) ∧
        cs[i]? = some (some cc) ∧ ks[i]? = some (some kc))
    (hi : i < Children.length)
    (hinv : LoopInv Bs Bf m c cs ks i s) :
    ∃ s1, hashFullNodeStep hash n (m.fullNodes.length + 1) m.fullNodes.length s i = some s1 ∧
      LoopInv Bs Bf m c cs ks (i + 1) s1 := by
  obtain ⟨hpres, hlen2, colRefs, cacRefs, hcol, hcac, hucol, hucac, hrest⟩ := hinv
  obtain ⟨hlen, hup⟩ := (representsSlots_iff _ _ m Children c.Children).mp hrep
  obtain ⟨sl, r, hsl, hr, hslot⟩ := hup i hi
  have hns := (preserved_lookup m s.2 hpres).2 n c hn
  have hcoli : colRefs[i]? = some r := by rw [(hrest i (le_refl i)).1, hr]
  have hcaci : cacRefs[i]? = some r := by rw [(hrest i (le_refl i)).2, hr]
  have hlens := (preserved_length m s.2 hpres).1
  have hex1 : outside Bf (m.fullNodes.length + 2) (m.fullNodes.length + 1) = false :=
    outside_self_false Bf m.fullNodes.length _ 2 hBf (by omega) (by omega)
  have hex0 : outside Bf (m.fullNodes.length + 2) m.fullNodes.length = false :=
    outside_self_false Bf m.fullNodes.length _ 2 hBf (by omega) (by omega)
  cases sl with
  | none =>
    simp only [representsSlot, decide_eq_true_eq] at hslot
    subst hslot
    obtain ⟨hcsi, hksi⟩ := hnil hsl
    obtain ⟨m1, hw, hcell, hother, hshort, hl⟩ := writeFull_spec s.2 (m.fullNodes.length + 1)
      ⟨colRefs, c.flags⟩ (fun x => { x with Children := x.Children.set i nilValueNode }) hcol
    rw [hashFullNodeStep_of_nil hash n _ _ i s c hns hr, hw]
    have hk : s.2.keeps (outside Bs m.shortNodes.length) (outside Bf (m.fullNodes.length + 2))
        m1 := keeps_of_write_full _ _ s.2 m1 _ hex1 hother hshort
    refine ⟨(s.1, m1), rfl, ?_, ?_, colRefs.set i nilValueNode, cacRefs, hcell, ?_, ?_, ?_, ?_⟩
    · exact writeFull_preserved m s.2 m1 _ _ hpres (by omega) hw
    · simp only; omega
    · simp only; rw [hother _ (by omega), hcac]
    · exact representsUpTo_step _ _ s.2 m1 cs colRefs _ i _ _ hucol hk
        (fun j hj => getElem?_set_ne colRefs i j _ (by omega)) hcsi
        (getElem?_set_self colRefs i _ _ hcoli)
        (by simp [representsSlot, represents, nilValueNode, trie.nilValueNode])
    · exact representsUpTo_step _ _ s.2 m1 ks cacRefs _ i _ _ hucac hk
        (fun j _ => rfl) hksi hcaci (by simp [representsSlot])
    · intro j hj
      rw [getElem?_set_ne colRefs i j _ (by omega)]
      exact hrest j (by omega)
  | some t =>
    simp only [representsSlot] at hslot
    have hne := represents_ne_nil _ _ m t r hslot
    obtain ⟨cc, kc, hpure, hcsi, hksi⟩ := hsome t hsl
    have hmem : some t ∈ Children := List.getElem?_mem hsl
    have hslot2 : represents (below Bs) (below Bf) s.2 t r = true :=
      represents_keeps _ _ m s.2 (keeps_of_preserved _ _ m s.2 hpres) t r hslot
    obtain ⟨hd, cd, h1, md, hrun, hrc, hrk⟩ := hchild t hmem s.1 s.2 r false Bs Bf cc kc
      (by omega) (by omega) hslot2 hpure
    have hsd : s.2.preserved md := hf s.1 s.2 r false hd cd h1 md hrun
    have hmono : ∀ (x : node) (y : Ref),
        represents (outside Bs s.2.shortNodes.length) (outside Bf s.2.fullNodes.length)
          md x y = true →
        represents (outside Bs m.shortNodes.length) (outside Bf (m.fullNodes.length + 2))
          md x y = true :=
      represents_mono _ _ _ _ md
        (fun q hq => by simp only [outside, decide_eq_true_eq] at hq ⊢; omega)
        (fun q hq => by simp only [outside, decide_eq_true_eq] at hq ⊢; omega)
    have hcold := (preserved_lookup s.2 md hsd).2 _ _ hcol
    have hcacd := (preserved_lookup s.2 md hsd).2 _ _ hcac
    obtain ⟨me, hw1, hcell1, hother1, hshort1, hl1⟩ := writeFull_spec md
      (m.fullNodes.length + 1) ⟨colRefs, c.flags⟩
      (fun x => { x with Children := x.Children.set i hd }) hcold
    have hcace : me.fullNodes[m.fullNodes.length]? = some ⟨cacRefs, c.flags⟩ := by
      rw [hother1 _ (by omega), hcacd]
    obtain ⟨mf, hw2, hcell2, hother2, hshort2, hl2⟩ := writeFull_spec me
      m.fullNodes.length ⟨cacRefs, c.flags⟩
      (fun x => { x with Children := x.Children.set i cd }) hcace
    rw [hashFullNodeStep_of_child hash n _ _ i s c r hns hr hne, hrun]
    simp only [hw1, hw2]
    have hk1 : md.keeps (outside Bs m.shortNodes.length)
        (outside Bf (m.fullNodes.length + 2)) me :=
      keeps_of_write_full _ _ md me _ hex1 hother1 hshort1
    have hk2 : me.keeps (outside Bs m.shortNodes.length)
        (outside Bf (m.fullNodes.length + 2)) mf :=
      keeps_of_write_full _ _ me mf _ hex0 hother2 hshort2
    have hkd : md.keeps (outside Bs m.shortNodes.length)
        (outside Bf (m.fullNodes.length + 2)) mf := keeps_trans _ _ md me mf hk1 hk2
    have hk : s.2.keeps (outside Bs m.shortNodes.length)
        (outside Bf (m.fullNodes.length + 2)) mf :=
      keeps_trans _ _ s.2 md mf (keeps_of_preserved _ _ s.2 md hsd) hkd
    have hlend := (preserved_length s.2 md hsd).2
    refine ⟨(h1, mf), rfl, ?_, ?_, colRefs.set i hd, cacRefs.set i cd, ?_, hcell2,
      ?_, ?_, ?_⟩
    · exact writeFull_preserved m me mf _ _
        (writeFull_preserved m md me _ _ (preserved_trans m s.2 md hpres hsd) (by omega) hw1)
        (le_refl _) hw2
    · simp only; omega
    · simp only; rw [hother2 _ (by omega), hcell1]
    · exact representsUpTo_step _ _ s.2 mf cs colRefs _ i _ _ hucol hk
        (fun j hj => getElem?_set_ne colRefs i j _ (by omega)) hcsi
        (getElem?_set_self colRefs i _ _ hcoli)
        (represents_keeps _ _ md mf hkd cc hd (hmono cc hd hrc))
    · exact representsUpTo_step _ _ s.2 mf ks cacRefs _ i _ _ hucac hk
        (fun j hj => getElem?_set_ne cacRefs i j _ (by omega)) hksi
        (getElem?_set_self cacRefs i _ _ hcaci)
        (represents_keeps _ _ md mf hkd kc cd (hmono kc cd hrk))
    · intro j hj
      rw [getElem?_set_ne colRefs i j _ (by omega), getElem?_set_ne cacRefs i j _ (by omega)]
      exact hrest j (by omega)

end heap

namespace heap

theorem hashFullNodeLoop_computes (E : MemCollab) (hash : HashFn) (hf : hash.frames)
    (m : Mem) (n : Nat) (c : fullNode) (Children cs ks : List (Option node)) (Bs Bf : Nat)
    (hBs : Bs ≤ m.shortNodes.length) (hBf : Bf ≤ m.fullNodes.length)
    (hn : m.fullNodes[n]? = some c)
    (hrep : representsSlots (below Bs) (below Bf) m Children c.Children = true)
    (hchild : ∀ t, some t ∈ Children → hash.computes E t)
    (hlen : 16 ≤ Children.length)
    (hnil : ∀ i, i < 16 → Children[i]? = some none →
      cs[i]? = some (some trie.nilValueNode) ∧ ks[i]? = some none)
    (hsome : ∀ i, i < 16 → ∀ t, Children[i]? = some (some t) →
      ∃ cc kc, hashResult E.toCollab t false = some (cc, kc) ∧
        cs[i]? = some (some cc) ∧ ks[i]? = some (some kc)) :
    ∀ (k i : Nat) (s : pureHasher × Mem), i + k ≤ 16 → LoopInv Bs Bf m c cs ks i s →
      ∃ s1, hashFullNodeLoop hash n (m.fullNodes.length + 1) m.fullNodes.length
          (List.range' i k) s = some s1 ∧
        LoopInv Bs Bf m c cs ks (i + k) s1
  | 0, i, s, _, hinv => ⟨s, by simp [hashFullNodeLoop], hinv⟩
  | k + 1, i, s, hik, hinv => by
    obtain ⟨s1, hs1, hinv1⟩ := hashFullNodeStep_computes E hash hf m n c Children cs ks Bs Bf i s
      hBs hBf hn hrep hchild (hnil i (by omega)) (hsome i (by omega)) (by omega) hinv
    obtain ⟨s2, hs2, hinv2⟩ := hashFullNodeLoop_computes E hash hf m n c Children cs ks Bs Bf
      hBs hBf hn hrep hchild hlen hnil hsome k (i + 1) s1 (by omega) hinv1
    have hidx : i + 1 + k = i + (k + 1) := by omega
    rw [hidx] at hinv2
    refine ⟨s2, ?_, hinv2⟩
    simp only [List.range'_succ, hashFullNodeLoop, hs1, hs2]

theorem length_of_getElem? {α : Type} (l : List α) (k : Nat)
    (h1 : ∀ j, j < k → ∃ x, l[j]? = some x) (h2 : l[k]? = none) : l.length = k := by
  have hle : l.length ≤ k := List.getElem?_eq_none_iff.mp h2
  by_contra hne
  have hlt : l.length < k := by omega
  obtain ⟨x, hx⟩ := h1 l.length hlt
  have := (List.getElem?_eq_some_iff.mp hx).1
  omega

theorem hashFullNodeChildren_computes (E : MemCollab) (hash : HashFn) (hf : hash.frames)
    (h : pureHasher) (m : Mem) (n : Nat) (c : fullNode) (Children cs ks : List (Option node))
    (Bs Bf : Nat)
    (hBs : Bs ≤ m.shortNodes.length) (hBf : Bf ≤ m.fullNodes.length)
    (hn : m.fullNodes[n]? = some c)
    (hrep : representsSlots (below Bs) (below Bf) m Children c.Children = true)
    (hchild : ∀ t, some t ∈ Children → hash.computes E t)
    (hlen : Children.length = 17)
    (hpure : slotsResult E.toCollab 16 Children = some (cs, ks)) :
    ∃ h1 m1 colRefs cacRefs,
      hashFullNodeChildren hash h m n =
        some (m.fullNodes.length + 1, m.fullNodes.length, h1, m1) ∧
      m.preserved m1 ∧
      m1.fullNodes[m.fullNodes.length + 1]? = some ⟨colRefs, c.flags⟩ ∧
      m1.fullNodes[m.fullNodes.length]? = some ⟨cacRefs, c.flags⟩ ∧
      representsSlots (outside Bs m.shortNodes.length) (outside Bf (m.fullNodes.length + 2))
        m1 cs colRefs = true ∧
      representsSlots (outside Bs m.shortNodes.length) (outside Bf (m.fullNodes.length + 2))
        m1 ks cacRefs = true := by
  obtain ⟨hl1, hl2, hspec⟩ := slotsResult_spec E.toCollab Children 16 cs ks hpure
  obtain ⟨hlenr, hup⟩ := (representsSlots_iff _ _ m Children c.Children).mp hrep
  obtain ⟨ma, hc1, hpa, hca, hla, hsa⟩ := copyFull_cell m n c hn
  have hna := (preserved_lookup m ma hpa).2 n c hn
  obtain ⟨mb, hc2, hpb, hcb, hlb, hsb⟩ := copyFull_cell ma n c hna
  have h0b : m.preserved mb := preserved_trans m ma mb hpa hpb
  have hcab := (preserved_lookup ma mb hpb).2 _ c hca
  have hinv0 : LoopInv Bs Bf m c cs ks 0 (h, mb) := by
    refine ⟨h0b, by simp only; omega, c.Children, c.Children, ?_, hcab, ?_, ?_, ?_⟩
    · simp only; rw [← hla]; exact hcb
    · intro j hj; omega
    · intro j hj; omega
    · intro j _; exact ⟨rfl, rfl⟩
  obtain ⟨⟨h2, mc⟩, hloop, hinv⟩ := hashFullNodeLoop_computes E hash hf m n c Children cs ks
    Bs Bf hBs hBf hn hrep hchild (by omega)
    (fun i hi hc => (hspec i).1 hi hc) (fun i hi t hc => (hspec i).2.1 hi t hc)
    16 0 (h, mb) (by omega) hinv0
  simp only [Nat.zero_add] at hinv
  obtain ⟨hpres, hlen2, colRefs, cacRefs, hcol, hcac, hucol, hucac, hrest⟩ := hinv
  have hnc := (preserved_lookup m mc hpres).2 n c hn
  obtain ⟨sl, last, hsl, hlast, hslot⟩ := hup 16 (by omega)
  obtain ⟨md, hw, hcell, hother, hshort, hl⟩ := writeFull_spec mc m.fullNodes.length
    ⟨cacRefs, c.flags⟩ (fun x => { x with Children := x.Children.set 16 last }) hcac
  have hex0 : outside Bf (m.fullNodes.length + 2) m.fullNodes.length = false :=
    outside_self_false Bf m.fullNodes.length _ 2 hBf (by omega) (by omega)
  have hk : mc.keeps (outside Bs m.shortNodes.length) (outside Bf (m.fullNodes.length + 2))
      md := keeps_of_write_full _ _ mc md _ hex0 hother hshort
  have h0d : m.preserved md := writeFull_preserved m mc md _ _ hpres (le_refl _) hw
  have hslot16 : representsSlot (outside Bs m.shortNodes.length)
      (outside Bf (m.fullNodes.length + 2)) md sl last = true :=
    representsSlot_mono (below Bs) (below Bf) _ _ md
      (fun q hq => by simp only [below, outside, decide_eq_true_eq] at hq ⊢; omega)
      (fun q hq => by simp only [below, outside, decide_eq_true_eq] at hq ⊢; omega) sl last
      (representsSlot_keeps _ _ m md (keeps_of_preserved _ _ m md h0d) sl last hslot)
  have hcol16 : colRefs[16]? = some last := by rw [(hrest 16 (le_refl _)).1, hlast]
  have hcac16 : cacRefs[16]? = some last := by rw [(hrest 16 (le_refl _)).2, hlast]
  have hnone : c.Children[17]? = none :=
    List.getElem?_eq_none_iff.mpr (by omega)
  have hcollen : colRefs.length = 17 := by
    refine length_of_getElem? colRefs 17 ?_ (by rw [(hrest 17 (by omega)).1, hnone])
    intro j hj
    by_cases hj16 : j < 16
    · obtain ⟨s0, r0, -, hr0, -⟩ := hucol j hj16
      exact ⟨r0, hr0⟩
    · have : j = 16 := by omega
      subst this
      exact ⟨last, hcol16⟩
  have hcaclen : cacRefs.length = 17 := by
    refine length_of_getElem? cacRefs 17 ?_ (by rw [(hrest 17 (by omega)).2, hnone])
    intro j hj
    by_cases hj16 : j < 16
    · obtain ⟨s0, r0, -, hr0, -⟩ := hucac j hj16
      exact ⟨r0, hr0⟩
    · have : j = 16 := by omega
      subst this
      exact ⟨last, hcac16⟩
  have hset : cacRefs.set 16 last = cacRefs := by
    apply List.ext_getElem?
    intro j
    by_cases hj : j = 16
    · subst hj; rw [getElem?_set_self cacRefs 16 last last hcac16, hcac16]
    · exact getElem?_set_ne cacRefs 16 j last hj
  refine ⟨h2, md, colRefs, cacRefs, ?_, h0d, ?_, ?_, ?_, ?_⟩
  · unfold hashFullNodeChildren
    rw [hla] at hc2
    rw [List.range_eq_range']
    simp only [hc1, hc2, hloop, hnc, hlast, hw]
  · rw [hother _ (by omega), hcol]
  · rw [hcell]; simp only [hset]
  · refine (representsSlots_iff _ _ md cs colRefs).mpr ⟨by omega, ?_⟩
    rw [hl1, hlen]
    exact representsUpTo_step _ _ mc md cs colRefs colRefs 16 sl last hucol hk
      (fun j _ => rfl) (by rw [((hspec 16).2.2 (le_refl _)).1, hsl]) hcol16 hslot16
  · refine (representsSlots_iff _ _ md ks cacRefs).mpr ⟨by omega, ?_⟩
    rw [hl2, hlen]
    exact representsUpTo_step _ _ mc md ks cacRefs cacRefs 16 sl last hucac hk
      (fun j _ => rfl) (by rw [((hspec 16).2.2 (le_refl _)).2, hsl]) hcac16 hslot16

end heap

namespace heap

theorem shortnodeToHash_refines (E : MemCollab) (h : pureHasher) (m : Mem) (p : Nat)
    (t a : node) (force : Bool)
    (henc : E.encodeRef m (.shortNode p) = E.encode t)
    (ha : toHashResult E.toCollab t force = some a) :
    ∃ hd h2, shortnodeToHash E h m p force = some (hd, h2) ∧
      ((a = t ∧ hd = .shortNode p) ∨ ∃ d, a = .hashNode d ∧ hd = .hashNode d) := by
  unfold toHashResult at ha
  unfold shortnodeToHash
  rw [henc]
  cases he : E.encode t with
  | none => rw [he] at ha; simp at ha
  | some enc =>
    rw [he] at ha
    simp only [List.nil_append, hashData_eq] at ha ⊢
    by_cases hcond : (decide (enc.length < 32) && !force) = true
    · rw [if_pos hcond] at ha ⊢
      simp only [Option.some.injEq] at ha
      exact ⟨_, _, rfl, Or.inl ⟨ha.symm, rfl⟩⟩
    · rw [if_neg hcond] at ha ⊢
      simp only [Option.some.injEq] at ha
      exact ⟨_, _, rfl, Or.inr ⟨digest E.toCollab enc, ha.symm, rfl⟩⟩

theorem fullnodeToHash_refines (E : MemCollab) (h : pureHasher) (m : Mem) (p : Nat)
    (t a : node) (force : Bool)
    (henc : E.encodeRef m (.fullNode p) = E.encode t)
    (ha : toHashResult E.toCollab t force = some a) :
    ∃ hd h2, fullnodeToHash E h m p force = some (hd, h2) ∧
      ((a = t ∧ hd = .fullNode p) ∨ ∃ d, a = .hashNode d ∧ hd = .hashNode d) := by
  unfold toHashResult at ha
  unfold fullnodeToHash
  rw [henc]
  cases he : E.encode t with
  | none => rw [he] at ha; simp at ha
  | some enc =>
    rw [he] at ha
    simp only [List.nil_append, hashData_eq] at ha ⊢
    by_cases hcond : (decide (enc.length < 32) && !force) = true
    · rw [if_pos hcond] at ha ⊢
      simp only [Option.some.injEq] at ha
      exact ⟨_, _, rfl, Or.inl ⟨ha.symm, rfl⟩⟩
    · rw [if_neg hcond] at ha ⊢
      simp only [Option.some.injEq] at ha
      exact ⟨_, _, rfl, Or.inr ⟨digest E.toCollab enc, ha.symm, rfl⟩⟩

theorem depth_pos (t : node) : 1 ≤ t.depth := by
  cases t <;> simp [node.depth]

theorem below_outside (B L : Nat) (p : Nat) (hp : below B p = true) :
    outside B L p = true := by
  simp only [below, outside, decide_eq_true_eq] at hp ⊢
  exact Or.inl hp

theorem outside_anywhere (B L : Nat) (p : Nat) (_ : outside B L p = true) :
    anywhere p = true := rfl

theorem hash_computes_leaf (E : MemCollab) (t : node) (ht : t.isBranch = false)
    (fuel : Nat) : (hash E (fuel + 1)).computes E t := by
  intro h m n force Bs Bf a b hBs hBf hrep hpure
  rcases represents_leaf _ _ m t n ht hrep with ⟨d, rfl, rfl⟩ | ⟨d, rfl, rfl⟩
  · rw [hashResult] at hpure
    simp only [Option.some.injEq, Prod.mk.injEq] at hpure
    obtain ⟨rfl, rfl⟩ := hpure
    exact ⟨.hashNode d, .hashNode d, h, m, by simp only [hash, Ref.cache],
      by simp [represents], by simp [represents]⟩
  · rw [hashResult] at hpure
    simp only [Option.some.injEq, Prod.mk.injEq] at hpure
    obtain ⟨rfl, rfl⟩ := hpure
    exact ⟨.valueNode d, .valueNode d, h, m, by simp only [hash, Ref.cache],
      by simp [represents], by simp [represents]⟩

theorem hash_computes_short (E : MemCollab) (hE : EncodesTrees E) (Key : List Nat)
    (Val : node) (flags : nodeFlag) (k : Nat)
    (hchild : Val.isBranch = true → (hash E k).computes E Val) :
    (hash E (k + 1)).computes E (.shortNode Key Val flags) := by
  intro h m n force Bs Bf a b hBs hBf hrep hpure
  obtain ⟨p, c, rfl, hok, hc, rfl, rfl, hv⟩ := represents_shortNode _ _ m Key Val flags n hrep
  simp only [hash, Ref.cache, hc]
  cases hfl : c.flags.hash with
  | some d =>
    rw [hashResult, hfl] at hpure
    simp only [Option.some.injEq, Prod.mk.injEq] at hpure
    obtain ⟨rfl, rfl⟩ := hpure
    exact ⟨_, _, _, _, rfl, by simp [represents],
      represents_mono _ _ _ _ m (below_outside Bs _) (below_outside Bf _) _ _ hrep⟩
  | none =>
    obtain ⟨cv, kv, hval, hto, rfl⟩ := hashResult_shortNode E.toCollab c.Key Val c.flags force
      a b hfl hpure
    obtain ⟨h1, m1, cvr, kvr, hrun, hpres, hcol, hcac, hrc, hrk⟩ :=
      hashShortNodeChildren_computes E (hash E k) (hash_frames E k) h m p c Val cv kv Bs Bf
        hBs hBf hc hv hchild hval
    have hcolrep : represents anywhere anywhere m1
        (.shortNode (E.hexToCompact c.Key) cv c.flags) (.shortNode m.shortNodes.length)
        = true :=
      represents_shortNode_intro anywhere anywhere m1 m.shortNodes.length
        ⟨E.hexToCompact c.Key, cvr, c.flags⟩ cv rfl hcol
        (represents_mono _ _ _ _ m1 (outside_anywhere _ _) (outside_anywhere _ _) cv cvr hrc)
    obtain ⟨hd, h2, hto2, hcase⟩ := shortnodeToHash_refines E h1 m1 m.shortNodes.length _ a
      force (hE m1 _ _ hcolrep) hto
    simp only [hrun, hto2]
    have hex : outside Bs (m.shortNodes.length + 2) (m.shortNodes.length + 1) = false :=
      outside_self_false Bs m.shortNodes.length _ 2 hBs (by omega) (by omega)
    have hwiden : ∀ (m2 : Mem) (x : node) (y : Ref),
        represents (outside Bs (m.shortNodes.length + 2)) (outside Bf m.fullNodes.length)
          m2 x y = true →
        represents (outside Bs m.shortNodes.length) (outside Bf m.fullNodes.length)
          m2 x y = true := fun m2 =>
      represents_mono _ _ _ _ m2
        (fun q hq => by simp only [outside, decide_eq_true_eq] at hq ⊢; omega)
        (fun q hq => hq)
    have finish : ∀ (x : Option (List Nat)) (m2 : Mem), hd.asHashNode = x →
        m1.writeShort (m.shortNodes.length + 1)
          (fun c1 => { c1 with flags := { c1.flags with hash := x } }) = some m2 →
        m2.shortNodes[m.shortNodes.length + 1]? =
          some ⟨c.Key, kvr, { c.flags with hash := x }⟩ →
        (∀ q, q ≠ m.shortNodes.length + 1 → m2.shortNodes[q]? = m1.shortNodes[q]?) →
        m2.fullNodes = m1.fullNodes →
        represents (outside Bs m.shortNodes.length) (outside Bf m.fullNodes.length)
          m2 a hd = true ∧
        represents (outside Bs m.shortNodes.length) (outside Bf m.fullNodes.length) m2
          (.shortNode c.Key kv { c.flags with hash := a.asHashNode })
          (.shortNode (m.shortNodes.length + 1)) = true := by
      intro x m2 hx _ hcell hother hfull
      have hk : m1.keeps (outside Bs (m.shortNodes.length + 2))
          (outside Bf m.fullNodes.length) m2 :=
        keeps_of_write_short _ _ m1 m2 _ hex hother hfull
      have hcv := hwiden m2 cv cvr (represents_keeps _ _ m1 m2 hk cv cvr hrc)
      have hkv := hwiden m2 kv kvr (represents_keeps _ _ m1 m2 hk kv kvr hrk)
      have hax : a.asHashNode = x := by
        rcases hcase with ⟨rfl, rfl⟩ | ⟨d, rfl, rfl⟩
        · rw [← hx]; rfl
        · rw [← hx]; rfl
      constructor
      · rcases hcase with ⟨rfl, rfl⟩ | ⟨d, rfl, rfl⟩
        · exact represents_shortNode_intro _ _ m2 m.shortNodes.length
            ⟨E.hexToCompact c.Key, cvr, c.flags⟩ cv
            (by simp only [outside, decide_eq_true_eq]; omega)
            (by rw [hother _ (by omega), hcol]) hcv
        · simp [represents]
      · rw [hax]
        exact represents_shortNode_intro _ _ m2 (m.shortNodes.length + 1)
          ⟨c.Key, kvr, { c.flags with hash := x }⟩ kv
          (by simp only [outside, decide_eq_true_eq]; omega) hcell hkv
    cases hh : hd.asHashNode with
    | some hn =>
      obtain ⟨m2, hw, hcell, hother, hfull, -⟩ := writeShort_spec m1 (m.shortNodes.length + 1)
        ⟨c.Key, kvr, c.flags⟩
        (fun c1 => { c1 with flags := { c1.flags with hash := some hn } }) hcac
      simp only [hw]
      obtain ⟨r1, r2⟩ := finish (some hn) m2 hh hw hcell hother hfull
      exact ⟨_, _, _, _, rfl, r1, r2⟩
    | none =>
      obtain ⟨m2, hw, hcell, hother, hfull, -⟩ := writeShort_spec m1 (m.shortNodes.length + 1)
        ⟨c.Key, kvr, c.flags⟩
        (fun c1 => { c1 with flags := { c1.flags with hash := none } }) hcac
      simp only [hw]
      obtain ⟨r1, r2⟩ := finish none m2 hh hw hcell hother hfull
      exact ⟨_, _, _, _, rfl, r1, r2⟩

theorem hash_computes_full (E : MemCollab) (hE : EncodesTrees E)
    (Children : List (Option node)) (flags : nodeFlag) (k : Nat)
    (hlen : Children.length = 17)
    (hchild : ∀ t, some t ∈ Children → (hash E k).computes E t) :
    (hash E (k + 1)).computes E (.fullNode Children flags) := by
  intro h m n force Bs Bf a b hBs hBf hrep hpure
  obtain ⟨p, c, rfl, hok, hc, rfl, hv⟩ := represents_fullNode _ _ m Children flags n hrep
  simp only [hash, Ref.cache, hc]
  cases hfl : c.flags.hash with
  | some d =>
    rw [hashResult, hfl] at hpure
    simp only [Option.some.injEq, Prod.mk.injEq] at hpure
    obtain ⟨rfl, rfl⟩ := hpure
    exact ⟨_, _, _, _, rfl, by simp [represents],
      represents_mono _ _ _ _ m (below_outside Bs _) (below_outside Bf _) _ _ hrep⟩
  | none =>
    obtain ⟨cs, ks, hval, hto, rfl⟩ := hashResult_fullNode E.toCollab Children c.flags force
      a b hfl hpure
    obtain ⟨h1, m1, colRefs, cacRefs, hrun, hpres, hcol, hcac, hrc, hrk⟩ :=
      hashFullNodeChildren_computes E (hash E k) (hash_frames E k) h m p c Children cs ks
        Bs Bf hBs hBf hc hv hchild hlen hval
    have hcolrep : represents anywhere anywhere m1 (.fullNode cs c.flags)
        (.fullNode (m.fullNodes.length + 1)) = true :=
      represents_fullNode_intro anywhere anywhere m1 (m.fullNodes.length + 1)
        ⟨colRefs, c.flags⟩ cs rfl hcol
        (representsSlots_mono _ _ _ _ m1 (outside_anywhere _ _) (outside_anywhere _ _)
          cs colRefs hrc)
    obtain ⟨hd, h2, hto2, hcase⟩ := fullnodeToHash_refines E h1 m1 (m.fullNodes.length + 1) _ a
      force (hE m1 _ _ hcolrep) hto
    simp only [hrun, hto2]
    have hex : outside Bf (m.fullNodes.length + 2) m.fullNodes.length = false :=
      outside_self_false Bf m.fullNodes.length _ 2 hBf (by omega) (by omega)
    have hwiden : ∀ (m2 : Mem) (x : List (Option node)) (y : List Ref),
        representsSlots (outside Bs m.shortNodes.length)
          (outside Bf (m.fullNodes.length + 2)) m2 x y = true →
        representsSlots (outside Bs m.shortNodes.length) (outside Bf m.fullNodes.length)
          m2 x y = true := fun m2 =>
      representsSlots_mono _ _ _ _ m2 (fun q hq => hq)
        (fun q hq => by simp only [outside, decide_eq_true_eq] at hq ⊢; omega)
    have finish : ∀ (x : Option (List Nat)) (m2 : Mem), hd.asHashNode = x →
        m2.fullNodes[m.fullNodes.length]? =
          some ⟨cacRefs, { c.flags with hash := x }⟩ →
        (∀ q, q ≠ m.fullNodes.length → m2.fullNodes[q]? = m1.fullNodes[q]?) →
        m2.shortNodes = m1.shortNodes →
        represents (outside Bs m.shortNodes.length) (outside Bf m.fullNodes.length)
          m2 a hd = true ∧
        represents (outside Bs m.shortNodes.length) (outside Bf m.fullNodes.length) m2
          (.fullNode ks { c.flags with hash := a.asHashNode })
          (.fullNode m.fullNodes.length) = true := by
      intro x m2 hx hcell hother hshort
      have hk : m1.keeps (outside Bs m.shortNodes.length)
          (outside Bf (m.fullNodes.length + 2)) m2 :=
        keeps_of_write_full _ _ m1 m2 _ hex hother hshort
      have hcv := hwiden m2 cs colRefs (representsSlots_keeps _ _ m1 m2 hk cs colRefs hrc)
      have hkv := hwiden m2 ks cacRefs (representsSlots_keeps _ _ m1 m2 hk ks cacRefs hrk)
      have hax : a.asHashNode = x := by
        rcases hcase with ⟨rfl, rfl⟩ | ⟨d, rfl, rfl⟩
        · rw [← hx]; rfl
        · rw [← hx]; rfl
      constructor
      · rcases hcase with ⟨rfl, rfl⟩ | ⟨d, rfl, rfl⟩
        · exact represents_fullNode_intro _ _ m2 (m.fullNodes.length + 1)
            ⟨colRefs, c.flags⟩ cs
            (by simp only [outside, decide_eq_true_eq]; omega)
            (by rw [hother _ (by omega), hcol]) hcv
        · simp [represents]
      · rw [hax]
        exact represents_fullNode_intro _ _ m2 m.fullNodes.length
          ⟨cacRefs, { c.flags with hash := x }⟩ ks
          (by simp only [outside, decide_eq_true_eq]; omega) hcell hkv
    cases hh : hd.asHashNode with
    | some hn =>
      obtain ⟨m2, hw, hcell, hother, hshort, -⟩ := writeFull_spec m1 m.fullNodes.length
        ⟨cacRefs, c.flags⟩
        (fun c1 => { c1 with flags := { c1.flags with hash := some hn } }) hcac
      simp only [hw]
      obtain ⟨r1, r2⟩ := finish (some hn) m2 hh hcell hother hshort
      exact ⟨_, _, _, _, rfl, r1, r2⟩
    | none =>
      obtain ⟨m2, hw, hcell, hother, hshort, -⟩ := writeFull_spec m1 m.fullNodes.length
        ⟨cacRefs, c.flags⟩
        (fun c1 => { c1 with flags := { c1.flags with hash := none } }) hcac
      simp only [hw]
      obtain ⟨r1, r2⟩ := finish none m2 hh hcell hother hshort
      exact ⟨_, _, _, _, rfl, r1, r2⟩

mutual
/-- On a well-formed tree and within its depth, `hash` over the memory computes
references that stand for the two results of `hash` on the tree. -/
theorem hash_computes (E : MemCollab) (hE : EncodesTrees E) :
    ∀ (t : node), t.wellFormed = true → ∀ (fuel : Nat), t.depth ≤ fuel →
      (hash E fuel).computes E t
  | .shortNode Key Val flags, hw, fuel, hd => by
    cases fuel with
    | zero => simp [node.depth] at hd
    | succ k =>
      simp only [node.wellFormed] at hw
      simp only [node.depth] at hd
      exact hash_computes_short E hE Key Val flags k
        (fun _ => hash_computes E hE Val hw k (by omega))
  | .fullNode Children flags, hw, fuel, hd => by
    cases fuel with
    | zero => simp [node.depth] at hd
    | succ k =>
      simp only [node.wellFormed, Bool.and_eq_true, decide_eq_true_eq] at hw
      simp only [node.depth] at hd
      exact hash_computes_full E hE Children flags k hw.1
        (hash_computes_slots E hE Children hw.2 k (by omega))
  | .hashNode b, _, fuel, hd => by
    cases fuel with
    | zero => simp [node.depth] at hd
    | succ k => exact hash_computes_leaf E (.hashNode b) rfl k
  | .valueNode b, _, fuel, hd => by
    cases fuel with
    | zero => simp [node.depth] at hd
    | succ k => exact hash_computes_leaf E (.valueNode b) rfl k

theorem hash_computes_slots (E : MemCollab) (hE : EncodesTrees E) :
    ∀ (ts : List (Option node)), slotsWellFormed ts = true → ∀ (fuel : Nat),
      slotsDepth ts ≤ fuel → ∀ t, some t ∈ ts → (hash E fuel).computes E t
  | [], _, _, _, t, ht => by simp at ht
  | none :: rest, hw, fuel, hd, t, ht => by
    simp only [slotsWellFormed] at hw
    simp only [slotsDepth] at hd
    simp only [List.mem_cons] at ht
    rcases ht with ht | ht
    · simp at ht
    · exact hash_computes_slots E hE rest hw fuel hd t ht
  | some c :: rest, hw, fuel, hd, t, ht => by
    simp only [slotsWellFormed, Bool.and_eq_true] at hw
    simp only [slotsDepth] at hd
    simp only [List.mem_cons, Option.some.injEq] at ht
    rcases ht with ht | ht
    · subst ht
      exact hash_computes E hE t hw.1 fuel (by omega)
    · exact hash_computes_slots E hE rest hw.2 fuel (by omega) t ht
end

/-- The memory embedding refines the value embedding: when the reference `n` stands for
the well-formed tree `t` and `hash` on `t` returns `(a, b)`, then `hash` over the memory,
with the depth of `t` as bound, returns references that stand for `a` and for `b`. -/
theorem hash_refines (E : MemCollab) (hE : EncodesTrees E) (h : pureHasher) (m : Mem)
    (n : Ref) (force : Bool) (t a b : node)
    (hrep : represents (below m.shortNodes.length) (below m.fullNodes.length) m t n = true)
    (hw : t.wellFormed = true)
    (hpure : hashResult E.toCollab t force = some (a, b)) :
    ∃ hd cd h1 m1, hash E t.depth h m n force = some (hd, cd, h1, m1) ∧
      represents anywhere anywhere m1 a hd = true ∧
      represents anywhere anywhere m1 b cd = true := by
  obtain ⟨hd, cd, h1, m1, hrun, ha, hb⟩ := hash_computes E hE t hw t.depth (le_refl _) h m n
    force m.shortNodes.length m.fullNodes.length a b (le_refl _) (le_refl _) hrep hpure
  exact ⟨hd, cd, h1, m1, hrun,
    represents_mono _ _ _ _ m1 (outside_anywhere _ _) (outside_anywhere _ _) a hd ha,
    represents_mono _ _ _ _ m1 (outside_anywhere _ _) (outside_anywhere _ _) b cd hb⟩

end heap

/-! ## The RLP encoder over the memory agrees with the RLP encoder on trees -/

namespace heap

mutual
/-- A reference stands for at most one tree. -/
theorem represents_unique (oks okf oks1 okf1 : Nat → Bool) (m : Mem) :
    ∀ (t1 t2 : node) (r : Ref), represents oks okf m t1 r = true →
      represents oks1 okf1 m t2 r = true → t1 = t2
  | .shortNode Key Val flags, t2, r, h1, h2 => by
    obtain ⟨p, c, rfl, -, hc, rfl, rfl, hv⟩ := represents_shortNode _ _ m Key Val flags r h1
    cases t2 with
    | shortNode K2 V2 F2 =>
      obtain ⟨p2, c2, hp, -, hc2, rfl, rfl, hv2⟩ := represents_shortNode _ _ m K2 V2 F2 _ h2
      simp only [Ref.shortNode.injEq] at hp
      subst hp
      rw [hc] at hc2
      simp only [Option.some.injEq] at hc2
      subst hc2
      rw [represents_unique oks okf oks1 okf1 m Val V2 c.Val hv hv2]
    | fullNode C2 F2 => simp [represents] at h2
    | hashNode b => simp [represents] at h2
    | valueNode b => simp [represents] at h2
  | .fullNode Children flags, t2, r, h1, h2 => by
    obtain ⟨p, c, rfl, -, hc, rfl, hv⟩ := represents_fullNode _ _ m Children flags r h1
    cases t2 with
    | fullNode C2 F2 =>
      obtain ⟨p2, c2, hp, -, hc2, rfl, hv2⟩ := represents_fullNode _ _ m C2 F2 _ h2
      simp only [Ref.fullNode.injEq] at hp
      subst hp
      rw [hc] at hc2
      simp only [Option.some.injEq] at hc2
      subst hc2
      rw [representsSlots_unique oks okf oks1 okf1 m Children C2 c.Children hv hv2]
    | shortNode K2 V2 F2 => simp [represents] at h2
    | hashNode b => simp [represents] at h2
    | valueNode b => simp [represents] at h2
  | .hashNode b, t2, r, h1, h2 => by
    rw [represents_hashNode] at h1
    subst h1
    cases t2 <;> simp [represents] at h2
    rw [h2]
  | .valueNode b, t2, r, h1, h2 => by
    rw [represents_valueNode] at h1
    subst h1
    cases t2 <;> simp [represents] at h2
    rw [h2]

theorem representsSlots_unique (oks okf oks1 okf1 : Nat → Bool) (m : Mem) :
    ∀ (ts1 ts2 : List (Option node)) (rs : List Ref),
      representsSlots oks okf m ts1 rs = true →
      representsSlots oks1 okf1 m ts2 rs = true → ts1 = ts2
  | [], ts2, [], _, h2 => by
    cases ts2 with
    | nil => rfl
    | cons s rest => cases s <;> simp [representsSlots] at h2
  | [], _, _ :: _, h1, _ => by simp [representsSlots] at h1
  | none :: ts, _, [], h1, _ => by simp [representsSlots] at h1
  | some t :: ts, _, [], h1, _ => by simp [representsSlots] at h1
  | none :: ts, ts2, r :: rs, h1, h2 => by
    have hr : r = .nil := by cases r <;> simp [representsSlots] at h1 ⊢
    subst hr
    simp only [representsSlots] at h1
    cases ts2 with
    | nil => simp [representsSlots] at h2
    | cons s rest =>
      cases s with
      | none =>
        simp only [representsSlots] at h2
        rw [representsSlots_unique oks okf oks1 okf1 m ts rest rs h1 h2]
      | some t2 =>
        simp only [representsSlots, Bool.and_eq_true] at h2
        exact absurd rfl (represents_ne_nil _ _ m t2 .nil h2.1)
  | some t :: ts, ts2, r :: rs, h1, h2 => by
    simp only [representsSlots, Bool.and_eq_true] at h1
    have hne := represents_ne_nil _ _ m t r h1.1
    cases ts2 with
    | nil => simp [representsSlots] at h2
    | cons s rest =>
      cases s with
      | none =>
        cases r <;> simp [representsSlots] at h2 hne
      | some t2 =>
        simp only [representsSlots, Bool.and_eq_true] at h2
        rw [represents_unique oks okf oks1 okf1 m t t2 r h1.1 h2.1,
          representsSlots_unique oks okf oks1 okf1 m ts rest rs h1.2 h2.2]
end

theorem depth_le_slotsDepth : ∀ (ts : List (Option node)) (t : node), some t ∈ ts →
    t.depth ≤ slotsDepth ts
  | [], t, ht => by simp at ht
  | none :: rest, t, ht => by
    simp only [List.mem_cons] at ht
    rcases ht with ht | ht
    · simp at ht
    · simp only [slotsDepth]
      exact depth_le_slotsDepth rest t ht
  | some c :: rest, t, ht => by
    simp only [List.mem_cons, Option.some.injEq] at ht
    simp only [slotsDepth]
    rcases ht with ht | ht
    · subst ht; omega
    · have := depth_le_slotsDepth rest t ht
      omega

mutual
/-- A tree of smaller depth than the tree at `R` is represented without the struct that
`R` points to. -/
theorem represents_avoid (a b oks okf oks2 okf2 : Nat → Bool) (m : Mem) (T : node) (R : Ref)
    (hT : represents a b m T R = true)
    (hs : ∀ q, oks q = true → R ≠ .shortNode q → oks2 q = true)
    (hf : ∀ q, okf q = true → R ≠ .fullNode q → okf2 q = true) :
    ∀ (t : node) (r : Ref), t.depth < T.depth → represents oks okf m t r = true →
      represents oks2 okf2 m t r = true
  | .shortNode Key Val flags, r, hd, hr => by
    obtain ⟨p, c, rfl, hok, hc, rfl, rfl, hv⟩ := represents_shortNode _ _ m Key Val flags r hr
    have hne : R ≠ .shortNode p := by
      intro he
      subst he
      have := represents_unique _ _ _ _ m _ _ _ hT hr
      subst this
      omega
    simp only [node.depth] at hd
    exact represents_shortNode_intro _ _ m p c Val (hs p hok hne) hc
      (represents_avoid a b oks okf oks2 okf2 m T R hT hs hf Val c.Val (by omega) hv)
  | .fullNode Children flags, r, hd, hr => by
    obtain ⟨p, c, rfl, hok, hc, rfl, hv⟩ := represents_fullNode _ _ m Children flags r hr
    have hne : R ≠ .fullNode p := by
      intro he
      subst he
      have := represents_unique _ _ _ _ m _ _ _ hT hr
      subst this
      omega
    simp only [node.depth] at hd
    exact represents_fullNode_intro _ _ m p c Children (hf p hok hne) hc
      (representsSlots_avoid a b oks okf oks2 okf2 m T R hT hs hf Children c.Children
        (fun t ht => by have := depth_le_slotsDepth Children t ht; omega) hv)
  | .hashNode d, r, _, hr => by
    rw [represents_hashNode] at hr ⊢; exact hr
  | .valueNode d, r, _, hr => by
    rw [represents_valueNode] at hr ⊢; exact hr

theorem representsSlots_avoid (a b oks okf oks2 okf2 : Nat → Bool) (m : Mem) (T : node)
    (R : Ref) (hT : represents a b m T R = true)
    (hs : ∀ q, oks q = true → R ≠ .shortNode q → oks2 q = true)
    (hf : ∀ q, okf q = true → R ≠ .fullNode q → okf2 q = true) :
    ∀ (ts : List (Option node)) (rs : List Ref),
      (∀ t, some t ∈ ts → t.depth < T.depth) →
      representsSlots oks okf m ts rs = true → representsSlots oks2 okf2 m ts rs = true
  | [], [], _, _ => by simp [representsSlots]
  | [], _ :: _, _, hr => by simp [representsSlots] at hr
  | none :: ts, [], _, hr => by simp [representsSlots] at hr
  | some t :: ts, [], _, hr => by simp [representsSlots] at hr
  | none :: ts, r :: rs, hd, hr => by
    have hnil : r = .nil := by cases r <;> simp [representsSlots] at hr ⊢
    subst hnil
    simp only [representsSlots] at hr ⊢
    exact representsSlots_avoid a b oks okf oks2 okf2 m T R hT hs hf ts rs
      (fun t ht => hd t (List.mem_cons_of_mem _ ht)) hr
  | some t :: ts, r :: rs, hd, hr => by
    simp only [representsSlots, Bool.and_eq_true] at hr ⊢
    exact ⟨represents_avoid a b oks okf oks2 okf2 m T R hT hs hf t r
        (hd t (List.mem_cons_self _ _)) hr.1,
      representsSlots_avoid a b oks okf oks2 okf2 m T R hT hs hf ts rs
        (fun t1 ht => hd t1 (List.mem_cons_of_mem _ ht)) hr.2⟩
end

theorem nodup_bounded_length (vs : List Nat) (n : Nat) (hn : vs.Nodup)
    (hb : ∀ p ∈ vs, p < n) : vs.length ≤ n := by
  have hsub : vs ⊆ List.range n := fun p hp => List.mem_range.mpr (hb p hp)
  have := (List.subperm_of_subset hn hsub).length_le
  simpa using this

theorem notIn_iff (vs : List Nat) (p : Nat) : notIn vs p = true ↔ p ∉ vs := by
  simp [notIn]

mutual
/-- A tree represented without the structs already visited is no deeper than the number
of structs left. -/
theorem depth_le_of_represents (m : Mem) :
    ∀ (t : node) (r : Ref) (vs vf : List Nat), vs.Nodup → vf.Nodup →
      (∀ p ∈ vs, p < m.shortNodes.length) → (∀ p ∈ vf, p < m.fullNodes.length) →
      represents (notIn vs) (notIn vf) m t r = true →
      t.depth + vs.length + vf.length ≤ m.shortNodes.length + m.fullNodes.length + 1
  | .shortNode Key Val flags, r, vs, vf, hns, hnf, hbs, hbf, hr => by
    obtain ⟨p, c, rfl, hok, hc, rfl, rfl, hv⟩ := represents_shortNode _ _ m Key Val flags r hr
    have hpv : p ∉ vs := (notIn_iff vs p).mp hok
    have hplt : p < m.shortNodes.length := (List.getElem?_eq_some_iff.mp hc).1
    have hv2 : represents (notIn (p :: vs)) (notIn vf) m Val c.Val = true :=
      represents_avoid _ _ (notIn vs) (notIn vf) _ _ m _ _ hr
        (fun q hq hne => by
          rw [notIn_iff] at hq ⊢
          simp only [List.mem_cons, not_or]
          exact ⟨fun he => hne (by rw [he]), hq⟩)
        (fun q hq _ => hq) Val c.Val (by simp [node.depth]) hv
    have ih := depth_le_of_represents m Val c.Val (p :: vs) vf
      (List.nodup_cons.mpr ⟨hpv, hns⟩) hnf
      (fun q hq => by
        simp only [List.mem_cons] at hq
        rcases hq with rfl | hq
        · exact hplt
        · exact hbs q hq) hbf hv2
    simp only [node.depth, List.length_cons] at ih ⊢
    omega
  | .fullNode Children flags, r, vs, vf, hns, hnf, hbs, hbf, hr => by
    obtain ⟨p, c, rfl, hok, hc, rfl, hv⟩ := represents_fullNode _ _ m Children flags r hr
    have hpv : p ∉ vf := (notIn_iff vf p).mp hok
    have hplt : p < m.fullNodes.length := (List.getElem?_eq_some_iff.mp hc).1
    have hv2 : representsSlots (notIn vs) (notIn (p :: vf)) m Children c.Children = true :=
      representsSlots_avoid _ _ (notIn vs) (notIn vf) _ _ m _ _ hr
        (fun q hq _ => hq)
        (fun q hq hne => by
          rw [notIn_iff] at hq ⊢
          simp only [List.mem_cons, not_or]
          exact ⟨fun he => hne (by rw [he]), hq⟩)
        Children c.Children
        (fun t ht => by
          have := depth_le_slotsDepth Children t ht
          simp only [node.depth]; omega) hv
    have ih := slotsDepth_le_of_represents m Children c.Children vs (p :: vf) hns
      (List.nodup_cons.mpr ⟨hpv, hnf⟩) hbs
      (fun q hq => by
        simp only [List.mem_cons] at hq
        rcases hq with rfl | hq
        · exact hplt
        · exact hbf q hq) hv2
    simp only [node.depth, List.length_cons] at ih ⊢
    omega
  | .hashNode d, r, vs, vf, hns, hnf, hbs, hbf, _ => by
    have h1 := nodup_bounded_length vs _ hns hbs
    have h2 := nodup_bounded_length vf _ hnf hbf
    simp only [node.depth]
    omega
  | .valueNode d, r, vs, vf, hns, hnf, hbs, hbf, _ => by
    have h1 := nodup_bounded_length vs _ hns hbs
    have h2 := nodup_bounded_length vf _ hnf hbf
    simp only [node.depth]
    omega

theorem slotsDepth_le_of_represents (m : Mem) :
    ∀ (ts : List (Option node)) (rs : List Ref) (vs vf : List Nat), vs.Nodup → vf.Nodup →
      (∀ p ∈ vs, p < m.shortNodes.length) → (∀ p ∈ vf, p < m.fullNodes.length) →
      representsSlots (notIn vs) (notIn vf) m ts rs = true →
      slotsDepth ts + vs.length + vf.length ≤ m.shortNodes.length + m.fullNodes.length + 1
  | [], _, vs, vf, hns, hnf, hbs, hbf, _ => by
    have h1 := nodup_bounded_length vs _ hns hbs
    have h2 := nodup_bounded_length vf _ hnf hbf
    simp only [slotsDepth]
    omega
  | none :: ts, [], _, _, _, _, _, _, hr => by simp [representsSlots] at hr
  | some t :: ts, [], _, _, _, _, _, _, hr => by simp [representsSlots] at hr
  | none :: ts, r :: rs, vs, vf, hns, hnf, hbs, hbf, hr => by
    have hnil : r = .nil := by cases r <;> simp [representsSlots] at hr ⊢
    subst hnil
    simp only [representsSlots] at hr
    simp only [slotsDepth]
    exact slotsDepth_le_of_represents m ts rs vs vf hns hnf hbs hbf hr
  | some t :: ts, r :: rs, vs, vf, hns, hnf, hbs, hbf, hr => by
    simp only [representsSlots, Bool.and_eq_true] at hr
    have h1 := depth_le_of_represents m t r vs vf hns hnf hbs hbf hr.1
    have h2 := slotsDepth_le_of_represents m ts rs vs vf hns hnf hbs hbf hr.2
    simp only [slotsDepth]
    omega
end

mutual
/-- A reference that stands for a tree is read as that tree, given its depth. -/
theorem reify_of_represents (oks okf : Nat → Bool) (m : Mem) :
    ∀ (t : node) (r : Ref), represents oks okf m t r = true →
      ∀ k, t.depth ≤ k → reify m k r = some t
  | .shortNode Key Val flags, r, hr, k, hk => by
    obtain ⟨p, c, rfl, -, hc, rfl, rfl, hv⟩ := represents_shortNode _ _ m Key Val flags r hr
    cases k with
    | zero => simp [node.depth] at hk
    | succ k =>
      simp only [node.depth] at hk
      simp only [reify, hc, reify_of_represents oks okf m Val c.Val hv k (by omega)]
  | .fullNode Children flags, r, hr, k, hk => by
    obtain ⟨p, c, rfl, -, hc, rfl, hv⟩ := represents_fullNode _ _ m Children flags r hr
    cases k with
    | zero => simp [node.depth] at hk
    | succ k =>
      simp only [node.depth] at hk
      simp only [reify, hc,
        reifySlots_of_represents oks okf m Children c.Children hv k (by omega)]
  | .hashNode d, r, hr, k, hk => by
    rw [represents_hashNode] at hr
    subst hr
    cases k with
    | zero => simp [node.depth] at hk
    | succ k => simp [reify]
  | .valueNode d, r, hr, k, hk => by
    rw [represents_valueNode] at hr
    subst hr
    cases k with
    | zero => simp [node.depth] at hk
    | succ k => simp [reify]

theorem reifySlots_of_represents (oks okf : Nat → Bool) (m : Mem) :
    ∀ (ts : List (Option node)) (rs : List Ref), representsSlots oks okf m ts rs = true →
      ∀ k, slotsDepth ts ≤ k →
        rs.mapM (fun r => if r = .nil then some none else (reify m k r).map some) = some ts
  | [], [], _, _, _ => by rw [List.mapM_nil]; rfl
  | [], _ :: _, hr, _, _ => by simp [representsSlots] at hr
  | none :: ts, [], hr, _, _ => by simp [representsSlots] at hr
  | some t :: ts, [], hr, _, _ => by simp [representsSlots] at hr
  | none :: ts, r :: rs, hr, k, hk => by
    have hnil : r = .nil := by cases r <;> simp [representsSlots] at hr ⊢
    subst hnil
    simp only [representsSlots] at hr
    simp only [slotsDepth] at hk
    rw [List.mapM_cons, reifySlots_of_represents oks okf m ts rs hr k hk]
    simp
  | some t :: ts, r :: rs, hr, k, hk => by
    simp only [representsSlots, Bool.and_eq_true] at hr
    simp only [slotsDepth] at hk
    have hne := represents_ne_nil _ _ m t r hr.1
    rw [List.mapM_cons, reifySlots_of_represents oks okf m ts rs hr.2 k (by omega),
      if_neg hne, reify_of_represents oks okf m t r hr.1 k (by omega)]
    simp
end

/-- The example encoder over the memory returns the RLP encoding of the tree that a
reference stands for. -/
theorem rlpMemCollab_encodesTrees : EncodesTrees rlpMemCollab := by
  intro m r t hrep
  have hrep2 : represents (notIn []) (notIn []) m t r = true :=
    represents_mono _ _ _ _ m (fun p _ => by simp [notIn]) (fun p _ => by simp [notIn]) t r hrep
  have hd := depth_le_of_represents m t r [] [] List.nodup_nil List.nodup_nil
    (fun p hp => by simp at hp) (fun p hp => by simp at hp) hrep2
  simp only [List.length_nil, Nat.add_zero] at hd
  have hre := reify_of_represents _ _ m t r hrep
    (m.shortNodes.length + m.fullNodes.length + 1) hd
  simp [rlpMemCollab, rlpCollab, hre]

end heap

namespace heap

/-- On the example memory, the two results of `hash` over the memory stand for the two
results of `hash` on the tree that the input stands for. -/
theorem exampleMem_agrees :
    (hash rlpMemCollab 4 freshHasher exampleMem (.shortNode 1) false).bind
        (fun r => (reify r.2.2.2 4 r.1).bind
          (fun a => (reify r.2.2.2 4 r.2.1).map (fun b => (a, b)))) =
      hashResult rlpCollab exampleTree false := by
  rfl

/-- C8 (non-mutation): when `hash(n, force)` returns, every node struct that existed
before the call is still at its address with the same key, the same child slots, the same
value and the same cached digest, so `n` and every node of its subtree are unchanged: the
tree that `n` (or any other reference) stood for before the call is the tree it stands
for afterwards.  All writes went to structs allocated during the call.  The call returns,
within the depth of the tree, on every well-formed tree on which the encoder does not
fail. -/
theorem hash_does_not_mutate (E : MemCollab) (fuel : Nat) (h : pureHasher) (m : Mem)
    (n : Ref) (force : Bool) :
    (EncodesTrees E → EncodesAll E.toCollab →
      ∀ t, represents (below m.shortNodes.length) (below m.fullNodes.length) m t n = true →
        t.wellFormed = true → t.depth ≤ fuel →
        ∃ r, hash E fuel h m n force = some r) ∧
    ∀ hashed cached h1 m1, hash E fuel h m n force = some (hashed, cached, h1, m1) →
      (∀ (p : Nat) (c : shortNode), m.shortNodes[p]? = some c → m1.shortNodes[p]? = some c) ∧
      (∀ (p : Nat) (c : fullNode), m.fullNodes[p]? = some c → m1.fullNodes[p]? = some c) ∧
      (∀ (t : node) (r : Ref), represents anywhere anywhere m t r = true →
        represents anywhere anywhere m1 t r = true) := by
  constructor
  · intro hE hall t hrep hw hd
    obtain ⟨⟨a, b⟩, hpure⟩ := hashResult_isSome E.toCollab hall t force
    obtain ⟨hd1, cd, h1, m1, hrun, -, -⟩ := hash_computes E hE t hw fuel hd h m n force
      m.shortNodes.length m.fullNodes.length a b (le_refl _) (le_refl _) hrep hpure
    exact ⟨_, hrun⟩
  · intro hashed cached h1 m1 hr
    have hp : m.preserved m1 := hash_frames E fuel h m n force hashed cached h1 m1 hr
    exact ⟨(preserved_lookup m m1 hp).1, (preserved_lookup m m1 hp).2,
      represents_keeps anywhere anywhere m m1 (keeps_of_preserved _ _ m m1 hp)⟩

/-- Witness of C8: the extension over a full node of `exampleMem`, hashed with `force` on;
afterwards both input structs are in place and the reference still stands for
`exampleTree`. -/
theorem hash_does_not_mutate_witness :
    ∃ hashed cached h1 m1,
      hash rlpMemCollab 4 freshHasher exampleMem (.shortNode 1) true =
        some (hashed, cached, h1, m1) ∧
      (∀ (p : Nat) (c : shortNode),
        exampleMem.shortNodes[p]? = some c → m1.shortNodes[p]? = some c) ∧
      (∀ (p : Nat) (c : fullNode),
        exampleMem.fullNodes[p]? = some c → m1.fullNodes[p]? = some c) ∧
      represents anywhere anywhere m1 exampleTree (.shortNode 1) = true := by
  obtain ⟨⟨hashed, cached, h1, m1⟩, hr⟩ :=
    (hash_does_not_mutate rlpMemCollab 4 freshHasher exampleMem (.shortNode 1) true).1
      rlpMemCollab_encodesTrees rlpCollab_encodesAll exampleTree (by decide) (by decide)
      (by decide)
  obtain ⟨hshort, hfull, htree⟩ :=
    (hash_does_not_mutate rlpMemCollab 4 freshHasher exampleMem (.shortNode 1) true).2
      hashed cached h1 m1 hr
  exact ⟨hashed, cached, h1, m1, hr, hshort, hfull,
    htree exampleTree (.shortNode 1) (by decide)⟩

end heap

/-! ## The digest field and the two children steps -/

/-- C11 (digest field of the cached view): for a short or full node `n` without cached
digest and either value of `force`, the cached result of `hash(n, force)` carries in its
digest field the bytes of `hashed` when `hashed` is a hash node, and nil when `hashed` is
not a hash node (the node was inlined).  The call returns whenever the encoder does not
fail. -/
theorem hash_cached_digest_field (E : Collab) (h : pureHasher) (n : node) (force : Bool)
    (hb : n.isBranch = true) (hn : n.cache.1 = none) :
    (EncodesAll E → ∃ r, pureHasher.hash E h n force = some r) ∧
    ∀ hashed cached h1, pureHasher.hash E h n force = some (hashed, cached, h1) →
      (∀ d, hashed = .hashNode d → cached.cache.1 = some d) ∧
      (hashed.asHashNode = none → cached.cache.1 = none) := by
  refine ⟨fun hE => hash_returns E hE h n force, ?_⟩
  intro hashed cached h1 hr
  have hp := hashResult_of_hash E h h1 n hashed cached force hr
  have key : cached.cache.1 = hashed.asHashNode := by
    cases n with
    | shortNode Key Val flags =>
      obtain ⟨cv, kv, -, -, hk⟩ := hashResult_shortNode E Key Val flags force hashed cached hn hp
      rw [hk]; rfl
    | fullNode Children flags =>
      obtain ⟨cs, ks, -, -, hk⟩ := hashResult_fullNode E Children flags force hashed cached hn hp
      rw [hk]; rfl
    | hashNode b => simp [node.isBranch] at hb
    | valueNode b => simp [node.isBranch] at hb
  refine ⟨fun d hd => ?_, fun hd => ?_⟩
  · rw [key, hd]; rfl
  · rw [key, hd]

/-- Witness of C11: a leaf hashed with `force` on; `hashed` is a hash node and the cached
view carries its bytes. -/
theorem hash_cached_digest_field_witness :
    ∃ hashed cached h1,
      pureHasher.hash rlpCollab freshHasher
        (.shortNode [1, 2, 16] (.valueNode [5]) ⟨none, true⟩) true
        = some (hashed, cached, h1) ∧
      (∀ d, hashed = .hashNode d → cached.cache.1 = some d) ∧
      (hashed.asHashNode = none → cached.cache.1 = none) := by
  have hw := hash_cached_digest_field rlpCollab freshHasher
    (.shortNode [1, 2, 16] (.valueNode [5]) ⟨none, true⟩) true rfl rfl
  obtain ⟨⟨hashed, cached, h1⟩, hr⟩ := hw.1 rlpCollab_encodesAll
  exact ⟨hashed, cached, h1, hr, hw.2 hashed cached h1 hr⟩

/-- C12 (short node step): `hashShortNodeChildren` on the short node with fields `Key`,
`Val`, `flags` returns a collapsed copy with the key `hexToCompact Key` and a cached copy
with the key `Key`.  A value that is a short or full node is replaced, in the two copies,
by the two results of `hash(Val, false)`, and the step aborts when that call aborts; a
value node or hash node stays as it is in both copies, and the hasher is not used.  The
step takes no `force`: in a run of `hash` on the short node with either `force`, the
value of the cached view is the cached result of `hash(Val, false)`. -/
theorem hashShortNodeChildren_spec (E : Collab) (h : pureHasher) (Key : List Nat) (Val : node)
    (flags : nodeFlag) :
    (EncodesAll E → ∃ r, pureHasher.hashShortNodeChildren E h Key Val flags = some r) ∧
    (∀ collapsed cached h1,
      pureHasher.hashShortNodeChildren E h Key Val flags = some (collapsed, cached, h1) →
      collapsed.key? = some (E.hexToCompact Key) ∧ cached.key? = some Key) ∧
    (Val.isBranch = false →
      pureHasher.hashShortNodeChildren E h Key Val flags =
        some (.shortNode (E.hexToCompact Key) Val flags, .shortNode Key Val flags, h)) ∧
    (Val.isBranch = true →
      (pureHasher.hash E h Val false = none →
        pureHasher.hashShortNodeChildren E h Key Val flags = none) ∧
      (∀ cv kv h1, pureHasher.hash E h Val false = some (cv, kv, h1) →
        pureHasher.hashShortNodeChildren E h Key Val flags =
          some (.shortNode (E.hexToCompact Key) cv flags, .shortNode Key kv flags, h1)) ∧
      ∀ force hashed cached h2, flags.hash = none →
        pureHasher.hash E h (.shortNode Key Val flags) force = some (hashed, cached, h2) →
        ∃ cv kv h1, pureHasher.hash E h Val false = some (cv, kv, h1) ∧
          cached.val? = some kv) := by
  have hleaf := hashShortNodeChildren_of_leaf E h Key Val flags
  have hbranch := hashShortNodeChildren_of_branch E h Key Val flags
  refine ⟨?_, ?_, hleaf, ?_⟩
  · intro hE
    by_cases hb : Val.isBranch = true
    · obtain ⟨⟨cv, kv, h1⟩, hr⟩ := hash_returns E hE h Val false
      rw [hbranch hb, hr]; exact ⟨_, rfl⟩
    · simp only [Bool.not_eq_true] at hb
      rw [hleaf hb]; exact ⟨_, rfl⟩
  · intro collapsed cached h1 hc
    by_cases hb : Val.isBranch = true
    · rw [hbranch hb] at hc
      cases hv : pureHasher.hash E h Val false with
      | none => rw [hv] at hc; simp at hc
      | some r =>
        obtain ⟨cv, kv, h2⟩ := r
        rw [hv] at hc
        simp only [Option.some.injEq, Prod.mk.injEq] at hc
        obtain ⟨rfl, rfl, -⟩ := hc
        exact ⟨rfl, rfl⟩
    · simp only [Bool.not_eq_true] at hb
      rw [hleaf hb] at hc
      simp only [Option.some.injEq, Prod.mk.injEq] at hc
      obtain ⟨rfl, rfl, -⟩ := hc
      exact ⟨rfl, rfl⟩
  · intro hb
    refine ⟨fun hv => ?_, fun cv kv h1 hv => ?_, ?_⟩
    · rw [hbranch hb, hv]
    · rw [hbranch hb, hv]
    · intro force hashed cached h2 hf hr
      cases hv : pureHasher.hash E h Val false with
      | none =>
        have hc : pureHasher.hashShortNodeChildren E h Key Val flags = none := by
          rw [hbranch hb, hv]
        rw [pureHasher.hash] at hr
        simp [node.cache, hf, hc] at hr
      | some r =>
        obtain ⟨cv, kv, h1⟩ := r
        refine ⟨cv, kv, h1, rfl, ?_⟩
        have hc : (h.hashChildren E (.shortNode Key Val flags)) =
            some (.shortNode (E.hexToCompact Key) cv flags, .shortNode Key kv flags, h1) := by
          simp only [pureHasher.hashChildren]
          rw [hbranch hb, hv]
        rw [hash_of_children E h (.shortNode Key Val flags) force _ _ h1 hf hc] at hr
        cases hs : h1.shortnodeToHash E (.shortNode (E.hexToCompact Key) cv flags) force with
        | none => rw [hs] at hr; simp at hr
        | some p =>
          obtain ⟨a, h3⟩ := p
          rw [hs] at hr
          simp only [Option.some.injEq, Prod.mk.injEq] at hr
          obtain ⟨-, rfl, -⟩ := hr
          rfl

/-- Witness of C12: the step on an extension `[1]` over the leaf `[2, 16] ↦ [5]`. -/
theorem hashShortNodeChildren_spec_witness :
    ∃ cv kv h1,
      pureHasher.hash rlpCollab freshHasher
        (.shortNode [2, 16] (.valueNode [5]) ⟨none, true⟩) false = some (cv, kv, h1) ∧
      pureHasher.hashShortNodeChildren rlpCollab freshHasher [1]
        (.shortNode [2, 16] (.valueNode [5]) ⟨none, true⟩) ⟨none, true⟩ =
        some (.shortNode (hexToCompact [1]) cv ⟨none, true⟩,
          .shortNode [1] kv ⟨none, true⟩, h1) := by
  obtain ⟨⟨cv, kv, h1⟩, hr⟩ := hash_returns rlpCollab rlpCollab_encodesAll freshHasher
    (.shortNode [2, 16] (.valueNode [5]) ⟨none, true⟩) false
  exact ⟨cv, kv, h1, hr,
    ((hashShortNodeChildren_spec rlpCollab freshHasher [1]
      (.shortNode [2, 16] (.valueNode [5]) ⟨none, true⟩) ⟨none, true⟩).2.2.2 rfl).2.1
      cv kv h1 hr⟩

/-- C13 (full node step): `hashFullNodeChildren` on the full node with fields `Children`,
`flags` returns two full nodes.  For every routing slot `i < 16`: a nil slot of the input
is `nilValueNode` in the collapsed copy and nil in the cached copy; a slot holding a child
holds, in the two copies, the two results of `hash(child, false)` (the same from every
hasher state).  Slot 16 of both copies is slot 16 of the input, whatever it holds.  The
step returns whenever the encoder does not fail. -/
theorem hashFullNodeChildren_spec (E : Collab) (h : pureHasher)
    (Children : List (Option node)) (flags : nodeFlag) :
    (EncodesAll E → ∃ r, pureHasher.hashFullNodeChildren E h Children flags = some r) ∧
    ∀ collapsed cached h1,
      pureHasher.hashFullNodeChildren E h Children flags = some (collapsed, cached, h1) →
      collapsed.variant = Variant.full ∧ cached.variant = Variant.full ∧
      (∀ i, i < 16 →
        (Children[i]? = some none →
          collapsed.slots[i]? = some (some nilValueNode) ∧ cached.slots[i]? = some none) ∧
        (∀ child, Children[i]? = some (some child) →
          ∃ cc kc, (∀ h0, ∃ h2, pureHasher.hash E h0 child false = some (cc, kc, h2)) ∧
            collapsed.slots[i]? = some (some cc) ∧ cached.slots[i]? = some (some kc))) ∧
      collapsed.slots[16]? = Children[16]? ∧ cached.slots[16]? = Children[16]? := by
  constructor
  · intro hE
    obtain ⟨⟨cs, ks⟩, hr⟩ := slotsResult_isSome E hE Children 16
    have hv := hashSlots_views E Children 16 h
    rw [hr] at hv
    rw [pureHasher.hashFullNodeChildren]
    cases hk : pureHasher.hashSlots E h 16 Children with
    | none => rw [hk] at hv; simp at hv
    | some q => exact ⟨_, rfl⟩
  · intro collapsed cached h1 hc
    rw [pureHasher.hashFullNodeChildren] at hc
    cases hk : pureHasher.hashSlots E h 16 Children with
    | none => rw [hk] at hc; simp at hc
    | some q =>
      obtain ⟨cs, ks, h2⟩ := q
      rw [hk] at hc
      simp only [Option.some.injEq, Prod.mk.injEq] at hc
      obtain ⟨rfl, rfl, -⟩ := hc
      have hv := hashSlots_views E Children 16 h
      rw [hk] at hv
      have hs : slotsResult E 16 Children = some (cs, ks) := by rw [← hv]; rfl
      obtain ⟨-, -, hi⟩ := slotsResult_spec E Children 16 cs ks hs
      refine ⟨rfl, rfl, fun i hlt => ⟨fun hn => ?_, fun child hch => ?_⟩, ?_, ?_⟩
      · exact (hi i).1 hlt hn
      · obtain ⟨cc, kc, hr, ha, hb⟩ := (hi i).2.1 hlt child hch
        exact ⟨cc, kc, fun h0 => hash_of_hashResult E h0 child cc kc false hr, ha, hb⟩
      · exact ((hi 16).2.2 (Nat.le_refl 16)).1
      · exact ((hi 16).2.2 (Nat.le_refl 16)).2

/-- Witness of C13: seventeen slots with a leaf in slot 3, a value in slot 16 and nil
elsewhere. -/
theorem hashFullNodeChildren_spec_witness :
    ∃ collapsed cached h1,
      pureHasher.hashFullNodeChildren rlpCollab freshHasher
        ([none, none, none, some (.shortNode [2, 16] (.valueNode [5]) ⟨none, true⟩)] ++
          List.replicate 12 none ++ [some (.valueNode [9])]) ⟨none, true⟩ =
        some (collapsed, cached, h1) ∧
      collapsed.slots[0]? = some (some nilValueNode) ∧ cached.slots[0]? = some none ∧
      (∃ cc kc, (∀ h0, ∃ h2, pureHasher.hash rlpCollab h0
          (.shortNode [2, 16] (.valueNode [5]) ⟨none, true⟩) false = some (cc, kc, h2)) ∧
        collapsed.slots[3]? = some (some cc) ∧ cached.slots[3]? = some (some kc)) ∧
      collapsed.slots[16]? = some (some (.valueNode [9])) ∧
      cached.slots[16]? = some (some (.valueNode [9])) := by
  have hw := hashFullNodeChildren_spec rlpCollab freshHasher
    ([none, none, none, some (.shortNode [2, 16] (.valueNode [5]) ⟨none, true⟩)] ++
      List.replicate 12 none ++ [some (.valueNode [9])]) ⟨none, true⟩
  obtain ⟨⟨collapsed, cached, h1⟩, hr⟩ := hw.1 rlpCollab_encodesAll
  obtain ⟨-, -, hi, h16a, h16b⟩ := hw.2 collapsed cached h1 hr
  have h0 := (hi 0 (by decide)).1 rfl
  have h3 := (hi 3 (by decide)).2 (.shortNode [2, 16] (.valueNode [5]) ⟨none, true⟩) rfl
  exact ⟨collapsed, cached, h1, hr, h0.1, h0.2, h3, h16a, h16b⟩

/-- C17 (a leaf hashed with `force`): for a short node without cached digest whose value
is a value node, `hash(n, true)` returns as `hashed` the hash node
`digest(encode(n'))`, 32 bytes long, where `n'` is `n` with the key `hexToCompact Key`
(the packing applied once to the hex key) and the same value and flags; the cached view
is `n` carrying that digest.  The encoder and the digest function are each called once.
Here `enc` is the encoding of `n'`. -/
theorem hash_force_leaf (E : Collab) (h : pureHasher) (Key v : List Nat) (flags : nodeFlag)
    (enc : List Nat) (hf : flags.hash = none)
    (he : E.encode (.shortNode (E.hexToCompact Key) (.valueNode v) flags) = some enc) :
    ∃ h1,
      pureHasher.hash E h (.shortNode Key (.valueNode v) flags) true =
        some (.hashNode (digest E enc),
          .shortNode Key (.valueNode v) { flags with hash := some (digest E enc) }, h1) ∧
      (digest E enc).length = 32 ∧
      h1.encodeCalls = h.encodeCalls + 1 ∧ h1.digestCalls = h.digestCalls + 1 := by
  have hc : h.hashChildren E (.shortNode Key (.valueNode v) flags) =
      some (.shortNode (E.hexToCompact Key) (.valueNode v) flags,
        .shortNode Key (.valueNode v) flags, h) := by
    simp only [pureHasher.hashChildren]
    exact hashShortNodeChildren_of_leaf E h Key (.valueNode v) flags rfl
  have hr := hash_of_children E h (.shortNode Key (.valueNode v) flags) true _ _ h hf hc
  rw [shortnodeToHash_eq, he] at hr
  simp only [Bool.true_eq_false, and_false, if_false] at hr
  exact ⟨_, hr, digest_length E enc, rfl, rfl⟩

/-- Witness of C17: the leaf `[1, 2, 16] ↦ [5]`, whose collapsed form has the key
`[32, 18]` and the encoding `[196, 130, 32, 18, 5]`. -/
theorem hash_force_leaf_witness :
    ∃ h1,
      pureHasher.hash rlpCollab freshHasher
        (.shortNode [1, 2, 16] (.valueNode [5]) ⟨none, true⟩) true =
        some (.hashNode (digest rlpCollab [196, 130, 32, 18, 5]),
          .shortNode [1, 2, 16] (.valueNode [5])
            ⟨some (digest rlpCollab [196, 130, 32, 18, 5]), true⟩, h1) ∧
      (digest rlpCollab [196, 130, 32, 18, 5]).length = 32 ∧
      h1.encodeCalls = 1 ∧ h1.digestCalls = 1 :=
  hash_force_leaf rlpCollab freshHasher [1, 2, 16] [5] ⟨none, true⟩
    [196, 130, 32, 18, 5] rfl rfl

/-! ## Encoding failures -/

/-- The last step of a run fails exactly when the encoder does. -/
theorem toHashResult_none_iff (E : Collab) (n : node) (force : Bool) :
    toHashResult E n force = none ↔ E.encode n = none := by
  unfold toHashResult
  cases he : E.encode n with
  | none => simp
  | some enc =>
    simp only [reduceCtorEq, iff_false]
    split <;> simp

mutual
/-- A run has no result exactly when the encoder fails on one of the nodes passed to
it. -/
theorem hashResult_none_iff (E : Collab) : ∀ (n : node) (force : Bool),
    hashResult E n force = none ↔ ∃ c, c ∈ encodeRequests E n ∧ E.encode c = none
  | .shortNode Key Val flags, force => by
    rw [hashResult, encodeRequests]
    cases hf : flags.hash with
    | some d => simp
    | none =>
      simp only
      have ih := hashResult_none_iff E Val false
      cases hb : Val.isBranch with
      | false =>
        simp only [Bool.false_eq_true, if_false, List.nil_append, List.mem_singleton,
          exists_eq_left]
        cases ht : toHashResult E (.shortNode (E.hexToCompact Key) Val flags) force with
        | none => simpa using (toHashResult_none_iff E _ force).1 ht
        | some a =>
          simp only [reduceCtorEq, false_iff]
          intro hn
          rw [(toHashResult_none_iff E _ force).2 hn] at ht
          simp at ht
      | true =>
        simp only [if_true]
        cases hv : hashResult E Val false with
        | none => simpa using ih.1 hv
        | some r =>
          obtain ⟨cv, kv⟩ := r
          have hall : ∀ c, c ∈ encodeRequests E Val → E.encode c ≠ none := by
            intro c hc hn
            have := ih.2 ⟨c, hc, hn⟩
            rw [hv] at this; simp at this
          simp only [List.mem_append, List.mem_singleton]
          unfold toHashResult
          cases he : E.encode (.shortNode (E.hexToCompact Key) cv flags) with
          | none => simp only [true_iff]; exact ⟨_, Or.inr rfl, he⟩
          | some enc =>
            have hne : ¬ ∃ c, (c ∈ encodeRequests E Val ∨
                c = .shortNode (E.hexToCompact Key) cv flags) ∧ E.encode c = none := by
              rintro ⟨c, hc | hc, hn⟩
              · exact hall c hc hn
              · rw [hc, he] at hn; simp at hn
            have ht : ∃ a, (if (enc.length < 32 && !force) = true
                then some (node.shortNode (E.hexToCompact Key) cv flags)
                else some (node.hashNode (digest E enc))) = some a := by
              split <;> exact ⟨_, rfl⟩
            obtain ⟨a, ha⟩ := ht
            simp only [ha, reduceCtorEq, false_iff]
            exact hne
  | .fullNode Children flags, force => by
    rw [hashResult, encodeRequests]
    cases hf : flags.hash with
    | some d => simp
    | none =>
      simp only
      have ih := slotsResult_none_iff E Children 16
      cases hv : slotsResult E 16 Children with
      | none => simpa using ih.1 hv
      | some r =>
        obtain ⟨cs, ks⟩ := r
        have hall : ∀ c, c ∈ slotRequests E 16 Children → E.encode c ≠ none := by
          intro c hc hn
          have := ih.2 ⟨c, hc, hn⟩
          rw [hv] at this; simp at this
        simp only [List.mem_append, List.mem_singleton]
        unfold toHashResult
        cases he : E.encode (.fullNode cs flags) with
        | none => simp only [true_iff]; exact ⟨_, Or.inr rfl, he⟩
        | some enc =>
          have hne : ¬ ∃ c, (c ∈ slotRequests E 16 Children ∨ c = .fullNode cs flags) ∧
              E.encode c = none := by
            rintro ⟨c, hc | hc, hn⟩
            · exact hall c hc hn
            · rw [hc, he] at hn; simp at hn
          have ht : ∃ a, (if (enc.length < 32 && !force) = true
              then some (node.fullNode cs flags)
              else some (node.hashNode (digest E enc))) = some a := by
            split <;> exact ⟨_, rfl⟩
          obtain ⟨a, ha⟩ := ht
          simp only [ha, reduceCtorEq, false_iff]
          exact hne
  | .hashNode b, force => by rw [hashResult, encodeRequests]; simp
  | .valueNode b, force => by rw [hashResult, encodeRequests]; simp

/-- The loop has no result exactly when the encoder fails on one of the nodes passed to
it. -/
theorem slotsResult_none_iff (E : Collab) : ∀ (cs : List (Option node)) (k : Nat),
    slotsResult E k cs = none ↔ ∃ c, c ∈ slotRequests E k cs ∧ E.encode c = none
  | cs, 0 => by rw [slotsResult, slotRequests]; simp
  | [], k + 1 => by rw [slotsResult, slotRequests]; simp
  | none :: rest, k + 1 => by
    rw [slotsResult, slotRequests, ← slotsResult_none_iff E rest k]
    cases slotsResult E k rest <;> simp
  | some child :: rest, k + 1 => by
    rw [slotsResult, slotRequests]
    have ih := hashResult_none_iff E child false
    have ihs := slotsResult_none_iff E rest k
    cases hv : hashResult E child false with
    | none => simpa using ih.1 hv
    | some r =>
      have hall : ∀ c, c ∈ encodeRequests E child → E.encode c ≠ none := by
        intro c hc hn
        have := ih.2 ⟨c, hc, hn⟩
        rw [hv] at this; simp at this
      simp only [List.mem_append]
      cases hs : slotsResult E k rest with
      | none =>
        obtain ⟨c, hc, hn⟩ := ihs.1 hs
        simp only [true_iff]
        exact ⟨c, Or.inr hc, hn⟩
      | some q =>
        simp only [false_iff, reduceCtorEq]
        rintro ⟨c, hc | hc, hn⟩
        · exact hall c hc hn
        · have := ihs.2 ⟨c, hc, hn⟩
          rw [hs] at this; simp at this
end

/-- Each call of `shortnodeToHash` that returns has called the encoder once. -/
theorem shortnodeToHash_encodeCalls (E : Collab) (h h1 : pureHasher) (n a : node) (force : Bool)
    (hr : h.shortnodeToHash E n force = some (a, h1)) :
    h1.encodeCalls = h.encodeCalls + 1 := by
  rw [shortnodeToHash_eq] at hr
  cases he : E.encode n with
  | none => rw [he] at hr; simp at hr
  | some enc =>
    rw [he] at hr
    simp only at hr
    split at hr
    · simp only [Option.some.injEq, Prod.mk.injEq] at hr
      rw [← hr.2]
    · simp only [Option.some.injEq, Prod.mk.injEq] at hr
      rw [← hr.2]

/-- The encoder calls of a run on a short or full node without cached digest: those of
the children step, then one. -/
theorem hash_encodeCalls_step (E : Collab) (h h1 h2 : pureHasher) (n collapsed cached a b : node)
    (force : Bool) (hn : n.cache.1 = none)
    (hc : h.hashChildren E n = some (collapsed, cached, h1))
    (hr : pureHasher.hash E h n force = some (a, b, h2)) :
    h2.encodeCalls = h1.encodeCalls + 1 := by
  rw [hash_of_children E h n force collapsed cached h1 hn hc] at hr
  cases hs : h1.shortnodeToHash E collapsed force with
  | none => rw [hs] at hr; simp at hr
  | some p =>
    obtain ⟨x, h3⟩ := p
    rw [hs] at hr
    simp only [Option.some.injEq, Prod.mk.injEq] at hr
    obtain ⟨-, -, rfl⟩ := hr
    exact shortnodeToHash_encodeCalls E h1 h3 collapsed x force hs

mutual
/-- The instrumentation counter of the hasher agrees with `encodeRequests`: a run that
returns has called the encoder once for each listed node. -/
theorem hash_encodeCalls (E : Collab) : ∀ (n : node) (h : pureHasher) (force : Bool)
    (a b : node) (h1 : pureHasher), pureHasher.hash E h n force = some (a, b, h1) →
    h1.encodeCalls = h.encodeCalls + (encodeRequests E n).length
  | .shortNode Key Val flags, h, force, a, b, h1, hr => by
    rw [encodeRequests]
    cases hf : flags.hash with
    | some d =>
      rw [hash_of_cache E h (.shortNode Key Val flags) force d hf] at hr
      simp only [Option.some.injEq, Prod.mk.injEq] at hr
      rw [← hr.2.2]; rfl
    | none =>
      simp only
      cases hb : Val.isBranch with
      | false =>
        have hc : h.hashChildren E (.shortNode Key Val flags) = some
            (.shortNode (E.hexToCompact Key) Val flags, .shortNode Key Val flags, h) :=
          hashShortNodeChildren_of_leaf E h Key Val flags hb
        have := hash_encodeCalls_step E h h h1 (.shortNode Key Val flags) _ _ a b force hf hc hr
        simpa using this
      | true =>
        cases hv : pureHasher.hash E h Val false with
        | none =>
          have hp := hashResult_of_hash E h h1 (.shortNode Key Val flags) a b force hr
          obtain ⟨cv, kv, hq, -, -⟩ := hashResult_shortNode E Key Val flags force a b hf hp
          rw [hb, if_pos rfl, ← hash_views E Val h false, hv] at hq
          simp at hq
        | some r =>
          obtain ⟨cv, kv, h2⟩ := r
          have ih := hash_encodeCalls E Val h false cv kv h2 hv
          have hc : h.hashChildren E (.shortNode Key Val flags) = some
              (.shortNode (E.hexToCompact Key) cv flags, .shortNode Key kv flags, h2) := by
            simp only [pureHasher.hashChildren]
            rw [hashShortNodeChildren_of_branch E h Key Val flags hb, hv]
          have hs := hash_encodeCalls_step E h h2 h1 (.shortNode Key Val flags) _ _ a b force hf hc hr
          rw [hashResult_of_hash E h h2 Val cv kv false hv]
          simp only [if_true, List.length_append, List.length_singleton]
          omega
  | .fullNode Children flags, h, force, a, b, h1, hr => by
    rw [encodeRequests]
    cases hf : flags.hash with
    | some d =>
      rw [hash_of_cache E h (.fullNode Children flags) force d hf] at hr
      simp only [Option.some.injEq, Prod.mk.injEq] at hr
      rw [← hr.2.2]; rfl
    | none =>
      simp only
      cases hv : pureHasher.hashSlots E h 16 Children with
      | none =>
        have hp := hashResult_of_hash E h h1 (.fullNode Children flags) a b force hr
        obtain ⟨cs, ks, hq, -, -⟩ := hashResult_fullNode E Children flags force a b hf hp
        rw [← hashSlots_views E Children 16 h, hv] at hq
        simp at hq
      | some r =>
        obtain ⟨cs, ks, h2⟩ := r
        have ih := hashSlots_encodeCalls E Children 16 h cs ks h2 hv
        have hc : h.hashChildren E (.fullNode Children flags) = some
            (.fullNode cs flags, .fullNode ks flags, h2) := by
          simp only [pureHasher.hashChildren, pureHasher.hashFullNodeChildren, hv]
        have hs := hash_encodeCalls_step E h h2 h1 (.fullNode Children flags) _ _ a b force hf hc hr
        have hq : slotsResult E 16 Children = some (cs, ks) := by
          rw [← hashSlots_views E Children 16 h, hv]; rfl
        rw [hq]
        simp only [List.length_append, List.length_singleton]
        omega
  | .hashNode x, h, force, a, b, h1, hr => by
    rw [hash_of_leaf E h (.hashNode x) force rfl] at hr
    simp only [Option.some.injEq, Prod.mk.injEq] at hr
    rw [← hr.2.2, encodeRequests]; rfl
  | .valueNode x, h, force, a, b, h1, hr => by
    rw [hash_of_leaf E h (.valueNode x) force rfl] at hr
    simp only [Option.some.injEq, Prod.mk.injEq] at hr
    rw [← hr.2.2, encodeRequests]; rfl

/-- The same for the loop of `hashFullNodeChildren`. -/
theorem hashSlots_encodeCalls (E : Collab) : ∀ (cs : List (Option node)) (k : Nat)
    (h : pureHasher) (a b : List (Option node)) (h1 : pureHasher),
    pureHasher.hashSlots E h k cs = some (a, b, h1) →
    h1.encodeCalls = h.encodeCalls + (slotRequests E k cs).length
  | cs, 0, h, a, b, h1, hr => by
    rw [pureHasher.hashSlots] at hr
    simp only [Option.some.injEq, Prod.mk.injEq] at hr
    rw [← hr.2.2, slotRequests]; rfl
  | [], k + 1, h, a, b, h1, hr => by
    rw [pureHasher.hashSlots] at hr
    simp only [Option.some.injEq, Prod.mk.injEq] at hr
    rw [← hr.2.2, slotRequests]; rfl
  | none :: rest, k + 1, h, a, b, h1, hr => by
    rw [pureHasher.hashSlots] at hr
    rw [slotRequests]
    cases hv : pureHasher.hashSlots E h k rest with
    | none => rw [hv] at hr; simp at hr
    | some r =>
      obtain ⟨cs, ks, h2⟩ := r
      rw [hv] at hr
      simp only [Option.some.injEq, Prod.mk.injEq] at hr
      rw [← hr.2.2]
      exact hashSlots_encodeCalls E rest k h cs ks h2 hv
  | some child :: rest, k + 1, h, a, b, h1, hr => by
    rw [pureHasher.hashSlots] at hr
    rw [slotRequests]
    cases hc : pureHasher.hash E h child false with
    | none => rw [hc] at hr; simp at hr
    | some r =>
      obtain ⟨cc, kc, h2⟩ := r
      rw [hc] at hr
      simp only at hr
      cases hv : pureHasher.hashSlots E h2 k rest with
      | none => rw [hv] at hr; simp at hr
      | some q =>
        obtain ⟨cs, ks, h3⟩ := q
        rw [hv] at hr
        simp only [Option.some.injEq, Prod.mk.injEq] at hr
        rw [← hr.2.2, hashResult_of_hash E h h2 child cc kc false hc]
        have i1 := hash_encodeCalls E child h false cc kc h2 hc
        have i2 := hashSlots_encodeCalls E rest k h2 cs ks h3 hv
        simp only [List.length_append]
        omega
end

mutual
/-- Only short and full nodes are passed to the encoder. -/
theorem encodeRequests_isBranch (E : Collab) : ∀ (n : node) (c : node),
    c ∈ encodeRequests E n → c.isBranch = true
  | .shortNode Key Val flags, c, hc => by
    rw [encodeRequests] at hc
    cases hf : flags.hash with
    | some d => rw [hf] at hc; simp at hc
    | none =>
      rw [hf] at hc
      simp only at hc
      have ih := encodeRequests_isBranch E Val c
      cases hv : (if Val.isBranch then hashResult E Val false else some (Val, Val)) with
      | none => rw [hv] at hc; exact ih hc
      | some r =>
        rw [hv] at hc
        simp only [List.mem_append, List.mem_singleton] at hc
        rcases hc with hc | hc
        · split at hc
          · exact ih hc
          · simp at hc
        · rw [hc]; rfl
  | .fullNode Children flags, c, hc => by
    rw [encodeRequests] at hc
    cases hf : flags.hash with
    | some d => rw [hf] at hc; simp at hc
    | none =>
      rw [hf] at hc
      simp only at hc
      have ih := slotRequests_isBranch E Children 16 c
      cases hv : slotsResult E 16 Children with
      | none => rw [hv] at hc; exact ih hc
      | some r =>
        rw [hv] at hc
        simp only [List.mem_append, List.mem_singleton] at hc
        rcases hc with hc | hc
        · exact ih hc
        · rw [hc]; rfl
  | .hashNode b, c, hc => by rw [encodeRequests] at hc; simp at hc
  | .valueNode b, c, hc => by rw [encodeRequests] at hc; simp at hc

/-- Only short and full nodes are passed to the encoder by the loop. -/
theorem slotRequests_isBranch (E : Collab) : ∀ (cs : List (Option node)) (k : Nat) (c : node),
    c ∈ slotRequests E k cs → c.isBranch = true
  | cs, 0, c, hc => by rw [slotRequests] at hc; simp at hc
  | [], k + 1, c, hc => by rw [slotRequests] at hc; simp at hc
  | none :: rest, k + 1, c, hc => by
    rw [slotRequests] at hc
    exact slotRequests_isBranch E rest k c hc
  | some child :: rest, k + 1, c, hc => by
    rw [slotRequests] at hc
    cases hv : hashResult E child false with
    | none => rw [hv] at hc; exact encodeRequests_isBranch E child c hc
    | some r =>
      rw [hv] at hc
      simp only [List.mem_append] at hc
      rcases hc with hc | hc
      · exact encodeRequests_isBranch E child c hc
      · exact slotRequests_isBranch E rest k c hc
end

/-- C14 (an encoding failure aborts the whole call): when the encoder fails on one of
the collapsed nodes that the run of `hash(n, force)` passes to it, at any depth, the call
returns no `(hashed, cached)` pair; when the encoder succeeds on every node it is asked to
encode, the call returns, having called the encoder once for each of them.  The nodes
passed to the encoder are short or full nodes. -/
theorem hash_aborts_on_encoding_failure (E : Collab) (h : pureHasher) (n : node)
    (force : Bool) :
    ((∃ c, c ∈ encodeRequests E n ∧ E.encode c = none) →
      pureHasher.hash E h n force = none) ∧
    ((∀ c, c ∈ encodeRequests E n → E.encode c ≠ none) →
      ∃ hashed cached h1, pureHasher.hash E h n force = some (hashed, cached, h1) ∧
        h1.encodeCalls = h.encodeCalls + (encodeRequests E n).length) ∧
    (∀ c, c ∈ encodeRequests E n → c.isBranch = true) := by
  have hiff := hashResult_none_iff E n force
  have hv := hash_views E n h force
  refine ⟨fun hex => ?_, fun hall => ?_, encodeRequests_isBranch E n⟩
  · rw [hiff.2 hex] at hv
    cases hr : pureHasher.hash E h n force with
    | none => rfl
    | some r => rw [hr] at hv; simp at hv
  · cases hr : pureHasher.hash E h n force with
    | none =>
      rw [hr] at hv
      obtain ⟨c, hc, hn⟩ := hiff.1 hv.symm
      exact absurd hn (hall c hc)
    | some r =>
      obtain ⟨a, b, h1⟩ := r
      exact ⟨a, b, h1, rfl, hash_encodeCalls E n h force a b h1 hr⟩

/-- Witness of C14, with the encoder `pickyCollab` that rejects a full node holding a
hash node in slot 0.  An extension over such a full node (its first child carries a
cached digest) is not hashed: the call aborts in the child.  A leaf is hashed, with one
call of the encoder. -/
theorem hash_aborts_on_encoding_failure_witness :
    pureHasher.hash pickyCollab freshHasher
      (.shortNode [1]
        (.fullNode ([some (.shortNode [2, 16] (.valueNode [5]) ⟨some [7], false⟩)] ++
          List.replicate 16 none) ⟨none, true⟩) ⟨none, true⟩) false = none ∧
    ∃ hashed cached h1,
      pureHasher.hash pickyCollab freshHasher
        (.shortNode [1, 2, 16] (.valueNode [5]) ⟨none, true⟩) false =
        some (hashed, cached, h1) ∧
      h1.encodeCalls = 1 := by
  constructor
  · exact (hash_aborts_on_encoding_failure pickyCollab freshHasher
      (.shortNode [1]
        (.fullNode ([some (.shortNode [2, 16] (.valueNode [5]) ⟨some [7], false⟩)] ++
          List.replicate 16 none) ⟨none, true⟩) ⟨none, true⟩) false).1
      ⟨node.fullNode ([some (node.hashNode [7])] ++ List.replicate 15 (some nilValueNode) ++
        [none]) ⟨none, true⟩, List.mem_singleton_self _, by simp [pickyCollab]⟩
  · exact (hash_aborts_on_encoding_failure pickyCollab freshHasher
      (.shortNode [1, 2, 16] (.valueNode [5]) ⟨none, true⟩) false).2.1
      (by intro c hc; simp [encodeRequests, node.isBranch] at hc; rw [hc]; simp [pickyCollab])

/-! ## The pool and the scratch buffer -/

/-- C15 is false as stated: the hasher that hashed the leaf `[1, 2, 16] ↦ [5]` holds the
five bytes of the encoding in its scratch buffer; `returnPureHasherToPool` puts it into
the pool as it is, and the next `newPureHasher` hands out that instance with the five
bytes still in the buffer. -/
theorem pool_release_keeps_scratch :
    ∃ hashed cached h1,
      pureHasher.hash rlpCollab freshHasher
        (.shortNode [1, 2, 16] (.valueNode [5]) ⟨none, true⟩) false =
        some (hashed, cached, h1) ∧
      h1.tmp = [196, 130, 32, 18, 5] ∧
      (returnPureHasherToPool ⟨[]⟩ h1).items = [h1] ∧
      (newPureHasher (returnPureHasherToPool ⟨[]⟩ h1)).1 = h1 ∧
      (newPureHasher (returnPureHasherToPool ⟨[]⟩ h1)).1.tmp.length = 5 := by
  have hc : freshHasher.hashChildren rlpCollab
      (.shortNode [1, 2, 16] (.valueNode [5]) ⟨none, true⟩) =
      some (.shortNode [32, 18] (.valueNode [5]) ⟨none, true⟩,
        .shortNode [1, 2, 16] (.valueNode [5]) ⟨none, true⟩, freshHasher) :=
    hashShortNodeChildren_of_leaf rlpCollab freshHasher [1, 2, 16] (.valueNode [5])
      ⟨none, true⟩ rfl
  have hr := hash_of_children rlpCollab freshHasher
    (.shortNode [1, 2, 16] (.valueNode [5]) ⟨none, true⟩) false _ _ freshHasher rfl hc
  rw [shortnodeToHash_eq] at hr
  have he : rlpCollab.encode (.shortNode [32, 18] (.valueNode [5]) ⟨none, true⟩) =
      some [196, 130, 32, 18, 5] := rfl
  rw [he] at hr
  simp only [List.length_cons, List.length_nil, and_true] at hr
  rw [if_pos (by decide)] at hr
  exact ⟨_, _, _, hr, rfl, rfl, rfl, rfl⟩

/-- C15 amended: `returnPureHasherToPool` puts the hasher into the pool as it is, scratch
buffer included, and the next `newPureHasher` hands that instance out unchanged.  The
buffer is emptied at the start of every `shortnodeToHash` and `fullnodeToHash`: after a
call that returns, it holds exactly the encoding of the node at hand, whatever it held
before.  So the results of `hash` on a hasher taken from the pool are those of a new
hasher. -/
theorem pool_release_spec (E : Collab) (pureHasherPool : Pool) (h : pureHasher) :
    (returnPureHasherToPool pureHasherPool h).items = h :: pureHasherPool.items ∧
    newPureHasher (returnPureHasherToPool pureHasherPool h) = (h, pureHasherPool) ∧
    (∀ n force r h1, h.shortnodeToHash E n force = some (r, h1) →
      E.encode n = some h1.tmp) ∧
    (∀ n force r h1, h.fullnodeToHash E n force = some (r, h1) →
      E.encode n = some h1.tmp) ∧
    (∀ n force,
      (pureHasher.hash E (newPureHasher (returnPureHasherToPool pureHasherPool h)).1
        n force).map views =
      (pureHasher.hash E Pool.New n force).map views) := by
  have key : ∀ n force r h1, h.shortnodeToHash E n force = some (r, h1) →
      E.encode n = some h1.tmp := by
    intro n force r h1 hr
    rw [shortnodeToHash_eq] at hr
    cases he : E.encode n with
    | none => rw [he] at hr; simp at hr
    | some enc =>
      rw [he] at hr
      simp only at hr
      split at hr
      · simp only [Option.some.injEq, Prod.mk.injEq] at hr
        rw [← hr.2]
      · simp only [Option.some.injEq, Prod.mk.injEq] at hr
        rw [← hr.2]
  refine ⟨rfl, rfl, key, key, ?_⟩
  intro n force
  rw [hash_views, hash_views]

/-! ## Small leaves -/

/-- The RLP of a byte string under 56 bytes takes at most one byte more. -/
theorem rlpBytes_length_le (b : List Nat) (hb : b.length < 56) :
    (rlpBytes b).length ≤ b.length + 1 := by
  unfold rlpBytes
  split
  · split <;> simp [rlpHeader]
  · simp [rlpHeader, hb]

/-- The RLP of a two-byte string takes three bytes. -/
theorem rlpBytes_length_two (x y : Nat) : (rlpBytes [x, y]).length = 3 := by
  simp [rlpBytes, rlpHeader]

/-- The compact form of a two-nibble key takes two bytes. -/
theorem hexToCompact_two_nibbles (Key : List Nat) (a b : Nat)
    (hk : Key = [a, b, 16] ∨ (Key = [a, b] ∧ b ≠ 16)) :
    ∃ x y, hexToCompact Key = [x, y] := by
  rcases hk with rfl | ⟨rfl, hb⟩
  · exact ⟨32, (a <<< 4) % 256 ||| b, by simp [hexToCompact, hasTerm, decodeNibbles]⟩
  · exact ⟨0, (a <<< 4) % 256 ||| b, by simp [hexToCompact, hasTerm, decodeNibbles, hb]⟩

/-- The RLP of a leaf with a two-byte key and a value under 27 bytes takes under 32
bytes. -/
theorem rlpNode_small_leaf (x y : Nat) (v : List Nat) (flags : nodeFlag)
    (hv : v.length < 27) :
    (rlpNode (.shortNode [x, y] (.valueNode v) flags)).length < 32 := by
  have h1 := rlpBytes_length_le v (by omega)
  have h2 := rlpBytes_length_two x y
  rw [rlpNode, rlpNode]
  unfold rlpList rlpHeader
  have h3 : (rlpBytes [x, y] ++ rlpBytes v).length < 56 := by
    rw [List.length_append]; omega
  rw [if_pos h3]
  simp only [List.length_append, List.length_singleton] at h3 ⊢
  omega

/-- C16 is false as stated, on two counts.  A leaf with the two-nibble key `[1, 2, 16]`
and a value of 27 bytes (fewer than 30) has an RLP encoding of 32 bytes, so without
`force` it is hashed to a digest, not inlined.  A leaf with the same key and the value
`[5]` is inlined, but `hashed` is the collapsed copy with the compact key `[32, 18]`, not
the input node. -/
theorem hash_small_leaf_not_itself :
    (List.replicate 27 7).length < 30 ∧
    (rlpNode (.shortNode (hexToCompact [1, 2, 16]) (.valueNode (List.replicate 27 7))
      ⟨none, true⟩)).length = 32 ∧
    (∃ hashed cached h1,
      pureHasher.hash rlpCollab freshHasher
        (.shortNode [1, 2, 16] (.valueNode (List.replicate 27 7)) ⟨none, true⟩) false =
        some (hashed, cached, h1) ∧
      hashed.variant = Variant.hash ∧
      hashed ≠ .shortNode [1, 2, 16] (.valueNode (List.replicate 27 7)) ⟨none, true⟩) ∧
    ∃ hashed cached h1,
      pureHasher.hash rlpCollab freshHasher
        (.shortNode [1, 2, 16] (.valueNode [5]) ⟨none, true⟩) false =
        some (hashed, cached, h1) ∧
      hashed = .shortNode [32, 18] (.valueNode [5]) ⟨none, true⟩ ∧
      hashed ≠ .shortNode [1, 2, 16] (.valueNode [5]) ⟨none, true⟩ := by
  refine ⟨by decide, by decide, ?_, ?_⟩
  · obtain ⟨h1, hh⟩ := hash_of_hashResult rlpCollab freshHasher
      (.shortNode [1, 2, 16] (.valueNode (List.replicate 27 7)) ⟨none, true⟩)
      (.hashNode (digest rlpCollab (rlpNode (.shortNode (hexToCompact [1, 2, 16])
        (.valueNode (List.replicate 27 7)) ⟨none, true⟩))))
      (.shortNode [1, 2, 16] (.valueNode (List.replicate 27 7))
        ⟨some (digest rlpCollab (rlpNode (.shortNode (hexToCompact [1, 2, 16])
          (.valueNode (List.replicate 27 7)) ⟨none, true⟩))), true⟩) false rfl
    exact ⟨_, _, h1, hh, rfl, fun he => by simp at he⟩
  · obtain ⟨h1, hh⟩ := hash_of_hashResult rlpCollab freshHasher
      (.shortNode [1, 2, 16] (.valueNode [5]) ⟨none, true⟩)
      (.shortNode [32, 18] (.valueNode [5]) ⟨none, true⟩)
      (.shortNode [1, 2, 16] (.valueNode [5]) ⟨none, true⟩) false rfl
    refine ⟨_, _, h1, hh, rfl, ?_⟩
    intro he
    simp only [node.shortNode.injEq] at he
    exact absurd he.1 (by decide)

/-- C16 amended: with RLP as binary encoder and any digest function, for a short node
without cached digest with a two-nibble key (`[a, b, 16]` with the terminator, or
`[a, b]`) and a value node of fewer than 27 bytes, `hash(n, false)` returns as `hashed`
the collapsed copy of `n` (the two-byte compact key in place of the hex key, the same
value and flags) and as `cached` the node `n`; no digest is computed. -/
theorem hash_small_leaf_inlined (keccak : List Nat → Nat → Nat) (h : pureHasher)
    (Key : List Nat) (a b : Nat) (v : List Nat) (flags : nodeFlag)
    (hf : flags.hash = none) (hk : Key = [a, b, 16] ∨ (Key = [a, b] ∧ b ≠ 16))
    (hv : v.length < 27) :
    ∃ h1,
      pureHasher.hash (rlpWith keccak) h (.shortNode Key (.valueNode v) flags) false =
        some (.shortNode (hexToCompact Key) (.valueNode v) flags,
          .shortNode Key (.valueNode v) { flags with hash := none }, h1) ∧
      (hexToCompact Key).length = 2 ∧
      h1.digestCalls = h.digestCalls := by
  obtain ⟨x, y, hxy⟩ := hexToCompact_two_nibbles Key a b hk
  have hc : h.hashChildren (rlpWith keccak) (.shortNode Key (.valueNode v) flags) =
      some (.shortNode (hexToCompact Key) (.valueNode v) flags,
        .shortNode Key (.valueNode v) flags, h) :=
    hashShortNodeChildren_of_leaf (rlpWith keccak) h Key (.valueNode v) flags rfl
  have hr := hash_of_children (rlpWith keccak) h (.shortNode Key (.valueNode v) flags)
    false _ _ h hf hc
  rw [shortnodeToHash_eq] at hr
  have he : (rlpWith keccak).encode (.shortNode (hexToCompact Key) (.valueNode v) flags) =
      some (rlpNode (.shortNode (hexToCompact Key) (.valueNode v) flags)) := rfl
  have hlt : (rlpNode (.shortNode (hexToCompact Key) (.valueNode v) flags)).length < 32 := by
    rw [hxy]; exact rlpNode_small_leaf x y v flags hv
  rw [he] at hr
  simp only [hlt, and_self, if_true] at hr
  exact ⟨_, hr, by rw [hxy]; rfl, rfl⟩

/-- Witness of C16 amended: the key `[1, 2, 16]` and a value of 26 bytes. -/
theorem hash_small_leaf_inlined_witness :
    ∃ h1,
      pureHasher.hash (rlpWith toySponge) freshHasher
        (.shortNode [1, 2, 16] (.valueNode (List.replicate 26 7)) ⟨none, true⟩) false =
        some (.shortNode (hexToCompact [1, 2, 16]) (.valueNode (List.replicate 26 7))
            ⟨none, true⟩,
          .shortNode [1, 2, 16] (.valueNode (List.replicate 26 7)) ⟨none, true⟩, h1) ∧
      (hexToCompact [1, 2, 16]).length = 2 ∧
      h1.digestCalls = freshHasher.digestCalls :=
  hash_small_leaf_inlined toySponge freshHasher [1, 2, 16] 1 2 (List.replicate 26 7)
    ⟨none, true⟩ rfl (Or.inl rfl) (by decide)

namespace heap

/-- C20 does not hold of the code: on the short node at address 0 of `exampleMem` (the
leaf `[2, 16] ↦ [5]`), whose encoding takes 5 bytes, `shortnodeToHash` without `force`
returns the reference to that node, not nil. -/
theorem shortnodeToHash_small_not_nil :
    ∃ r h1,
      shortnodeToHash rlpMemCollab freshHasher exampleMem 0 false = some (r, h1) ∧
      h1.tmp = [196, 130, 2, 16, 5] ∧ h1.tmp.length < 32 ∧
      r = Ref.shortNode 0 ∧ r ≠ Ref.nil :=
  ⟨_, _, rfl, rfl, by decide, rfl, fun he => Ref.noConfusion he⟩

end heap

/-! ## Termination: the depth of the recursion -/

namespace heap

/-- The children step of a short node calls `hash` once at most, on the value of the node,
in a memory that extends the one it started from. -/
theorem hashShortNodeChildren_congr (E : MemCollab) (f g : HashFn) (h : pureHasher) (m : Mem)
    (p : Nat)
    (hfg : ∀ (mc : Mem) (nv : shortNode), m.preserved mc → mc.shortNodes[p]? = some nv →
      f h mc nv.Val false = g h mc nv.Val false) :
    hashShortNodeChildren E f h m p = hashShortNodeChildren E g h m p := by
  unfold hashShortNodeChildren
  cases hc1 : m.copyShort p with
  | none => rfl
  | some r1 =>
    obtain ⟨p1, ma⟩ := r1
    simp only
    obtain ⟨hp1, hpa, hla⟩ := copyShort_spec m ma p p1 hc1
    cases hc2 : ma.copyShort p with
    | none => rfl
    | some r2 =>
      obtain ⟨p2, mb⟩ := r2
      simp only
      obtain ⟨hp2, hpb, hlb⟩ := copyShort_spec ma mb p p2 hc2
      cases hn1 : mb.shortNodes[p]? with
      | none => rfl
      | some nv1 =>
        simp only
        cases hw1 : mb.writeShort p1 (fun c => { c with Key := E.hexToCompact nv1.Key }) with
        | none => rfl
        | some mc =>
          simp only
          have h0c : m.preserved mc :=
            writeShort_preserved m mb mc p1 _ (preserved_trans m ma mb hpa hpb) (by omega) hw1
          cases hn2 : mc.shortNodes[p]? with
          | none => rfl
          | some nv =>
            simp only
            have hcall := hfg mc nv h0c hn2
            cases hval : nv.Val with
            | nil => rfl
            | shortNode q => rw [hval] at hcall; simp only [hcall]
            | fullNode q => rw [hval] at hcall; simp only [hcall]
            | hashNode b => rfl
            | valueNode b => rfl

/-- One iteration of the loop of `hashFullNodeChildren` calls `hash` once at most, on the
child in the slot. -/
theorem hashFullNodeStep_congr (f g : HashFn) (n collapsed cached : Nat)
    (s : pureHasher × Mem) (i : Nat)
    (hfg : ∀ (nv : fullNode) (child : Ref), s.2.fullNodes[n]? = some nv →
      nv.Children[i]? = some child → child ≠ .nil →
      f s.1 s.2 child false = g s.1 s.2 child false) :
    hashFullNodeStep f n collapsed cached s i = hashFullNodeStep g n collapsed cached s i := by
  unfold hashFullNodeStep
  cases hn : s.2.fullNodes[n]? with
  | none => rfl
  | some nv =>
    simp only
    cases hch : nv.Children[i]? with
    | none => rfl
    | some child =>
      cases child with
      | nil => rfl
      | shortNode q => simp only [hfg nv _ hn hch (by simp)]
      | fullNode q => simp only [hfg nv _ hn hch (by simp)]
      | hashNode b => simp only [hfg nv _ hn hch (by simp)]
      | valueNode b => simp only [hfg nv _ hn hch (by simp)]

/-- The loop of `hashFullNodeChildren` calls `hash` on children of the node only, in
memories that extend the one it started from. -/
theorem hashFullNodeLoop_congr (f g : HashFn) (hf : f.frames) (m0 : Mem)
    (n collapsed cached : Nat) (hcol : m0.fullNodes.length ≤ collapsed)
    (hcac : m0.fullNodes.length ≤ cached)
    (hfg : ∀ (h1 : pureHasher) (m1 : Mem) (nv : fullNode) (child : Ref) (i : Nat),
      m0.preserved m1 → m1.fullNodes[n]? = some nv → nv.Children[i]? = some child →
      child ≠ .nil → f h1 m1 child false = g h1 m1 child false) :
    ∀ (is : List Nat) (s : pureHasher × Mem), m0.preserved s.2 →
      hashFullNodeLoop f n collapsed cached is s = hashFullNodeLoop g n collapsed cached is s
  | [], s, _ => rfl
  | i :: rest, s, h0 => by
    have hstep := hashFullNodeStep_congr f g n collapsed cached s i
      (fun nv child hn hch hne => hfg s.1 s.2 nv child i h0 hn hch hne)
    simp only [hashFullNodeLoop, ← hstep]
    cases hs : hashFullNodeStep f n collapsed cached s i with
    | none => rfl
    | some s1 =>
      simp only
      exact hashFullNodeLoop_congr f g hf m0 n collapsed cached hcol hcac hfg rest s1
        (hashFullNodeStep_frame f hf m0 n collapsed cached i s s1 h0 hcol hcac hs)

/-- The children step of a full node calls `hash` on children of the node only. -/
theorem hashFullNodeChildren_congr (f g : HashFn) (hf : f.frames) (h : pureHasher) (m : Mem)
    (n : Nat)
    (hfg : ∀ (h1 : pureHasher) (m1 : Mem) (nv : fullNode) (child : Ref) (i : Nat),
      m.preserved m1 → m1.fullNodes[n]? = some nv → nv.Children[i]? = some child →
      child ≠ .nil → f h1 m1 child false = g h1 m1 child false) :
    hashFullNodeChildren f h m n = hashFullNodeChildren g h m n := by
  unfold hashFullNodeChildren
  cases hc1 : m.copyFull n with
  | none => rfl
  | some r1 =>
    obtain ⟨p1, ma⟩ := r1
    simp only
    obtain ⟨hp1, hpa, hla⟩ := copyFull_spec m ma n p1 hc1
    cases hc2 : ma.copyFull n with
    | none => rfl
    | some r2 =>
      obtain ⟨p2, mb⟩ := r2
      simp only
      obtain ⟨hp2, hpb, hlb⟩ := copyFull_spec ma mb n p2 hc2
      rw [hashFullNodeLoop_congr f g hf m n p2 p1 (by omega) (by omega) hfg (List.range 16)
        (h, mb) (preserved_trans m ma mb hpa hpb)]

/-- A non-nil reference in a represented slot list stands for one of the trees of the
slots. -/
theorem representsSlots_child (oks okf : Nat → Bool) (m : Mem) :
    ∀ (ts : List (Option node)) (rs : List Ref) (i : Nat) (child : Ref),
      representsSlots oks okf m ts rs = true → rs[i]? = some child → child ≠ .nil →
      ∃ t, some t ∈ ts ∧ represents oks okf m t child = true
  | [], [], i, child, _, hch, _ => by simp at hch
  | [], r :: rs, i, child, hrep, _, _ => by simp [representsSlots] at hrep
  | none :: ts, [], i, child, hrep, _, _ => by simp [representsSlots] at hrep
  | some t :: ts, [], i, child, hrep, _, _ => by simp [representsSlots] at hrep
  | none :: ts, r :: rs, i, child, hrep, hch, hne => by
    cases r with
    | nil =>
      simp only [representsSlots] at hrep
      cases i with
      | zero =>
        simp only [List.getElem?_cons_zero, Option.some.injEq] at hch
        exact absurd hch.symm hne
      | succ j =>
        simp only [List.getElem?_cons_succ] at hch
        obtain ⟨t, ht, hr⟩ := representsSlots_child oks okf m ts rs j child hrep hch hne
        exact ⟨t, List.mem_cons_of_mem _ ht, hr⟩
    | shortNode q => simp [representsSlots] at hrep
    | fullNode q => simp [representsSlots] at hrep
    | hashNode b => simp [representsSlots] at hrep
    | valueNode b => simp [representsSlots] at hrep
  | some t :: ts, r :: rs, i, child, hrep, hch, hne => by
    simp only [representsSlots, Bool.and_eq_true] at hrep
    cases i with
    | zero =>
      simp only [List.getElem?_cons_zero, Option.some.injEq] at hch
      subst hch
      exact ⟨t, List.mem_cons_self _ _, hrep.1⟩
    | succ j =>
      simp only [List.getElem?_cons_succ] at hch
      obtain ⟨t1, ht, hr⟩ := representsSlots_child oks okf m ts rs j child hrep.2 hch hne
      exact ⟨t1, List.mem_cons_of_mem _ ht, hr⟩

mutual
/-- On a reference that stands for a tree, `hash` over the memory gives the same outcome
with every bound that is at least the depth of the tree: the recursion never goes deeper
than the tree does. -/
theorem hash_fuel_stable (E : MemCollab) : ∀ (t : node) (k1 k2 : Nat),
    t.depth ≤ k1 → t.depth ≤ k2 → ∀ (h : pureHasher) (m : Mem) (n : Ref) (force : Bool),
    represents anywhere anywhere m t n = true →
    hash E k1 h m n force = hash E k2 h m n force
  | .shortNode Key Val flags, k1, k2, hd1, hd2, h, m, n, force, hrep => by
    cases k1 with
    | zero => simp [node.depth] at hd1
    | succ j1 =>
      cases k2 with
      | zero => simp [node.depth] at hd2
      | succ j2 =>
        simp only [node.depth] at hd1 hd2
        obtain ⟨p, c, rfl, -, hc, -, -, hv⟩ :=
          represents_shortNode _ _ m Key Val flags n hrep
        have hfg : ∀ (mc : Mem) (nv : shortNode), m.preserved mc →
            mc.shortNodes[p]? = some nv →
            hash E j1 h mc nv.Val false = hash E j2 h mc nv.Val false := by
          intro mc nv hp hnv
          rw [(preserved_lookup m mc hp).1 p c hc] at hnv
          simp only [Option.some.injEq] at hnv
          subst hnv
          exact hash_fuel_stable E Val j1 j2 (by omega) (by omega) h mc c.Val false
            (represents_keeps anywhere anywhere m mc (keeps_of_preserved _ _ m mc hp)
              Val c.Val hv)
        simp only [hash, hashShortNodeChildren_congr E (hash E j1) (hash E j2) h m p hfg]
  | .fullNode Children flags, k1, k2, hd1, hd2, h, m, n, force, hrep => by
    cases k1 with
    | zero => simp [node.depth] at hd1
    | succ j1 =>
      cases k2 with
      | zero => simp [node.depth] at hd2
      | succ j2 =>
        simp only [node.depth] at hd1 hd2
        obtain ⟨p, c, rfl, -, hc, -, hv⟩ := represents_fullNode _ _ m Children flags n hrep
        have hfg : ∀ (h1 : pureHasher) (m1 : Mem) (nv : fullNode) (child : Ref) (i : Nat),
            m.preserved m1 → m1.fullNodes[p]? = some nv → nv.Children[i]? = some child →
            child ≠ .nil → hash E j1 h1 m1 child false = hash E j2 h1 m1 child false := by
          intro h1 m1 nv child i hp hnv hch hne
          rw [(preserved_lookup m m1 hp).2 p c hc] at hnv
          simp only [Option.some.injEq] at hnv
          subst hnv
          obtain ⟨t, ht, hr⟩ := representsSlots_child _ _ m Children c.Children i child hv
            hch hne
          exact hash_fuel_stable_slots E Children j1 j2 (by omega) (by omega) t ht h1 m1
            child false
            (represents_keeps anywhere anywhere m m1 (keeps_of_preserved _ _ m m1 hp)
              t child hr)
        simp only [hash, hashFullNodeChildren_congr (hash E j1) (hash E j2)
          (hash_frames E j1) h m p hfg]
  | .hashNode b, k1, k2, hd1, hd2, h, m, n, force, hrep => by
    cases k1 with
    | zero => simp [node.depth] at hd1
    | succ j1 =>
      cases k2 with
      | zero => simp [node.depth] at hd2
      | succ j2 =>
        rw [(represents_hashNode _ _ m b n).mp hrep]
        simp only [hash, Ref.cache]
  | .valueNode b, k1, k2, hd1, hd2, h, m, n, force, hrep => by
    cases k1 with
    | zero => simp [node.depth] at hd1
    | succ j1 =>
      cases k2 with
      | zero => simp [node.depth] at hd2
      | succ j2 =>
        rw [(represents_valueNode _ _ m b n).mp hrep]
        simp only [hash, Ref.cache]

/-- The same for the trees in the slots of a full node. -/
theorem hash_fuel_stable_slots (E : MemCollab) : ∀ (ts : List (Option node)) (k1 k2 : Nat),
    slotsDepth ts ≤ k1 → slotsDepth ts ≤ k2 → ∀ t, some t ∈ ts →
    ∀ (h : pureHasher) (m : Mem) (n : Ref) (force : Bool),
    represents anywhere anywhere m t n = true →
    hash E k1 h m n force = hash E k2 h m n force
  | [], _, _, _, _, t, ht => by simp at ht
  | none :: rest, k1, k2, hd1, hd2, t, ht => by
    simp only [slotsDepth] at hd1 hd2
    simp only [List.mem_cons] at ht
    rcases ht with ht | ht
    · simp at ht
    · exact hash_fuel_stable_slots E rest k1 k2 hd1 hd2 t ht
  | some c :: rest, k1, k2, hd1, hd2, t, ht => by
    simp only [slotsDepth] at hd1 hd2
    simp only [List.mem_cons, Option.some.injEq] at ht
    rcases ht with ht | ht
    · subst ht
      exact hash_fuel_stable E t k1 k2 (by omega) (by omega)
    · exact hash_fuel_stable_slots E rest k1 k2 (by omega) (by omega) t ht
end

end heap

namespace heap

/-- C18 (termination): on a reference `n` that stands for a tree `t` (finite, as every
tree is), `hash(n, force)` over the memory terminates: run with any bound on the depth
of the recursion that is at least the depth of `t`, it has the outcome it has with the
depth of `t` as bound, so no bound is ever reached; and it returns a result when `t` is
well formed and the encoder does not fail.  The recursive calls are made on the value of
a short node and on the children of a full node, which are strictly less deep than the
node. -/
theorem hash_terminates (E : MemCollab) (t : node) (h : pureHasher) (m : Mem) (n : Ref)
    (force : Bool)
    (hrep : represents (below m.shortNodes.length) (below m.fullNodes.length) m t n = true) :
    (∀ fuel, t.depth ≤ fuel → hash E fuel h m n force = hash E t.depth h m n force) ∧
    (EncodesTrees E → EncodesAll E.toCollab → t.wellFormed = true →
      ∃ r, hash E t.depth h m n force = some r) ∧
    (∀ Key Val flags, t = .shortNode Key Val flags → Val.depth < t.depth) ∧
    (∀ Children flags child, t = .fullNode Children flags → some child ∈ Children →
      child.depth < t.depth) := by
  have hany : represents anywhere anywhere m t n = true :=
    represents_mono _ _ _ _ m (fun _ _ => rfl) (fun _ _ => rfl) t n hrep
  refine ⟨fun fuel hd => hash_fuel_stable E t fuel t.depth hd (le_refl _) h m n force hany,
    ?_, ?_, ?_⟩
  · intro hE hall hw
    obtain ⟨⟨a, b⟩, hpure⟩ := hashResult_isSome E.toCollab hall t force
    obtain ⟨hd1, cd, h1, m1, hrun, -, -⟩ := hash_computes E hE t hw t.depth (le_refl _) h m n
      force m.shortNodes.length m.fullNodes.length a b (le_refl _) (le_refl _) hrep hpure
    exact ⟨_, hrun⟩
  · intro Key Val flags ht
    subst ht
    simp [node.depth]
  · intro Children flags child ht hmem
    subst ht
    have := depth_le_slotsDepth Children child hmem
    simp only [node.depth]
    omega

/-- Witness of C18: the extension over a full node of `exampleMem`, a tree of depth 4. -/
theorem hash_terminates_witness :
    (∀ fuel, 4 ≤ fuel →
      hash rlpMemCollab fuel freshHasher exampleMem (.shortNode 1) true =
        hash rlpMemCollab 4 freshHasher exampleMem (.shortNode 1) true) ∧
    ∃ r, hash rlpMemCollab 4 freshHasher exampleMem (.shortNode 1) true = some r :=
  ⟨(hash_terminates rlpMemCollab exampleTree freshHasher exampleMem (.shortNode 1) true
      (by decide)).1,
    (hash_terminates rlpMemCollab exampleTree freshHasher exampleMem (.shortNode 1) true
      (by decide)).2.1 rlpMemCollab_encodesTrees rlpCollab_encodesAll (by decide)⟩

end heap

/-! ## A forced digest on a small node -/

/-- The two copies made by the children step are short or full nodes. -/
theorem hashChildren_isBranch (E : Collab) (h h1 : pureHasher) (n collapsed cached : node)
    (hc : h.hashChildren E n = some (collapsed, cached, h1)) :
    collapsed.isBranch = true ∧ cached.isBranch = true := by
  cases n with
  | shortNode Key Val flags =>
    simp only [pureHasher.hashChildren] at hc
    by_cases hb : Val.isBranch = true
    · rw [hashShortNodeChildren_of_branch E h Key Val flags hb] at hc
      cases hv : pureHasher.hash E h Val false with
      | none => rw [hv] at hc; simp at hc
      | some r =>
        obtain ⟨cv, kv, h2⟩ := r
        rw [hv] at hc
        simp only [Option.some.injEq, Prod.mk.injEq] at hc
        obtain ⟨rfl, rfl, -⟩ := hc
        exact ⟨rfl, rfl⟩
    · simp only [Bool.not_eq_true] at hb
      rw [hashShortNodeChildren_of_leaf E h Key Val flags hb] at hc
      simp only [Option.some.injEq, Prod.mk.injEq] at hc
      obtain ⟨rfl, rfl, -⟩ := hc
      exact ⟨rfl, rfl⟩
  | fullNode Children flags =>
    simp only [pureHasher.hashChildren, pureHasher.hashFullNodeChildren] at hc
    cases hv : pureHasher.hashSlots E h 16 Children with
    | none => rw [hv] at hc; simp at hc
    | some r =>
      obtain ⟨cs, ks, h2⟩ := r
      rw [hv] at hc
      simp only [Option.some.injEq, Prod.mk.injEq] at hc
      obtain ⟨rfl, rfl, -⟩ := hc
      exact ⟨rfl, rfl⟩
  | hashNode b => simp [pureHasher.hashChildren] at hc
  | valueNode b => simp [pureHasher.hashChildren] at hc

/-- The digest field of a short or full node after the assignment `flags.hash = d`. -/
theorem setHash_cache (c : node) (d : Option (List Nat)) (hb : c.isBranch = true) :
    (c.setHash d).cache.1 = d := by
  cases c with
  | shortNode Key Val flags => rfl
  | fullNode Children flags => rfl
  | hashNode b => simp [node.isBranch] at hb
  | valueNode b => simp [node.isBranch] at hb

/-- C23 (a forced digest is stored on a small node): for a short or full node `n`
without cached digest whose collapsed form encodes to `enc`, fewer than 32 bytes,
`hash(n, true)` returns the hash node `digest(enc)`, 32 bytes long, and a cached view `c`
whose digest field holds that digest; `hash(c, false)` then returns that digest as
`hashed`, from every hasher state; `hash(n, false)` returns the collapsed node inline,
which is not that hash node. -/
theorem hash_forced_digest_stored (E : Collab) (h : pureHasher) (n collapsed cached : node)
    (h1 : pureHasher) (enc : List Nat) (hn : n.cache.1 = none)
    (hc : h.hashChildren E n = some (collapsed, cached, h1))
    (he : E.encode collapsed = some enc) (hlt : enc.length < 32) :
    ∃ c h2 h3,
      pureHasher.hash E h n true = some (.hashNode (digest E enc), c, h2) ∧
      c.cache.1 = some (digest E enc) ∧ (digest E enc).length = 32 ∧
      (∀ h0, pureHasher.hash E h0 c false = some (.hashNode (digest E enc), c, h0)) ∧
      pureHasher.hash E h n false = some (collapsed, cached.setHash none, h3) ∧
      collapsed ≠ .hashNode (digest E enc) := by
  obtain ⟨hcb, hkb⟩ := hashChildren_isBranch E h h1 n collapsed cached hc
  have hnh : collapsed.asHashNode = none := by
    cases collapsed <;> first | rfl | simp [node.isBranch] at hcb
  have hforce := hash_of_children E h n true collapsed cached h1 hn hc
  rw [shortnodeToHash_eq, he] at hforce
  simp only [Bool.true_eq_false, and_false, if_false, node.asHashNode] at hforce
  have hplain := hash_of_children E h n false collapsed cached h1 hn hc
  rw [shortnodeToHash_eq, he] at hplain
  simp only [hlt, and_self, if_true, hnh] at hplain
  have hcache := setHash_cache cached (some (digest E enc)) hkb
  refine ⟨_, _, _, hforce, hcache, digest_length E enc, ?_, hplain, ?_⟩
  · intro h0
    exact hash_of_cache E h0 _ false (digest E enc) hcache
  · intro heq
    rw [heq] at hcb
    simp [node.isBranch] at hcb

/-- Witness of C23: the leaf `[1, 2, 16] ↦ [5]`, whose collapsed form encodes to five
bytes. -/
theorem hash_forced_digest_stored_witness :
    ∃ c h2 h3,
      pureHasher.hash rlpCollab freshHasher
        (.shortNode [1, 2, 16] (.valueNode [5]) ⟨none, true⟩) true =
        some (.hashNode (digest rlpCollab [196, 130, 32, 18, 5]), c, h2) ∧
      c.cache.1 = some (digest rlpCollab [196, 130, 32, 18, 5]) ∧
      (digest rlpCollab [196, 130, 32, 18, 5]).length = 32 ∧
      (∀ h0, pureHasher.hash rlpCollab h0 c false =
        some (.hashNode (digest rlpCollab [196, 130, 32, 18, 5]), c, h0)) ∧
      pureHasher.hash rlpCollab freshHasher
        (.shortNode [1, 2, 16] (.valueNode [5]) ⟨none, true⟩) false =
        some (.shortNode [32, 18] (.valueNode [5]) ⟨none, true⟩,
          (node.shortNode [1, 2, 16] (.valueNode [5]) ⟨none, true⟩).setHash none, h3) ∧
      node.shortNode [32, 18] (.valueNode [5]) ⟨none, true⟩ ≠
        .hashNode (digest rlpCollab [196, 130, 32, 18, 5]) :=
  hash_forced_digest_stored rlpCollab freshHasher
    (.shortNode [1, 2, 16] (.valueNode [5]) ⟨none, true⟩)
    (.shortNode [32, 18] (.valueNode [5]) ⟨none, true⟩)
    (.shortNode [1, 2, 16] (.valueNode [5]) ⟨none, true⟩) freshHasher
    [196, 130, 32, 18, 5] rfl
    (hashShortNodeChildren_of_leaf rlpCollab freshHasher [1, 2, 16] (.valueNode [5])
      ⟨none, true⟩ rfl)
    rfl (by decide)

/-! ## Inlined nodes are small -/

/-- The last step of a run returns the collapsed node, whose encoding then takes fewer
than 32 bytes, or a hash node. -/
theorem toHashResult_cases (E : Collab) (n a : node) (force : Bool)
    (hr : toHashResult E n force = some a) :
    (a = n ∧ ∃ enc, E.encode n = some enc ∧ enc.length < 32) ∨ ∃ d, a = .hashNode d := by
  unfold toHashResult at hr
  cases he : E.encode n with
  | none => rw [he] at hr; simp at hr
  | some enc =>
    rw [he] at hr
    simp only at hr
    split at hr
    · rename_i hcond
      simp only [Bool.and_eq_true, decide_eq_true_eq] at hcond
      simp only [Option.some.injEq] at hr
      exact Or.inl ⟨hr.symm, enc, rfl, hcond.1⟩
    · simp only [Option.some.injEq] at hr
      exact Or.inr ⟨_, hr.symm⟩

/-- A value node or hash node has no inline nodes. -/
theorem inlineNodes_of_leaf (n : node) (hn : n.isBranch = false) : n.inlineNodes = [] := by
  cases n with
  | shortNode Key Val flags => simp [node.isBranch] at hn
  | fullNode Children flags => simp [node.isBranch] at hn
  | hashNode b => rfl
  | valueNode b => rfl

/-- The routing slots of the collapsed copy of a full node with 17 slots all hold a
node. -/
theorem slotsResult_routing (E : Collab) (cs a b : List (Option node))
    (hl : cs.length = 17) (hr : slotsResult E 16 cs = some (a, b)) :
    a.length = 17 ∧ ∀ i, i < 16 → ∃ x, a[i]? = some (some x) := by
  obtain ⟨hla, -, hi⟩ := slotsResult_spec E cs 16 a b hr
  refine ⟨by omega, fun i hlt => ?_⟩
  have hget : ∃ s, cs[i]? = some s := by
    have : i < cs.length := by omega
    exact ⟨cs[i], List.getElem?_eq_getElem this⟩
  obtain ⟨s, hs⟩ := hget
  cases s with
  | none => exact ⟨_, ((hi i).1 hlt hs).1⟩
  | some child =>
    obtain ⟨cc, kc, -, ha, -⟩ := (hi i).2.1 hlt child hs
    exact ⟨cc, ha⟩

mutual
/-- Every node of the hashed result of a run on a well-formed tree, at the root or
reached through values and routing slots, has a small encoding and full routing
slots. -/
theorem hashResult_inlineOk (E : Collab) : ∀ (n : node) (force : Bool) (a b : node),
    n.wellFormed = true → hashResult E n force = some (a, b) →
    ∀ c, c ∈ a.inlineNodes → c.inlineOk E
  | .shortNode Key Val flags, force, a, b, hw, hr => by
    intro c hc
    cases hf : flags.hash with
    | some d =>
      rw [hashResult, hf] at hr
      simp only [Option.some.injEq, Prod.mk.injEq] at hr
      rw [← hr.1] at hc
      simp [node.inlineNodes] at hc
    | none =>
      obtain ⟨cv, kv, hval, hto, -⟩ := hashResult_shortNode E Key Val flags force a b hf hr
      rcases toHashResult_cases E _ a force hto with ⟨rfl, enc, he, hlt⟩ | ⟨d, rfl⟩
      · rw [node.inlineNodes] at hc
        simp only [List.mem_cons] at hc
        rcases hc with rfl | hc
        · exact ⟨⟨enc, he, hlt⟩, fun hv => by simp [node.variant] at hv⟩
        · by_cases hb : Val.isBranch = true
          · rw [if_pos hb] at hval
            simp only [node.wellFormed] at hw
            exact hashResult_inlineOk E Val false cv kv hw hval c hc
          · rw [if_neg hb] at hval
            simp only [Option.some.injEq, Prod.mk.injEq] at hval
            simp only [Bool.not_eq_true] at hb
            rw [← hval.1, inlineNodes_of_leaf Val hb] at hc
            simp at hc
      · simp [node.inlineNodes] at hc
  | .fullNode Children flags, force, a, b, hw, hr => by
    intro c hc
    cases hf : flags.hash with
    | some d =>
      rw [hashResult, hf] at hr
      simp only [Option.some.injEq, Prod.mk.injEq] at hr
      rw [← hr.1] at hc
      simp [node.inlineNodes] at hc
    | none =>
      obtain ⟨cs, ks, hs, hto, -⟩ := hashResult_fullNode E Children flags force a b hf hr
      simp only [node.wellFormed, Bool.and_eq_true, decide_eq_true_eq] at hw
      rcases toHashResult_cases E _ a force hto with ⟨rfl, enc, he, hlt⟩ | ⟨d, rfl⟩
      · rw [node.inlineNodes] at hc
        simp only [List.mem_cons] at hc
        rcases hc with rfl | hc
        · exact ⟨⟨enc, he, hlt⟩, fun _ => slotsResult_routing E Children cs ks hw.1 hs⟩
        · exact slotsResult_inlineOk E Children 16 cs ks hw.2 hs c hc
      · simp [node.inlineNodes] at hc
  | .hashNode x, force, a, b, _, hr => by
    intro c hc
    rw [hashResult] at hr
    simp only [Option.some.injEq, Prod.mk.injEq] at hr
    rw [← hr.1] at hc
    simp [node.inlineNodes] at hc
  | .valueNode x, force, a, b, _, hr => by
    intro c hc
    rw [hashResult] at hr
    simp only [Option.some.injEq, Prod.mk.injEq] at hr
    rw [← hr.1] at hc
    simp [node.inlineNodes] at hc

/-- The same for the nodes reached through the collapsed slots of a full node. -/
theorem slotsResult_inlineOk (E : Collab) : ∀ (cs : List (Option node)) (k : Nat)
    (a b : List (Option node)), slotsWellFormed cs = true →
    slotsResult E k cs = some (a, b) → ∀ c, c ∈ slotsInlineNodes k a → c.inlineOk E
  | cs, 0, a, b, _, _ => by
    intro c hc
    simp [slotsInlineNodes] at hc
  | [], k + 1, a, b, _, hr => by
    intro c hc
    rw [slotsResult] at hr
    simp only [Option.some.injEq, Prod.mk.injEq] at hr
    rw [← hr.1] at hc
    simp [slotsInlineNodes] at hc
  | none :: rest, k + 1, a, b, hw, hr => by
    intro c hc
    rw [slotsResult] at hr
    simp only [slotsWellFormed] at hw
    cases hv : slotsResult E k rest with
    | none => rw [hv] at hr; simp at hr
    | some r =>
      obtain ⟨cs, ks⟩ := r
      rw [hv] at hr
      simp only [Option.some.injEq, Prod.mk.injEq] at hr
      rw [← hr.1] at hc
      simp only [slotsInlineNodes, nilValueNode, node.inlineNodes, List.nil_append] at hc
      exact slotsResult_inlineOk E rest k cs ks hw hv c hc
  | some child :: rest, k + 1, a, b, hw, hr => by
    intro c hc
    rw [slotsResult] at hr
    simp only [slotsWellFormed, Bool.and_eq_true] at hw
    cases hch : hashResult E child false with
    | none => rw [hch] at hr; simp at hr
    | some q =>
      obtain ⟨cc, kc⟩ := q
      rw [hch] at hr
      simp only at hr
      cases hv : slotsResult E k rest with
      | none => rw [hv] at hr; simp at hr
      | some r =>
        obtain ⟨cs, ks⟩ := r
        rw [hv] at hr
        simp only [Option.some.injEq, Prod.mk.injEq] at hr
        rw [← hr.1] at hc
        simp only [slotsInlineNodes, List.mem_append] at hc
        rcases hc with hc | hc
        · exact hashResult_inlineOk E child false cc kc hw.1 hch c hc
        · exact slotsResult_inlineOk E rest k cs ks hw.2 hv c hc
end

/-- C21 (inlined nodes are always small): in the `hashed` result of `hash(n, force)` on a
tree `n` whose full nodes have their 17 slots, every short or full node, at the root or
reached from it through values of short nodes and routing slots 0 to 15 of full nodes,
has an encoding of fewer than 32 bytes, and every such full node has 17 slots with a
node in each of its 16 routing slots.  The call returns whenever the encoder does not
fail. -/
theorem hash_inline_nodes_small (E : Collab) (h : pureHasher) (n : node) (force : Bool)
    (hw : n.wellFormed = true) :
    (EncodesAll E → ∃ r, pureHasher.hash E h n force = some r) ∧
    ∀ hashed cached h1, pureHasher.hash E h n force = some (hashed, cached, h1) →
      ∀ c, c ∈ hashed.inlineNodes →
        (∃ enc, E.encode c = some enc ∧ enc.length < 32) ∧
        (c.variant = Variant.full →
          c.slots.length = 17 ∧ ∀ i, i < 16 → ∃ x, c.slots[i]? = some (some x)) := by
  refine ⟨fun hE => hash_returns E hE h n force, ?_⟩
  intro hashed cached h1 hr c hc
  exact hashResult_inlineOk E n force hashed cached hw
    (hashResult_of_hash E h h1 n hashed cached force hr) c hc

/-- Witness of C21: the tree `smallTree` is returned inline, as an extension over a full
node over a leaf; the three nodes have small encodings and the full node has a node in
each routing slot. -/
theorem hash_inline_nodes_small_witness :
    ∃ hashed cached h1,
      pureHasher.hash rlpCollab freshHasher smallTree false = some (hashed, cached, h1) ∧
      hashed.inlineNodes.length = 3 ∧
      ∀ c, c ∈ hashed.inlineNodes →
        (∃ enc, rlpCollab.encode c = some enc ∧ enc.length < 32) ∧
        (c.variant = Variant.full →
          c.slots.length = 17 ∧ ∀ i, i < 16 → ∃ x, c.slots[i]? = some (some x)) := by
  have hw := hash_inline_nodes_small rlpCollab freshHasher smallTree false (by decide)
  obtain ⟨⟨hashed, cached, h1⟩, hr⟩ := hw.1 rlpCollab_encodesAll
  have hp := hashResult_of_hash rlpCollab freshHasher h1 smallTree hashed cached false hr
  have hlen : hashed.inlineNodes.length = 3 := by
    have he : (hashResult rlpCollab smallTree false).map (fun r => r.1.inlineNodes.length) =
        some 3 := by decide
    rw [hp] at he
    simpa using he
  exact ⟨hashed, cached, h1, hr, hlen, hw.2 hashed cached h1 hr⟩

/-! ## Memoization -/

theorem eraseHash_isBranch (n : node) : n.eraseHash.isBranch = n.isBranch := by
  cases n <;> simp [node.eraseHash, node.isBranch]

theorem eraseHash_of_leaf (n : node) (hn : n.isBranch = false) : n.eraseHash = n := by
  cases n with
  | shortNode Key Val flags => simp [node.isBranch] at hn
  | fullNode Children flags => simp [node.isBranch] at hn
  | hashNode b => simp [node.eraseHash]
  | valueNode b => simp [node.eraseHash]

/-- Slots that hold only nil, value nodes and hash nodes carry no cached digest. -/
theorem eraseSlots_of_plain : ∀ (cs : List (Option node)), cs.all plainSlot = true →
    eraseSlots cs = cs
  | [], _ => by simp [eraseSlots]
  | none :: rest, hp => by
    simp only [List.all_cons, Bool.and_eq_true] at hp
    simp only [eraseSlots, eraseSlots_of_plain rest hp.2]
  | some child :: rest, hp => by
    simp only [List.all_cons, Bool.and_eq_true, plainSlot, Bool.not_eq_true'] at hp
    simp only [eraseSlots, eraseSlots_of_plain rest hp.2, eraseHash_of_leaf child hp.1]

/-- A collapsed node that is hashed to a digest without `force` is hashed to the same
digest with `force`. -/
theorem toHashResult_force (E : Collab) (c : node) (d : List Nat)
    (hc : c.asHashNode = none) (hr : toHashResult E c false = some (.hashNode d)) :
    toHashResult E c true = some (.hashNode d) := by
  unfold toHashResult at hr ⊢
  cases he : E.encode c with
  | none => rw [he] at hr; simp at hr
  | some enc =>
    rw [he] at hr
    simp only at hr ⊢
    split at hr
    · simp only [Option.some.injEq] at hr
      rw [hr] at hc
      simp [node.asHashNode] at hc
    · simpa using hr

/-- The `hashed` result on a short node without cached digest. -/
theorem hashed_shortNode (E : Collab) (Key : List Nat) (Val : node) (flags : nodeFlag)
    (force : Bool) (hf : flags.hash = none) :
    (hashResult E (.shortNode Key Val flags) force).map Prod.fst =
      (if Val.isBranch then (hashResult E Val false).map Prod.fst else some Val).bind
        (fun cv => toHashResult E (.shortNode (E.hexToCompact Key) cv flags) force) := by
  rw [hashResult, hf]
  simp only
  by_cases hb : Val.isBranch = true
  · simp only [hb, if_true]
    cases hashResult E Val false with
    | none => rfl
    | some r =>
      obtain ⟨cv, kv⟩ := r
      simp only [Option.map_some', Option.some_bind]
      cases toHashResult E (.shortNode (E.hexToCompact Key) cv flags) force <;> rfl
  · simp only [hb, Bool.false_eq_true, if_false, Option.some_bind]
    cases toHashResult E (.shortNode (E.hexToCompact Key) Val flags) force <;> rfl

/-- The `hashed` result on a full node without cached digest. -/
theorem hashed_fullNode (E : Collab) (Children : List (Option node)) (flags : nodeFlag)
    (force : Bool) (hf : flags.hash = none) :
    (hashResult E (.fullNode Children flags) force).map Prod.fst =
      ((slotsResult E 16 Children).map Prod.fst).bind
        (fun cs => toHashResult E (.fullNode cs flags) force) := by
  rw [hashResult, hf]
  simp only
  cases slotsResult E 16 Children with
  | none => rfl
  | some r =>
    obtain ⟨cs, ks⟩ := r
    simp only [Option.map_some', Option.some_bind]
    cases toHashResult E (.fullNode cs flags) force <;> rfl

/-- A node hashed to a digest without `force` is hashed to the same digest with
`force`. -/
theorem hashed_force_of_digest (E : Collab) (m : node) (d : List Nat)
    (hr : (hashResult E m false).map Prod.fst = some (.hashNode d)) :
    (hashResult E m true).map Prod.fst = some (.hashNode d) := by
  cases m with
  | shortNode Key Val flags =>
    cases hf : flags.hash with
    | some x => rw [hashResult, hf] at hr ⊢; exact hr
    | none =>
      rw [hashed_shortNode E Key Val flags _ hf] at hr ⊢
      cases hx : (if Val.isBranch then (hashResult E Val false).map Prod.fst else some Val)
        with
      | none => rw [hx] at hr; simp at hr
      | some cv =>
        rw [hx] at hr
        simp only [Option.some_bind] at hr ⊢
        exact toHashResult_force E _ d rfl hr
  | fullNode Children flags =>
    cases hf : flags.hash with
    | some x => rw [hashResult, hf] at hr ⊢; exact hr
    | none =>
      rw [hashed_fullNode E Children flags _ hf] at hr ⊢
      cases hx : (slotsResult E 16 Children).map Prod.fst with
      | none => rw [hx] at hr; simp at hr
      | some cs =>
        rw [hx] at hr
        simp only [Option.some_bind] at hr ⊢
        exact toHashResult_force E _ d rfl hr
  | hashNode b => rw [hashResult] at hr ⊢; exact hr
  | valueNode b => rw [hashResult] at hr ⊢; exact hr

/-- A valid cached digest is the `hashed` result on the erased node, with either
`force`. -/
theorem hashed_of_validDigest (E : Collab) (m : node) (d : List Nat) (force : Bool)
    (hv : validDigest E m d = true) :
    (hashResult E m.eraseHash force).map Prod.fst = some (.hashNode d) := by
  have h0 : (hashResult E m.eraseHash false).map Prod.fst = some (.hashNode d) := by
    unfold validDigest at hv
    cases hr : hashResult E m.eraseHash false with
    | none => rw [hr] at hv; simp at hv
    | some r =>
      rw [hr] at hv
      simp only [Option.some_bind, beq_iff_eq] at hv
      simp only [Option.map_some', Option.some.injEq]
      exact asHashNode_eq_some r.1 d hv
  cases force with
  | false => exact h0
  | true => exact hashed_force_of_digest E _ d h0

mutual
/-- On a tree whose cached digests are all valid, the `hashed` result is that of the tree
with every cached digest erased. -/
theorem hashResult_memo (E : Collab) : ∀ (n : node) (force : Bool),
    n.allValid E = true → n.terminalsPlain = true →
    (hashResult E n force).map Prod.fst = (hashResult E n.eraseHash force).map Prod.fst
  | .shortNode Key Val flags, force, hv, ht => by
    simp only [node.allValid, Bool.and_eq_true] at hv
    simp only [node.terminalsPlain] at ht
    cases hf : flags.hash with
    | some d =>
      rw [hf] at hv
      rw [hashed_of_validDigest E (.shortNode Key Val flags) d force hv.1, hashResult, hf]
      rfl
    | none =>
      have ih := hashResult_memo E Val false hv.2 ht
      simp only [node.eraseHash]
      rw [nodeFlag_hash_none flags hf,
        hashed_shortNode E Key Val flags force hf,
        hashed_shortNode E Key Val.eraseHash flags force hf, eraseHash_isBranch]
      by_cases hb : Val.isBranch = true
      · simp only [hb, if_true, ih]
      · simp only [Bool.not_eq_true] at hb
        simp only [hb, Bool.false_eq_true, if_false, eraseHash_of_leaf Val hb]
  | .fullNode Children flags, force, hv, ht => by
    simp only [node.allValid, Bool.and_eq_true] at hv
    simp only [node.terminalsPlain] at ht
    cases hf : flags.hash with
    | some d =>
      rw [hf] at hv
      rw [hashed_of_validDigest E (.fullNode Children flags) d force hv.1, hashResult, hf]
      rfl
    | none =>
      have ih := slotsResult_memo E Children 16 hv.2 ht
      simp only [node.eraseHash]
      rw [nodeFlag_hash_none flags hf,
        hashed_fullNode E Children flags force hf,
        hashed_fullNode E (eraseSlots Children) flags force hf, ih]
  | .hashNode b, force, _, _ => by simp only [node.eraseHash]
  | .valueNode b, force, _, _ => by simp only [node.eraseHash]

/-- The same for the collapsed slots of a full node. -/
theorem slotsResult_memo (E : Collab) : ∀ (cs : List (Option node)) (k : Nat),
    slotsAllValid E cs = true → slotsTerminalsPlain k cs = true →
    (slotsResult E k cs).map Prod.fst = (slotsResult E k (eraseSlots cs)).map Prod.fst
  | cs, 0, _, ht => by
    simp only [slotsTerminalsPlain] at ht
    rw [eraseSlots_of_plain cs ht]
  | [], k + 1, _, _ => by simp only [eraseSlots]
  | none :: rest, k + 1, hv, ht => by
    simp only [slotsAllValid] at hv
    simp only [slotsTerminalsPlain] at ht
    have ih := slotsResult_memo E rest k hv ht
    simp only [eraseSlots]
    rw [slotsResult, slotsResult]
    cases h1 : slotsResult E k rest with
    | none =>
      rw [h1] at ih
      cases h2 : slotsResult E k (eraseSlots rest) with
      | none => rfl
      | some r => rw [h2] at ih; simp at ih
    | some r =>
      rw [h1] at ih
      cases h2 : slotsResult E k (eraseSlots rest) with
      | none => rw [h2] at ih; simp at ih
      | some q =>
        rw [h2] at ih
        simp only [Option.map_some', Option.some.injEq] at ih ⊢
        rw [ih]
  | some child :: rest, k + 1, hv, ht => by
    simp only [slotsAllValid, Bool.and_eq_true] at hv
    simp only [slotsTerminalsPlain, Bool.and_eq_true] at ht
    have ihc := hashResult_memo E child false hv.1 ht.1
    have ih := slotsResult_memo E rest k hv.2 ht.2
    simp only [eraseSlots]
    rw [slotsResult, slotsResult]
    cases c1 : hashResult E child false with
    | none =>
      rw [c1] at ihc
      cases c2 : hashResult E child.eraseHash false with
      | none => rfl
      | some r => rw [c2] at ihc; simp at ihc
    | some p =>
      rw [c1] at ihc
      cases c2 : hashResult E child.eraseHash false with
      | none => rw [c2] at ihc; simp at ihc
      | some p2 =>
        rw [c2] at ihc
        simp only [Option.map_some', Option.some.injEq] at ihc
        simp only
        cases h1 : slotsResult E k rest with
        | none =>
          rw [h1] at ih
          cases h2 : slotsResult E k (eraseSlots rest) with
          | none => rfl
          | some r => rw [h2] at ih; simp at ih
        | some r =>
          rw [h1] at ih
          cases h2 : slotsResult E k (eraseSlots rest) with
          | none => rw [h2] at ih; simp at ih
          | some q =>
            rw [h2] at ih
            simp only [Option.map_some', Option.some.injEq] at ih ⊢
            rw [ih, ihc]
end

/-- The `hashed` result of a run, read from the state-free pair. -/
theorem hash_hashed (E : Collab) (h : pureHasher) (n : node) (force : Bool) :
    (pureHasher.hash E h n force).map (fun r => r.1) =
      (hashResult E n force).map Prod.fst := by
  rw [← hash_views E n h force]
  cases pureHasher.hash E h n force <;> rfl

/-! ## Sizes of RLP encodings -/

mutual
/-- The RLP of a node does not read the cached digests. -/
theorem rlpNode_eraseHash : ∀ (n : node), rlpNode n.eraseHash = rlpNode n
  | .shortNode Key Val flags => by
    simp only [node.eraseHash, rlpNode, rlpNode_eraseHash Val]
  | .fullNode Children flags => by
    simp only [node.eraseHash, rlpNode, rlpSlots_eraseSlots Children]
  | .hashNode b => by simp only [node.eraseHash]
  | .valueNode b => by simp only [node.eraseHash]

/-- The RLP of the slots does not read the cached digests. -/
theorem rlpSlots_eraseSlots : ∀ (cs : List (Option node)), rlpSlots (eraseSlots cs) = rlpSlots cs
  | [] => by simp only [eraseSlots]
  | none :: rest => by simp only [eraseSlots, rlpSlots, rlpSlots_eraseSlots rest]
  | some child :: rest => by
    simp only [eraseSlots, rlpSlots, rlpSlots_eraseSlots rest, rlpNode_eraseHash child]
end

theorem rlpList_length_ge (payload : List Nat) :
    payload.length + 1 ≤ (rlpList payload).length := by
  unfold rlpList rlpHeader
  split <;> simp

theorem rlpList_length_small (payload : List Nat) (hp : payload.length < 56) :
    (rlpList payload).length = payload.length + 1 := by
  unfold rlpList rlpHeader
  rw [if_pos hp]
  simp

theorem rlpBytes_length_pos (b : List Nat) : 1 ≤ (rlpBytes b).length := by
  unfold rlpBytes
  split
  · split <;> simp [rlpHeader]
  · unfold rlpHeader
    split <;> simp

theorem rlpBytes_length_ge (b : List Nat) : b.length ≤ (rlpBytes b).length := by
  unfold rlpBytes
  split
  · split <;> simp [rlpHeader]
  · simp

theorem decodeNibbles_length : ∀ (l : List Nat), (decodeNibbles l).length = l.length / 2
  | [] => by simp [decodeNibbles]
  | [_] => by simp [decodeNibbles]
  | a :: b :: rest => by
    simp only [decodeNibbles, List.length_cons, decodeNibbles_length rest]
    omega

/-- The compact form of a key is at most half as long as the key, plus the flag byte. -/
theorem hexToCompact_length_le (hex : List Nat) :
    (hexToCompact hex).length ≤ hex.length / 2 + 1 := by
  unfold hexToCompact
  simp only
  have hle : (if hasTerm hex = true then hex.dropLast else hex).length ≤ hex.length := by
    split
    · simp
    · exact le_refl _
  generalize (if hasTerm hex = true then hex.dropLast else hex) = l at hle
  split
  · simp only [List.length_cons, decodeNibbles_length, List.length_tail]
    omega
  · simp only [List.length_cons, decodeNibbles_length]
    omega

theorem rlpBytes_length_long (a b : Nat) (rest : List Nat)
    (hl : (a :: b :: rest).length < 56) :
    (rlpBytes (a :: b :: rest)).length = rest.length + 3 := by
  simp only [List.length_cons] at hl
  simp [rlpBytes, rlpHeader, hl]

/-- The RLP of the compact form of a key is not longer than the RLP of the key, when
that takes fewer than 32 bytes. -/
theorem rlpBytes_hexToCompact_le : ∀ (Key : List Nat), (rlpBytes Key).length < 32 →
    (rlpBytes (hexToCompact Key)).length ≤ (rlpBytes Key).length
  | [], _ => by decide
  | [x], _ => by
    by_cases hx : x = 16
    · subst hx; decide
    · have hc : hexToCompact [x] = [16 ||| x] := by
        simp [hexToCompact, hasTerm, hx, decodeNibbles]
      rw [hc]
      by_cases hlt : x < 128
      · have h2 : 16 ||| x < 128 := by
          have : 16 ||| x < 2 ^ 7 := Nat.or_lt_two_pow (by decide) (by simpa using hlt)
          simpa using this
        simp [rlpBytes, hlt, h2]
      · have h1 : (rlpBytes [x]).length = 2 := by simp [rlpBytes, hlt, rlpHeader]
        have h3 := rlpBytes_length_le [16 ||| x] (by simp)
        simp only [List.length_singleton] at h3
        omega
  | a :: b :: rest, hk => by
    have hlen := rlpBytes_length_ge (a :: b :: rest)
    have h1 := rlpBytes_length_long a b rest (by omega)
    have h2 := hexToCompact_length_le (a :: b :: rest)
    have h3 := rlpBytes_length_le (hexToCompact (a :: b :: rest)) (by
      simp only [List.length_cons] at hlen h2 ⊢; omega)
    simp only [List.length_cons] at h1 h2 h3 hlen ⊢
    omega

/-! ## Small trees under RLP -/

theorem toHashResult_rlp_small (keccak : List Nat → Nat → Nat) (c : node)
    (hc : (rlpNode c).length < 32) : toHashResult (rlpWith keccak) c false = some c := by
  simp [toHashResult, rlpWith, hc]

mutual
/-- With RLP as encoder, a tree whose own encoding takes fewer than 32 bytes is hashed,
once its cached digests are erased, to an inline node that is not longer. -/
theorem hashResult_small (keccak : List Nat → Nat → Nat) : ∀ (t a b : node),
    hashResult (rlpWith keccak) t.eraseHash false = some (a, b) →
    (rlpNode t).length < 32 →
    (rlpNode a).length ≤ (rlpNode t).length ∧ a.isBranch = t.isBranch
  | .shortNode Key Val flags, a, b, hr, hlt => by
    simp only [node.eraseHash] at hr
    obtain ⟨cv, kv, hval, hto, -⟩ := hashResult_shortNode (rlpWith keccak) Key Val.eraseHash
      { flags with hash := none } false a b rfl hr
    rw [rlpNode] at hlt
    have hge := rlpList_length_ge (rlpBytes Key ++ rlpNode Val)
    rw [List.length_append] at hge
    have hkey := rlpBytes_hexToCompact_le Key (by omega)
    have hcv : (rlpNode cv).length ≤ (rlpNode Val).length := by
      by_cases hb : Val.eraseHash.isBranch = true
      · rw [if_pos hb] at hval
        exact (hashResult_small keccak Val cv kv hval (by omega)).1
      · rw [if_neg hb] at hval
        simp only [Option.some.injEq, Prod.mk.injEq] at hval
        rw [← hval.1, rlpNode_eraseHash]
    have hsize : (rlpNode (.shortNode (hexToCompact Key) cv { flags with hash := none })).length
        ≤ (rlpList (rlpBytes Key ++ rlpNode Val)).length := by
      rw [rlpNode, rlpList_length_small _ (by rw [List.length_append]; omega),
        List.length_append]
      omega
    have hinl := toHashResult_rlp_small keccak
      (.shortNode (hexToCompact Key) cv { flags with hash := none }) (by omega)
    have hE : (rlpWith keccak).hexToCompact Key = hexToCompact Key := rfl
    rw [hE, hinl] at hto
    simp only [Option.some.injEq] at hto
    subst hto
    rw [rlpNode]
    exact ⟨hsize, rfl⟩
  | .fullNode Children flags, a, b, hr, hlt => by
    simp only [node.eraseHash] at hr
    obtain ⟨cs, ks, hs, hto, -⟩ := hashResult_fullNode (rlpWith keccak) (eraseSlots Children)
      { flags with hash := none } false a b rfl hr
    rw [rlpNode] at hlt
    have hge := rlpList_length_ge (rlpSlots Children)
    have hcs := slotsResult_small keccak Children 16 cs ks hs (by omega)
    have hsize : (rlpNode (.fullNode cs { flags with hash := none })).length
        ≤ (rlpList (rlpSlots Children)).length := by
      rw [rlpNode, rlpList_length_small _ (by omega)]
      omega
    have hinl := toHashResult_rlp_small keccak
      (.fullNode cs { flags with hash := none }) (by omega)
    rw [hinl] at hto
    simp only [Option.some.injEq] at hto
    subst hto
    rw [rlpNode]
    exact ⟨hsize, rfl⟩
  | .hashNode x, a, b, hr, _ => by
    simp only [node.eraseHash] at hr
    rw [hashResult] at hr
    simp only [Option.some.injEq, Prod.mk.injEq] at hr
    rw [← hr.1]
    exact ⟨le_refl _, rfl⟩
  | .valueNode x, a, b, hr, _ => by
    simp only [node.eraseHash] at hr
    rw [hashResult] at hr
    simp only [Option.some.injEq, Prod.mk.injEq] at hr
    rw [← hr.1]
    exact ⟨le_refl _, rfl⟩

/-- The same for the slots of a full node. -/
theorem slotsResult_small (keccak : List Nat → Nat → Nat) : ∀ (cs : List (Option node))
    (k : Nat) (a b : List (Option node)),
    slotsResult (rlpWith keccak) k (eraseSlots cs) = some (a, b) →
    (rlpSlots cs).length < 32 → (rlpSlots a).length ≤ (rlpSlots cs).length
  | cs, 0, a, b, hr, _ => by
    rw [slotsResult] at hr
    simp only [Option.some.injEq, Prod.mk.injEq] at hr
    rw [← hr.1, rlpSlots_eraseSlots]
  | [], k + 1, a, b, hr, _ => by
    simp only [eraseSlots] at hr
    rw [slotsResult] at hr
    simp only [Option.some.injEq, Prod.mk.injEq] at hr
    rw [← hr.1]
  | none :: rest, k + 1, a, b, hr, hlt => by
    simp only [eraseSlots] at hr
    rw [slotsResult] at hr
    simp only [rlpSlots, List.length_append] at hlt ⊢
    cases hv : slotsResult (rlpWith keccak) k (eraseSlots rest) with
    | none => rw [hv] at hr; simp at hr
    | some r =>
      obtain ⟨cs, ks⟩ := r
      rw [hv] at hr
      simp only [Option.some.injEq, Prod.mk.injEq] at hr
      have ih := slotsResult_small keccak rest k cs ks hv (by omega)
      rw [← hr.1]
      simp only [rlpSlots, nilValueNode, rlpNode, List.length_append]
      omega
  | some child :: rest, k + 1, a, b, hr, hlt => by
    simp only [eraseSlots] at hr
    rw [slotsResult] at hr
    simp only [rlpSlots, List.length_append] at hlt ⊢
    cases hch : hashResult (rlpWith keccak) child.eraseHash false with
    | none => rw [hch] at hr; simp at hr
    | some q =>
      obtain ⟨cc, kc⟩ := q
      rw [hch] at hr
      simp only at hr
      cases hv : slotsResult (rlpWith keccak) k (eraseSlots rest) with
      | none => rw [hv] at hr; simp at hr
      | some r =>
        obtain ⟨cs, ks⟩ := r
        rw [hv] at hr
        simp only [Option.some.injEq, Prod.mk.injEq] at hr
        have ihc := (hashResult_small keccak child cc kc hch (by omega)).1
        have ih := slotsResult_small keccak rest k cs ks hv (by omega)
        rw [← hr.1]
        simp only [rlpSlots, List.length_append]
        omega
end

/-! ## Memoization under RLP, on every tree -/

theorem rlpSlots_eraseFrom : ∀ (k : Nat) (cs : List (Option node)),
    rlpSlots (eraseFrom k cs) = rlpSlots cs
  | 0, cs => by simp only [eraseFrom, rlpSlots_eraseSlots]
  | k + 1, [] => by simp only [eraseFrom]
  | k + 1, none :: rest => by simp only [eraseFrom, rlpSlots, rlpSlots_eraseFrom k rest]
  | k + 1, some child :: rest => by
    simp only [eraseFrom, rlpSlots, rlpSlots_eraseFrom k rest]

mutual
/-- With RLP as encoder, a tree whose cached digests are all valid and whose encoding
takes fewer than 32 bytes carries no cached digest at all: a valid digest sits on a node
whose collapsed form, and so whose own encoding, takes 32 bytes or more. -/
theorem eraseHash_of_small (keccak : List Nat → Nat → Nat) : ∀ (x : node),
    x.allValid (rlpWith keccak) = true → (rlpNode x).length < 32 → x.eraseHash = x
  | .shortNode Key Val flags, hv, hlt => by
    simp only [node.allValid, Bool.and_eq_true] at hv
    cases hf : flags.hash with
    | some d =>
      rw [hf] at hv
      have hd := hashed_of_validDigest (rlpWith keccak) (.shortNode Key Val flags) d false hv.1
      cases hr : hashResult (rlpWith keccak) (node.shortNode Key Val flags).eraseHash false with
      | none => rw [hr] at hd; simp at hd
      | some r =>
        obtain ⟨a, b⟩ := r
        rw [hr] at hd
        simp only [Option.map_some', Option.some.injEq] at hd
        have := (hashResult_small keccak (.shortNode Key Val flags) a b hr hlt).2
        rw [hd] at this
        simp [node.isBranch] at this
    | none =>
      rw [rlpNode] at hlt
      have hge := rlpList_length_ge (rlpBytes Key ++ rlpNode Val)
      rw [List.length_append] at hge
      simp only [node.eraseHash]
      rw [eraseHash_of_small keccak Val hv.2 (by omega), nodeFlag_hash_none flags hf]
  | .fullNode Children flags, hv, hlt => by
    simp only [node.allValid, Bool.and_eq_true] at hv
    cases hf : flags.hash with
    | some d =>
      rw [hf] at hv
      have hd := hashed_of_validDigest (rlpWith keccak) (.fullNode Children flags) d false hv.1
      cases hr : hashResult (rlpWith keccak) (node.fullNode Children flags).eraseHash false with
      | none => rw [hr] at hd; simp at hd
      | some r =>
        obtain ⟨a, b⟩ := r
        rw [hr] at hd
        simp only [Option.map_some', Option.some.injEq] at hd
        have := (hashResult_small keccak (.fullNode Children flags) a b hr hlt).2
        rw [hd] at this
        simp [node.isBranch] at this
    | none =>
      rw [rlpNode] at hlt
      have hge := rlpList_length_ge (rlpSlots Children)
      simp only [node.eraseHash]
      rw [eraseSlots_of_small keccak Children hv.2 (by omega), nodeFlag_hash_none flags hf]
  | .hashNode b, _, _ => by simp only [node.eraseHash]
  | .valueNode b, _, _ => by simp only [node.eraseHash]

/-- The same for the slots of a full node. -/
theorem eraseSlots_of_small (keccak : List Nat → Nat → Nat) : ∀ (cs : List (Option node)),
    slotsAllValid (rlpWith keccak) cs = true → (rlpSlots cs).length < 32 →
    eraseSlots cs = cs
  | [], _, _ => by simp only [eraseSlots]
  | none :: rest, hv, hlt => by
    simp only [slotsAllValid] at hv
    simp only [rlpSlots, List.length_append] at hlt
    simp only [eraseSlots, eraseSlots_of_small keccak rest hv (by omega)]
  | some child :: rest, hv, hlt => by
    simp only [slotsAllValid, Bool.and_eq_true] at hv
    simp only [rlpSlots, List.length_append] at hlt
    simp only [eraseSlots, eraseSlots_of_small keccak rest hv.2 (by omega),
      eraseHash_of_small keccak child hv.1 (by omega)]
end

/-- The slots that the loop leaves as they are carry no cached digest when the collapsed
slots encode to fewer than 32 bytes. -/
theorem eraseFrom_of_small (keccak : List Nat → Nat → Nat) : ∀ (cs : List (Option node))
    (k : Nat) (a b : List (Option node)),
    slotsResult (rlpWith keccak) k cs = some (a, b) →
    slotsAllValid (rlpWith keccak) cs = true → (rlpSlots a).length < 32 →
    eraseFrom k a = a
  | cs, 0, a, b, hr, hv, hlt => by
    rw [slotsResult] at hr
    simp only [Option.some.injEq, Prod.mk.injEq] at hr
    rw [← hr.1] at hlt ⊢
    simp only [eraseFrom]
    exact eraseSlots_of_small keccak cs hv hlt
  | [], k + 1, a, b, hr, _, _ => by
    rw [slotsResult] at hr
    simp only [Option.some.injEq, Prod.mk.injEq] at hr
    rw [← hr.1]
    simp only [eraseFrom]
  | none :: rest, k + 1, a, b, hr, hv, hlt => by
    rw [slotsResult] at hr
    simp only [slotsAllValid] at hv
    cases hs : slotsResult (rlpWith keccak) k rest with
    | none => rw [hs] at hr; simp at hr
    | some r =>
      obtain ⟨cs, ks⟩ := r
      rw [hs] at hr
      simp only [Option.some.injEq, Prod.mk.injEq] at hr
      rw [← hr.1] at hlt ⊢
      simp only [rlpSlots, List.length_append] at hlt
      simp only [eraseFrom, eraseFrom_of_small keccak rest k cs ks hs hv (by omega)]
  | some child :: rest, k + 1, a, b, hr, hv, hlt => by
    rw [slotsResult] at hr
    simp only [slotsAllValid, Bool.and_eq_true] at hv
    cases hch : hashResult (rlpWith keccak) child false with
    | none => rw [hch] at hr; simp at hr
    | some q =>
      obtain ⟨cc, kc⟩ := q
      rw [hch] at hr
      simp only at hr
      cases hs : slotsResult (rlpWith keccak) k rest with
      | none => rw [hs] at hr; simp at hr
      | some r =>
        obtain ⟨cs, ks⟩ := r
        rw [hs] at hr
        simp only [Option.some.injEq, Prod.mk.injEq] at hr
        rw [← hr.1] at hlt ⊢
        simp only [rlpSlots, List.length_append] at hlt
        simp only [eraseFrom, eraseFrom_of_small keccak rest k cs ks hs hv.2 (by omega)]

/-- The last step on the collapsed full node is the same whether or not the cached
digests in the slots after the routing slots are erased. -/
theorem toHashResult_eraseFrom (keccak : List Nat → Nat → Nat) (cs a b : List (Option node))
    (flags : nodeFlag) (force : Bool)
    (hr : slotsResult (rlpWith keccak) 16 cs = some (a, b))
    (hv : slotsAllValid (rlpWith keccak) cs = true) :
    toHashResult (rlpWith keccak) (.fullNode a flags) force =
      toHashResult (rlpWith keccak) (.fullNode (eraseFrom 16 a) flags) force := by
  have henc : rlpNode (.fullNode (eraseFrom 16 a) flags) = rlpNode (.fullNode a flags) := by
    simp only [rlpNode, rlpSlots_eraseFrom]
  have he1 : (rlpWith keccak).encode (.fullNode a flags) =
      some (rlpNode (.fullNode a flags)) := rfl
  have he2 : (rlpWith keccak).encode (.fullNode (eraseFrom 16 a) flags) =
      some (rlpNode (.fullNode a flags)) := by rw [← henc]; rfl
  unfold toHashResult
  rw [he1, he2]
  simp only
  by_cases hcond : ((rlpNode (.fullNode a flags)).length < 32 && !force) = true
  · rw [if_pos hcond, if_pos hcond]
    simp only [Bool.and_eq_true, decide_eq_true_eq] at hcond
    have hlt := hcond.1
    rw [rlpNode] at hlt
    have hge := rlpList_length_ge (rlpSlots a)
    rw [eraseFrom_of_small keccak cs 16 a b hr hv (by omega)]
  · rw [if_neg hcond, if_neg hcond]

mutual
/-- With RLP as encoder, on every tree whose cached digests are all valid, the `hashed`
result is that of the tree with every cached digest erased. -/
theorem hashResult_memo_rlp (keccak : List Nat → Nat → Nat) : ∀ (n : node) (force : Bool),
    n.allValid (rlpWith keccak) = true →
    (hashResult (rlpWith keccak) n force).map Prod.fst =
      (hashResult (rlpWith keccak) n.eraseHash force).map Prod.fst
  | .shortNode Key Val flags, force, hv => by
    simp only [node.allValid, Bool.and_eq_true] at hv
    cases hf : flags.hash with
    | some d =>
      rw [hf] at hv
      rw [hashed_of_validDigest (rlpWith keccak) (.shortNode Key Val flags) d force hv.1,
        hashResult, hf]
      rfl
    | none =>
      have ih := hashResult_memo_rlp keccak Val false hv.2
      simp only [node.eraseHash]
      rw [nodeFlag_hash_none flags hf,
        hashed_shortNode (rlpWith keccak) Key Val flags force hf,
        hashed_shortNode (rlpWith keccak) Key Val.eraseHash flags force hf,
        eraseHash_isBranch]
      by_cases hb : Val.isBranch = true
      · simp only [hb, if_true, ih]
      · simp only [Bool.not_eq_true] at hb
        simp only [hb, Bool.false_eq_true, if_false, eraseHash_of_leaf Val hb]
  | .fullNode Children flags, force, hv => by
    simp only [node.allValid, Bool.and_eq_true] at hv
    cases hf : flags.hash with
    | some d =>
      rw [hf] at hv
      rw [hashed_of_validDigest (rlpWith keccak) (.fullNode Children flags) d force hv.1,
        hashResult, hf]
      rfl
    | none =>
      have ih := slotsResult_memo_rlp keccak Children 16 hv.2
      simp only [node.eraseHash]
      rw [nodeFlag_hash_none flags hf,
        hashed_fullNode (rlpWith keccak) Children flags force hf,
        hashed_fullNode (rlpWith keccak) (eraseSlots Children) flags force hf, ← ih]
      cases hs : slotsResult (rlpWith keccak) 16 Children with
      | none => rfl
      | some r =>
        obtain ⟨cs, ks⟩ := r
        simp only [Option.map_some', Option.some_bind]
        exact toHashResult_eraseFrom keccak Children cs ks flags force hs hv.2
  | .hashNode b, force, _ => by simp only [node.eraseHash]
  | .valueNode b, force, _ => by simp only [node.eraseHash]

/-- The collapsed slots of a full node are those of the erased node, up to the cached
digests in the slots that the loop leaves as they are. -/
theorem slotsResult_memo_rlp (keccak : List Nat → Nat → Nat) : ∀ (cs : List (Option node))
    (k : Nat), slotsAllValid (rlpWith keccak) cs = true →
    (slotsResult (rlpWith keccak) k cs).map (fun r => eraseFrom k r.1) =
      (slotsResult (rlpWith keccak) k (eraseSlots cs)).map Prod.fst
  | cs, 0, _ => by
    rw [slotsResult, slotsResult]
    simp only [Option.map_some', eraseFrom]
  | [], k + 1, _ => by
    simp only [eraseSlots]
    rw [slotsResult]
    simp only [Option.map_some', eraseFrom]
  | none :: rest, k + 1, hv => by
    simp only [slotsAllValid] at hv
    have ih := slotsResult_memo_rlp keccak rest k hv
    simp only [eraseSlots]
    rw [slotsResult, slotsResult]
    cases h1 : slotsResult (rlpWith keccak) k rest with
    | none =>
      rw [h1] at ih
      cases h2 : slotsResult (rlpWith keccak) k (eraseSlots rest) with
      | none => rfl
      | some r => rw [h2] at ih; simp at ih
    | some r =>
      rw [h1] at ih
      cases h2 : slotsResult (rlpWith keccak) k (eraseSlots rest) with
      | none => rw [h2] at ih; simp at ih
      | some q =>
        rw [h2] at ih
        simp only [Option.map_some', Option.some.injEq] at ih ⊢
        simp only [eraseFrom, ih]
  | some child :: rest, k + 1, hv => by
    simp only [slotsAllValid, Bool.and_eq_true] at hv
    have ihc := hashResult_memo_rlp keccak child false hv.1
    have ih := slotsResult_memo_rlp keccak rest k hv.2
    simp only [eraseSlots]
    rw [slotsResult, slotsResult]
    cases c1 : hashResult (rlpWith keccak) child false with
    | none =>
      rw [c1] at ihc
      cases c2 : hashResult (rlpWith keccak) child.eraseHash false with
      | none => rfl
      | some r => rw [c2] at ihc; simp at ihc
    | some p =>
      rw [c1] at ihc
      cases c2 : hashResult (rlpWith keccak) child.eraseHash false with
      | none => rw [c2] at ihc; simp at ihc
      | some p2 =>
        rw [c2] at ihc
        simp only [Option.map_some', Option.some.injEq] at ihc
        simp only
        cases h1 : slotsResult (rlpWith keccak) k rest with
        | none =>
          rw [h1] at ih
          cases h2 : slotsResult (rlpWith keccak) k (eraseSlots rest) with
          | none => rfl
          | some r => rw [h2] at ih; simp at ih
        | some r =>
          rw [h1] at ih
          cases h2 : slotsResult (rlpWith keccak) k (eraseSlots rest) with
          | none => rw [h2] at ih; simp at ih
          | some q =>
            rw [h2] at ih
            simp only [Option.map_some', Option.some.injEq] at ih ⊢
            simp only [eraseFrom, ih, ihc]
end

theorem rlpWith_encodesAll (keccak : List Nat → Nat → Nat) : EncodesAll (rlpWith keccak) := by
  intro n; simp [rlpWith]

/-- C22 (memoization soundness): with the binary encoder of the code, RLP, and any
digest function, for every tree `n` all of whose cached digests, at any depth and in any
slot, are valid (each is the `hashed` result of `hash` without `force` on its node with
every cached digest erased), `hash(n, force)` and `hash(n', force)` on the tree `n'` with
every cached digest erased both return, with the same `hashed` result, for either `force`
and from any hasher states. -/
theorem hash_memoization_sound (keccak : List Nat → Nat → Nat) (h h0 : pureHasher)
    (n : node) (force : Bool) (hv : n.allValid (rlpWith keccak) = true) :
    (pureHasher.hash (rlpWith keccak) h n force).map (fun r => r.1) =
      (pureHasher.hash (rlpWith keccak) h0 n.eraseHash force).map (fun r => r.1) ∧
    ∃ hashed cached cached1 h1 h2,
      pureHasher.hash (rlpWith keccak) h n force = some (hashed, cached, h1) ∧
      pureHasher.hash (rlpWith keccak) h0 n.eraseHash force = some (hashed, cached1, h2) := by
  have key : (pureHasher.hash (rlpWith keccak) h n force).map (fun r => r.1) =
      (pureHasher.hash (rlpWith keccak) h0 n.eraseHash force).map (fun r => r.1) := by
    rw [hash_hashed, hash_hashed]
    exact hashResult_memo_rlp keccak n force hv
  refine ⟨key, ?_⟩
  obtain ⟨⟨a, b, h1⟩, hr⟩ := hash_returns _ (rlpWith_encodesAll keccak) h n force
  obtain ⟨⟨a1, b1, h2⟩, hr1⟩ := hash_returns _ (rlpWith_encodesAll keccak) h0 n.eraseHash force
  rw [hr, hr1] at key
  simp only [Option.map_some', Option.some.injEq] at key
  subst key
  exact ⟨a, b, b1, h1, h2, hr, hr1⟩

set_option maxRecDepth 20000 in
/-- Witness of C22: the full node `memoFull`, which holds in slot 16 a short node with a
valid cached digest, and the extension `memoTree` over that short node. -/
theorem hash_memoization_sound_witness :
    (pureHasher.hash (rlpWith toySponge) freshHasher memoFull false).map (fun r => r.1) =
      (pureHasher.hash (rlpWith toySponge) freshHasher memoFull.eraseHash false).map
        (fun r => r.1) ∧
    memoFull.terminalsPlain = false ∧
    (pureHasher.hash (rlpWith toySponge) freshHasher memoTree true).map (fun r => r.1) =
      (pureHasher.hash (rlpWith toySponge) freshHasher memoTree.eraseHash true).map
        (fun r => r.1) :=
  ⟨(hash_memoization_sound toySponge freshHasher freshHasher memoFull false rfl).1, rfl,
    (hash_memoization_sound toySponge freshHasher freshHasher memoTree true rfl).1⟩

end trie

/-! # The required fields of the `beaconBlock` codec -/

namespace elay

/-- Decoding a value into a field leaves the field nil exactly when the value is
`null`. -/
theorem decodeField_isNone {α : Type} (f : Json → Option α) (v : Json) (x : Option α)
    (hd : decodeField f v = some x) : x.isNone = v.isNull := by
  unfold decodeField at hd
  cases hn : v.isNull with
  | true =>
    rw [hn] at hd
    simp only [if_true, Option.some.injEq] at hd
    rw [← hd]; rfl
  | false =>
    rw [hn] at hd
    simp only [Bool.false_eq_true, if_false, Option.map_eq_some'] at hd
    obtain ⟨a, -, ha⟩ := hd
    rw [← ha]; rfl

/-- After a member is decoded into a field, the field is nil exactly when the value of
the member is `null`. -/
theorem store_nil (C : Codec) (dec dec1 : decBeaconBlock) (f : Field) (v : Json)
    (hs : store C dec f v = some dec1) : nilField dec1 f = v.isNull := by
  cases f <;>
  · simp only [store, Option.map_eq_some'] at hs
    obtain ⟨x, hx, rfl⟩ := hs
    exact decodeField_isNone _ v x hx

/-- Decoding a member into a field leaves the other fields as they are. -/
theorem store_other (C : Codec) (dec dec1 : decBeaconBlock) (f g : Field) (v : Json)
    (hs : store C dec f v = some dec1) (hne : g ≠ f) : nilField dec1 g = nilField dec g := by
  cases f <;>
  · simp only [store, Option.map_eq_some'] at hs
    obtain ⟨x, -, rfl⟩ := hs
    cases g <;> first | exact absurd rfl hne | rfl

/-- Whether a value is rejected does not depend on the decoding struct. -/
theorem store_none_iff (C : Codec) (dec : decBeaconBlock) (f : Field) (v : Json) :
    store C dec f v = none ↔ rejected C f v = true := by
  cases f <;> simp [store, rejected]

/-- A rejected value is not `null`. -/
theorem rejected_not_null (C : Codec) (f : Field) (v : Json) (hr : rejected C f v = true) :
    v.isNull = false := by
  cases hn : v.isNull with
  | false => rfl
  | true => cases f <;> simp [rejected, store, decodeField, hn] at hr

/-- The nil fields after `json.Unmarshal` from a decoding struct `dec0`. -/
theorem unmarshalFrom_nil (C : Codec) : ∀ (input : List (String × Json))
    (dec0 dec : decBeaconBlock) (cur : Field → Option Json),
    (∀ f, nilField dec0 f = nilOf (cur f)) → unmarshalFrom C dec0 input = some dec →
    ∀ f, nilField dec f = nilOf (boundFrom f (cur f) input)
  | [], dec0, dec, cur, h0, hr => by
    simp only [unmarshalFrom, Option.some.injEq] at hr
    subst hr
    intro f
    simp only [boundFrom]
    exact h0 f
  | (key, v) :: rest, dec0, dec, cur, h0, hr => by
    simp only [unmarshalFrom] at hr
    intro f
    simp only [boundFrom]
    cases hm : matchField key with
    | none =>
      rw [hm] at hr
      simp only at hr
      have := unmarshalFrom_nil C rest dec0 dec cur h0 hr f
      simpa using this
    | some g =>
      rw [hm] at hr
      simp only at hr
      cases hs : store C dec0 g v with
      | none => rw [hs] at hr; simp at hr
      | some dec1 =>
        rw [hs] at hr
        simp only at hr
        have h1 : ∀ f1, nilField dec1 f1 =
            nilOf ((fun f2 => if some g = some f2 then some v else cur f2) f1) := by
          intro f1
          by_cases hfg : g = f1
          · subst hfg
            simp only [if_true]
            exact store_nil C dec0 dec1 g v hs
          · have hne : f1 ≠ g := fun h => hfg h.symm
            simp only [Option.some.injEq, hfg, if_false]
            rw [store_other C dec0 dec1 g f1 v hs hne]
            exact h0 f1
        exact unmarshalFrom_nil C rest dec1 dec _ h1 hr f

/-- When `json.Unmarshal` succeeds, the nil fields of the decoding struct are the missing
fields of the object. -/
theorem unmarshal_fields (C : Codec) (input : List (String × Json)) (dec : decBeaconBlock)
    (h : unmarshal C input = some dec) (f : Field) : nilField dec f = missing input f :=
  unmarshalFrom_nil C input decBeaconBlock.zero dec (fun _ => none)
    (fun f => by cases f <;> rfl) h f

/-- The call `json.Unmarshal` fails exactly when a member of the object is decoded into
a field whose decoder rejects its value. -/
theorem unmarshalFrom_none_iff (C : Codec) : ∀ (input : List (String × Json))
    (dec0 : decBeaconBlock),
    unmarshalFrom C dec0 input = none ↔
      ∃ key v f, (key, v) ∈ input ∧ matchField key = some f ∧ rejected C f v = true
  | [], dec0 => by simp [unmarshalFrom]
  | (key, v) :: rest, dec0 => by
    simp only [unmarshalFrom]
    cases hm : matchField key with
    | none =>
      simp only
      rw [unmarshalFrom_none_iff C rest dec0]
      constructor
      · rintro ⟨k, w, f, hmem, hf, hr⟩
        exact ⟨k, w, f, List.mem_cons_of_mem _ hmem, hf, hr⟩
      · rintro ⟨k, w, f, hmem, hf, hr⟩
        simp only [List.mem_cons, Prod.mk.injEq] at hmem
        rcases hmem with ⟨rfl, rfl⟩ | hmem
        · rw [hm] at hf; simp at hf
        · exact ⟨k, w, f, hmem, hf, hr⟩
    | some g =>
      simp only
      cases hs : store C dec0 g v with
      | none =>
        simp only [true_iff]
        exact ⟨key, v, g, List.mem_cons_self _ _, hm, (store_none_iff C dec0 g v).1 hs⟩
      | some dec1 =>
        simp only
        rw [unmarshalFrom_none_iff C rest dec1]
        constructor
        · rintro ⟨k, w, f, hmem, hf, hr⟩
          exact ⟨k, w, f, List.mem_cons_of_mem _ hmem, hf, hr⟩
        · rintro ⟨k, w, f, hmem, hf, hr⟩
          simp only [List.mem_cons, Prod.mk.injEq] at hmem
          rcases hmem with ⟨rfl, rfl⟩ | hmem
          · rw [hm] at hf
            simp only [Option.some.injEq] at hf
            subst hf
            rw [(store_none_iff C dec0 g w).2 hr] at hs
            simp at hs
          · exact ⟨k, w, f, hmem, hf, hr⟩

/-- Decoding the same value into the same field again changes nothing. -/
theorem store_idem (C : Codec) (dec dec1 : decBeaconBlock) (f : Field) (v : Json)
    (hs : store C dec f v = some dec1) : store C dec1 f v = some dec1 := by
  cases f <;>
  · simp only [store, Option.map_eq_some'] at hs ⊢
    obtain ⟨x, hx, rfl⟩ := hs
    exact ⟨x, hx, rfl⟩

/-- A field that holds the decoding of a value still does after a member is decoded into
another field. -/
theorem store_keep (C : Codec) (dec dec1 : decBeaconBlock) (f g : Field) (w v : Json)
    (hf : store C dec f w = some dec) (hg : store C dec g v = some dec1) (hne : f ≠ g) :
    store C dec1 f w = some dec1 := by
  cases f <;>
  · simp only [store, Option.map_eq_some'] at hf ⊢
    obtain ⟨x, hx, heq⟩ := hf
    refine ⟨x, hx, ?_⟩
    cases g <;> first
      | exact absurd rfl hne
      | (simp only [store, Option.map_eq_some'] at hg
         obtain ⟨y, -, rfl⟩ := hg
         rw [← heq])

/-- After `json.Unmarshal` from a decoding struct `dec0`, every field holds the decoding
of the value of the last member decoded into it. -/
theorem unmarshalFrom_value (C : Codec) : ∀ (input : List (String × Json))
    (dec0 dec : decBeaconBlock) (cur : Field → Option Json),
    (∀ f v, cur f = some v → store C dec0 f v = some dec0) →
    unmarshalFrom C dec0 input = some dec →
    ∀ f v, boundFrom f (cur f) input = some v → store C dec f v = some dec
  | [], dec0, dec, cur, h0, hr => by
    simp only [unmarshalFrom, Option.some.injEq] at hr
    subst hr
    intro f v hb
    simp only [boundFrom] at hb
    exact h0 f v hb
  | (key, w) :: rest, dec0, dec, cur, h0, hr => by
    simp only [unmarshalFrom] at hr
    intro f v hb
    simp only [boundFrom] at hb
    cases hm : matchField key with
    | none =>
      rw [hm] at hr hb
      simp only [reduceCtorEq, if_false] at hr hb
      exact unmarshalFrom_value C rest dec0 dec cur h0 hr f v hb
    | some g =>
      rw [hm] at hr hb
      simp only at hr
      cases hs : store C dec0 g w with
      | none => rw [hs] at hr; simp at hr
      | some dec1 =>
        rw [hs] at hr
        simp only at hr
        have h1 : ∀ f1 v1, (fun f2 => if some g = some f2 then some w else cur f2) f1 = some v1 →
            store C dec1 f1 v1 = some dec1 := by
          intro f1 v1 hc
          by_cases hfg : g = f1
          · subst hfg
            simp only [if_true, Option.some.injEq] at hc
            subst hc
            exact store_idem C dec0 dec1 g w hs
          · simp only [Option.some.injEq, hfg, if_false] at hc
            exact store_keep C dec0 dec1 f1 g v1 w (h0 f1 v1 hc) hs (fun h => hfg h.symm)
        exact unmarshalFrom_value C rest dec1 dec _ h1 hr f v hb

/-- When `json.Unmarshal` succeeds, every field of the decoding struct holds the decoding
of the value of the last member of the object decoded into it. -/
theorem unmarshal_values (C : Codec) (input : List (String × Json)) (dec : decBeaconBlock)
    (h : unmarshal C input = some dec) (f : Field) (v : Json) (hb : bound input f = some v) :
    store C dec f v = some dec :=
  unmarshalFrom_value C input decBeaconBlock.zero dec (fun _ => none)
    (fun f v hc => by simp at hc) h f v hb

/-- C19 is false as stated: on the object `exampleInput`, in which each of the 14
required fields is present with a value other than `null`, `UnmarshalJSON` returns an
error, the one of `json.Unmarshal`: the value of `parent_hash` is a number, which the
decoder of the field rejects. -/
theorem UnmarshalJSON_error_without_missing_field :
    (∀ f, f ∈ fields → missing exampleInput f = false) ∧
    exampleInput.map Prod.fst = requiredFields ∧
    firstMissing exampleInput = none ∧
    zeroBlock.UnmarshalJSON exampleCodec exampleInput = (some .decode, zeroBlock) := by
  refine ⟨by decide, by decide, by decide, by decide⟩

/-- C19 amended: on the members of a JSON object, decoded in input order, each into the
field that its name matches exactly or else up to case, `json.Unmarshal` fails exactly
when some member is decoded into a field whose decoder rejects its value, and
`UnmarshalJSON` then returns that error and leaves the receiver as it was.  When
`json.Unmarshal` succeeds, `UnmarshalJSON` returns an error exactly when one of the 14
required fields is missing (no member is decoded into it, or the last one is `null`), and
the message of the error names the first missing field in declaration order; when no
field is missing it returns no error and every field of the receiver is set to the
decoded value, the decoding of the last member decoded into the field. -/
theorem UnmarshalJSON_required_fields (C : Codec) (b : beaconBlock)
    (input : List (String × Json)) :
    (unmarshal C input = none ↔
      ∃ key v f, (key, v) ∈ input ∧ matchField key = some f ∧ rejected C f v = true) ∧
    (unmarshal C input = none → b.UnmarshalJSON C input = (some .decode, b)) ∧
    (∀ dec, unmarshal C input = some dec →
      (∀ f, firstMissing input = some f →
        (b.UnmarshalJSON C input).1 = some (.new (missingMessage f.name))) ∧
      (firstMissing input = none →
        ∃ b1, assigned dec = some b1 ∧ b.UnmarshalJSON C input = (none, b1)) ∧
      (∀ f v, bound input f = some v → store C dec f v = some dec)) := by
  refine ⟨unmarshalFrom_none_iff C input decBeaconBlock.zero, ?_, ?_⟩
  · intro h
    unfold beaconBlock.UnmarshalJSON
    rw [h]
  · intro dec h
    suffices hab : (∀ f, firstMissing input = some f →
          (b.UnmarshalJSON C input).1 = some (.new (missingMessage f.name))) ∧
        (firstMissing input = none →
          ∃ b1, assigned dec = some b1 ∧ b.UnmarshalJSON C input = (none, b1)) from
      ⟨hab.1, hab.2, unmarshal_values C input dec h⟩
    have hm := unmarshal_fields C input dec h
    have m1 := hm .ParentHash
    have m2 := hm .FeeRecipient
    have m3 := hm .StateRoot
    have m4 := hm .ReceiptsRoot
    have m5 := hm .LogsBloom
    have m6 := hm .Random
    have m7 := hm .Number
    have m8 := hm .GasLimit
    have m9 := hm .GasUsed
    have m10 := hm .Timestamp
    have m11 := hm .ExtraData
    have m12 := hm .BaseFeePerGas
    have m13 := hm .BlockHash
    have m14 := hm .Transactions
    unfold beaconBlock.UnmarshalJSON
    rw [h]
    simp only [firstMissing, fields, List.find?]
    obtain ⟨f1, f2, f3, f4, f5, f6, f7, f8, f9, f10, f11, f12, f13, f14⟩ := dec
    simp only [nilField] at m1 m2 m3 m4 m5 m6 m7 m8 m9 m10 m11 m12 m13 m14
    simp only [← m1, ← m2, ← m3, ← m4, ← m5, ← m6, ← m7, ← m8, ← m9, ← m10, ← m11, ← m12, ← m13, ← m14]
    rcases f1 with _ | x1
    · simp [missingMessage, Field.name]
    rcases f2 with _ | x2
    · simp [missingMessage, Field.name]
    rcases f3 with _ | x3
    · simp [missingMessage, Field.name]
    rcases f4 with _ | x4
    · simp [missingMessage, Field.name]
    rcases f5 with _ | x5
    · simp [missingMessage, Field.name]
    rcases f6 with _ | x6
    · simp [missingMessage, Field.name]
    rcases f7 with _ | x7
    · simp [missingMessage, Field.name]
    rcases f8 with _ | x8
    · simp [missingMessage, Field.name]
    rcases f9 with _ | x9
    · simp [missingMessage, Field.name]
    rcases f10 with _ | x10
    · simp [missingMessage, Field.name]
    rcases f11 with _ | x11
    · simp [missingMessage, Field.name]
    rcases f12 with _ | x12
    · simp [missingMessage, Field.name]
    rcases f13 with _ | x13
    · simp [missingMessage, Field.name]
    rcases f14 with _ | x14
    · simp [missingMessage, Field.name]
    simp [assigned]

/-- Witness of C19 amended: the example object without its first member, followed by a
member `Parent_Hash` with a string and a member `GAS_USED` with `null`: `json.Unmarshal`
succeeds, `parent_hash` is decoded from the member that matches it up to case, and the
error names `gas_used`, which the last member sets to nil. -/
theorem UnmarshalJSON_required_fields_witness :
    (zeroBlock.UnmarshalJSON exampleCodec
      (exampleInput.tail ++ [("Parent_Hash", Json.str "0x00"), ("GAS_USED", Json.null)])).1 =
      some (.new "missing required field 'gas_used' for beaconBlock") := by
  cases hdec : unmarshal exampleCodec
      (exampleInput.tail ++ [("Parent_Hash", Json.str "0x00"), ("GAS_USED", Json.null)]) with
  | none => exact absurd hdec (by decide)
  | some dec =>
    exact ((UnmarshalJSON_required_fields exampleCodec zeroBlock
      (exampleInput.tail ++ [("Parent_Hash", Json.str "0x00"), ("GAS_USED", Json.null)])).2.2
      dec hdec).1 .GasUsed (by decide)

end elay

